import Mathlib

/-!
# File-System-Search-Engine: query processor and connection framing

A shallow embedding of `hw3/QueryProcessor.cc`, `hw3/filesearchshell.cc`,
`hw4/HttpConnection.cc`, `hw4/HttpServer.cc`, `hw4/ServerSocket.cc` and
`hw1/LinkedList.c` together with theorems about them.

Conventions of the embedding:

* `std::string` is a `List Char`; `std::list` and `std::vector` are `List`.
* `DocID_t` (an unsigned 64-bit handle that the code only compares for
  equality) is a `Nat`; `int32_t` and `int` are `Int`, and the one `int32_t`
  addition of the code is reduced to the 32-bit two's-complement range.
* A nullable pointer result is an `Option`; `Verify333` failing is `none`.
* The index readers (`IndexTableReader`, `DocIDTableReader`,
  `DocTableReader`), `WrappedRead`, `WrappedWrite`, `HttpRequest`,
  `HttpResponse`, `URLParser`, `FileReader`, `EscapeHtml` and the ordering of
  `QueryResult` live outside the translated files; they enter as data
  (structures of lookup functions, lists of read and write outcomes) or as
  parameters.
* A loop that the code leaves by `break` only is given a number of rounds
  that it provably does not use up.
* The system calls of `ServerSocket` enter as their outcomes; the nodes of
  the linked list live in an explicit memory, addressed by `Nat`.
-/

namespace hw3

/-! ## Data model of the query processor -/

/-- One posting: a shard-local document id and the number of positions of the
term in that document (`DocIDElementHeader`). -/
structure DocIDElementHeader where
  doc_id : Nat
  num_positions : Int
  deriving DecidableEq, Repr

/-- The reader of one term's posting list (`DocIDTableReader`, a class of the
index library, which is not among the sources); `GetDocIDList` is its
content. -/
structure DocIDTableReader where
  GetDocIDList : List DocIDElementHeader

/-- The term index of one shard (`IndexTableReader`, a class of the index
library, which is not among the sources; its answers are taken as given):
`LookupWord` answers with a posting-list reader, or with nothing (a null
pointer) when the term is absent. -/
structure IndexTableReader where
  LookupWord : List Char → Option DocIDTableReader

/-- The document table of one shard (`DocTableReader`, a class of the index
library, which is not among the sources; its answers are taken as given):
`LookupDocID` answers with the name of a document id, or with nothing when
the id is unknown (it returns false). -/
structure DocTableReader where
  LookupDocID : Nat → Option (List Char)

/-- One result of a query (`QueryProcessor::QueryResult`). -/
structure QueryResult where
  document_name : List Char
  rank : Int
  deriving DecidableEq, Repr

/-- The state of a `QueryProcessor`: `itr_array_[i]` and `dtr_array_[i]` are
the two readers of shard `i`. -/
structure QueryProcessor where
  readers : List (IndexTableReader × DocTableReader)

/-- Reduction of an integer to the range of `int32_t` (two's complement). -/
def wrapInt32 (x : Int) : Int :=
  (x + 2147483648) % 4294967296 - 2147483648

/-- The `int32_t` addition `it1->num_positions + it2->num_positions`. -/
def addInt32 (a b : Int) : Int :=
  wrapInt32 (a + b)

/-! ## Intersection -/

/-- The inner loop of `Intersection`: walk `list2` from its start and stop
(`break`) at the first element whose `doc_id` equals that of `it1`; the result
is what that iteration pushes onto `result` (nothing when no element
matches). -/
def Intersection.inner (it1 : DocIDElementHeader) :
    List DocIDElementHeader → List DocIDElementHeader
  | [] => []
  | it2 :: rest =>
    if it1.doc_id = it2.doc_id then
      [DocIDElementHeader.mk it1.doc_id (addInt32 it1.num_positions it2.num_positions)]
    else
      Intersection.inner it1 rest

/-- The function `Intersection`: the outer loop runs over `list1`, and each of
its elements contributes what the inner loop over `list2` pushes. -/
def Intersection (list1 list2 : List DocIDElementHeader) : List DocIDElementHeader :=
  match list1 with
  | [] => []
  | it1 :: rest => Intersection.inner it1 list2 ++ Intersection rest list2

/-! ## MultiTermIntersection -/

/-- The loop `for (j = 1; j < query.size(); j++)` of `MultiTermIntersection`,
over the terms that remain, with the running `matching_docs`. -/
def MultiTermIntersection.loop (index_reader : IndexTableReader) :
    List (List Char) → List DocIDElementHeader → List DocIDElementHeader
  | [], matching_docs => matching_docs
  | term :: rest, matching_docs =>
    match index_reader.LookupWord term with
    | none => []
    | some curr_term =>
      let next_docs := curr_term.GetDocIDList
      let matching_docs := Intersection next_docs matching_docs
      if matching_docs.isEmpty then matching_docs
      else MultiTermIntersection.loop index_reader rest matching_docs

/-- The function `MultiTermIntersection`. The query is not empty when
`ProcessQuery` calls it; the first equation is never reached from there. -/
def MultiTermIntersection (query : List (List Char)) (index_reader : IndexTableReader) :
    List DocIDElementHeader :=
  match query with
  | [] => []
  | first :: rest =>
    match index_reader.LookupWord first with
    | none => []
    | some first_term =>
      MultiTermIntersection.loop index_reader rest first_term.GetDocIDList

/-! ## AddMatchingDocuments -/

/-- The function `AddMatchingDocuments`, for a valid `results` pointer (the
only case `ProcessQuery` produces): every document whose name lookup succeeds
is pushed at the back of `results` with `rank = num_positions`. -/
def AddMatchingDocuments (matching_docs : List DocIDElementHeader)
    (doc_reader : DocTableReader) (results : List QueryResult) : List QueryResult :=
  match matching_docs with
  | [] => results
  | doc :: rest =>
    match doc_reader.LookupDocID doc.doc_id with
    | some document_name =>
      AddMatchingDocuments rest doc_reader (results ++ [QueryResult.mk document_name doc.num_positions])
    | none => AddMatchingDocuments rest doc_reader results

/-! ## Sorting and ProcessQuery -/

/-- Insertion of one element into a list ordered by the strict order `lt`. -/
def sortInsert {α : Type} (lt : α → α → Bool) (x : α) : List α → List α
  | [] => [x]
  | y :: ys => if lt x y then x :: y :: ys else y :: sortInsert lt x ys

/-- The call `sort(first, last)`: the rearrangement of the range into
ascending order of `lt` (`operator<`). For a strict order in which two
elements that are not ordered are equal, the sorted rearrangement is unique,
and this insertion sort computes it. -/
def sort {α : Type} (lt : α → α → Bool) : List α → List α
  | [] => []
  | x :: xs => sortInsert lt x (sort lt xs)

/-- The shard loop of `ProcessQuery`: shard after shard, intersect and add
the matching documents to `final_result`. -/
def ProcessQuery.loop (query : List (List Char)) :
    List (IndexTableReader × DocTableReader) → List QueryResult → List QueryResult
  | [], final_result => final_result
  | (index_reader, doc_reader) :: rest, final_result =>
    let matching_docs := MultiTermIntersection query index_reader
    ProcessQuery.loop query rest (AddMatchingDocuments matching_docs doc_reader final_result)

/-- The method `QueryProcessor::ProcessQuery`. `lt` is `operator<` of
`QueryResult`, which is declared outside the translated file; `none` is the
abort of `Verify333(query.size() > 0)`. -/
def QueryProcessor.ProcessQuery (lt : QueryResult → QueryResult → Bool)
    (self : QueryProcessor) (query : List (List Char)) : Option (List QueryResult) :=
  if query.length > 0 then
    some (sort lt (ProcessQuery.loop query self.readers []))
  else
    none

/-- Lexicographic comparison of two strings by character code
(`std::string::operator<`). -/
def stringLt : List Char → List Char → Bool
  | [], [] => false
  | [], _ :: _ => true
  | _ :: _, [] => false
  | a :: as, b :: bs =>
    if a.toNat < b.toNat then true
    else if b.toNat < a.toNat then false
    else stringLt as bs

/-- Modelled from the spec: `operator<` of `QueryResult`, declared in
`QueryProcessor.h`, which is not among the sources. The specification orders
results ascending by the pair `(document_name, rank)`, the name being the
primary key. -/
def QueryResult.lt (a b : QueryResult) : Bool :=
  stringLt a.document_name b.document_name ||
    (a.document_name == b.document_name && decide (a.rank < b.rank))

end hw3

namespace hw4

/-! ## Strings -/

/-- The call `s.find(pattern)` of `std::string`: the first position at which
`pattern` occurs in `s`, or nothing (`npos`). -/
def find (pattern : List Char) (s : List Char) : Option Nat :=
  if pattern.isPrefixOf s then some 0
  else
    match s with
    | [] => none
    | _ :: rest => (find pattern rest).map (fun pos => pos + 1)

/-- The call `s.find(c)` for one character. -/
def findChar (c : Char) : List Char → Option Nat
  | [] => none
  | d :: rest => if d = c then some 0 else (findChar c rest).map (fun pos => pos + 1)

/-- The call `boost::algorithm::split(result, input, is_any_of(delims))` with
its default of not compressing adjacent delimiters: every delimiter character
ends one token, so `n` delimiters give `n + 1` tokens, empty ones included. -/
def split (delims : List Char) : List Char → List (List Char)
  | [] => [[]]
  | c :: rest =>
    if delims.contains c then [] :: split delims rest
    else
      match split delims rest with
      | [] => [[c]]
      | token :: tokens => (c :: token) :: tokens

/-- The classification `std::isspace` in the classic locale, which
`boost::algorithm::trim` uses. -/
def isSpace (c : Char) : Bool :=
  c = ' ' || c = '\t' || c = '\n' || c.toNat = 11 || c.toNat = 12 || c = '\r'

/-- The call `boost::algorithm::trim(s)`: white space is removed at both
ends. -/
def trim (s : List Char) : List Char :=
  ((s.dropWhile isSpace).reverse.dropWhile isSpace).reverse

/-- The conversion `std::tolower` of one character in the classic locale. -/
def toLowerChar (c : Char) : Char :=
  if 'A'.toNat ≤ c.toNat ∧ c.toNat ≤ 'Z'.toNat then Char.ofNat (c.toNat + 32) else c

/-- The call `boost::algorithm::to_lower(s)`. -/
def to_lower (s : List Char) : List Char :=
  s.map toLowerChar

/-! ## HttpRequest -/

/-- Modelled from the spec: the class `HttpRequest`, declared in
`HttpRequest.h`, which is not among the sources. A request is a resource path
and a mapping from header names to values; the mapping is kept as a list of
pairs with one entry per name. -/
structure HttpRequest where
  uri_ : List Char
  headers_ : List (List Char × List Char)
  deriving DecidableEq, Repr

/-- Modelled from the spec: the assignment `headers_[name] = value` on the
header map: the value of an existing name is overwritten (the last write
wins), a new name gets a new entry. -/
def headersInsert (name value : List Char) :
    List (List Char × List Char) → List (List Char × List Char)
  | [] => [(name, value)]
  | (n, v) :: rest =>
    if n = name then (n, value) :: rest else (n, v) :: headersInsert name value rest

/-- Modelled from the spec: `HttpRequest::set_uri`. -/
def HttpRequest.set_uri (self : HttpRequest) (uri : List Char) : HttpRequest :=
  { self with uri_ := uri }

/-- Modelled from the spec: `HttpRequest::AddHeader`. -/
def HttpRequest.AddHeader (self : HttpRequest) (name value : List Char) : HttpRequest :=
  { self with headers_ := headersInsert name value self.headers_ }

/-- Modelled from the spec: `HttpRequest::GetHeaderValue`, the value stored
for a name, and the empty string when there is none. -/
def HttpRequest.GetHeaderValue (self : HttpRequest) (name : List Char) : List Char :=
  match self.headers_.find? (fun entry => entry.1 = name) with
  | some entry => entry.2
  | none => []

/-! ## HttpConnection -/

/-- The terminator of a header block. -/
def kHeaderEnd : List Char := ['\r', '\n', '\r', '\n']

/-- The length of the terminator. -/
def kHeaderEndLen : Nat := 4

/-- The size of the read buffer. -/
def kBufferSize : Nat := 1024

/-- The loop of `ParseRequest` over the lines after the request line. -/
def ParseRequest.headers : List (List Char) → HttpRequest → HttpRequest
  | [], req => req
  | line :: rest, req =>
    if line.isEmpty then ParseRequest.headers rest req
    else
      match findChar ':' line with
      | none => ParseRequest.headers rest req
      | some colon_pos =>
        if colon_pos = 0 ∨ colon_pos = line.length - 1 then ParseRequest.headers rest req
        else
          let header_name := line.take colon_pos
          let header_value := line.drop (colon_pos + 1)
          let header_name := trim header_name
          let header_value := trim header_value
          let header_name := to_lower header_name
          ParseRequest.headers rest (req.AddHeader header_name header_value)

/-- The method `HttpConnection::ParseRequest`. -/
def ParseRequest (request : List Char) : HttpRequest :=
  let req : HttpRequest := HttpRequest.mk ['/'] []
  let lines := split ['\r', '\n'] request
  let req :=
    match lines with
    | [] => req
    | line0 :: _ =>
      let request_line := split [' '] line0
      match request_line with
      | _ :: uri :: _ => req.set_uri uri
      | _ => req
  ParseRequest.headers (lines.drop 1) req

/-- The outcome of one call `WrappedRead(fd_, read_buffer, kBufferSize)`:
some bytes stored in the read buffer, end of file, or an error. `WrappedRead`
is defined in `HttpUtils.cc`, which is not among the sources; what it returns
is taken as given. A call that asks for `kBufferSize` bytes stores at most
that many. -/
inductive ReadOutcome where
  | data (bytes : List Char)
  | closed
  | error
  deriving DecidableEq, Repr

/-- The value that `WrappedRead` returns: the number of bytes read, `0` when
the peer has closed and `-1` for an error. -/
def ReadOutcome.bytes_read : ReadOutcome → Int
  | ReadOutcome.data bytes => bytes.length
  | ReadOutcome.closed => 0
  | ReadOutcome.error => -1

/-- The bytes that the read stored in the read buffer. -/
def ReadOutcome.bytes : ReadOutcome → List Char
  | ReadOutcome.data bytes => bytes
  | ReadOutcome.closed => []
  | ReadOutcome.error => []

/-- The state of an `HttpConnection`. The descriptor `fd_` is the unread
input of the connection: the outcomes of the reads to come, in order; once
they are used up every further read reports end of file. `buffer_` holds the
bytes read and not yet handed out. -/
structure HttpConnection where
  fd_ : List ReadOutcome
  buffer_ : List Char
  deriving DecidableEq, Repr

/-- The loop `while (true)` of `GetNextRequest`. On success the result is the
local `header`, the block that is handed to `ParseRequest`, with the state of
the connection on return; on failure it is nothing with that state. -/
def GetNextRequest.loop : List ReadOutcome → List Char → Option (List Char) × HttpConnection
  | [], buffer =>
    match find kHeaderEnd buffer with
    | some header_end_pos =>
      (some (buffer.take (header_end_pos + kHeaderEndLen)),
        HttpConnection.mk [] (buffer.drop (header_end_pos + kHeaderEndLen)))
    | none => (none, HttpConnection.mk [] buffer)
  | outcome :: fd, buffer =>
    match find kHeaderEnd buffer with
    | some header_end_pos =>
      (some (buffer.take (header_end_pos + kHeaderEndLen)),
        HttpConnection.mk (outcome :: fd) (buffer.drop (header_end_pos + kHeaderEndLen)))
    | none =>
      if outcome.bytes_read ≤ 0 then (none, HttpConnection.mk fd buffer)
      else GetNextRequest.loop fd (buffer ++ outcome.bytes)

/-- The method `HttpConnection::GetNextRequest`: `some request` stands for
the return value `true` with `*request` assigned, `none` for `false`. -/
def HttpConnection.GetNextRequest (self : HttpConnection) :
    Option HttpRequest × HttpConnection :=
  match GetNextRequest.loop self.fd_ self.buffer_ with
  | (some header, conn) => (some (ParseRequest header), conn)
  | (none, conn) => (none, conn)

/-- A number of successive calls of `GetNextRequest` on one connection: the
results of the calls in order, and the connection after the last one. -/
def successiveRequests : Nat → HttpConnection → List (Option HttpRequest) × HttpConnection
  | 0, conn => ([], conn)
  | k + 1, conn =>
    let first := conn.GetNextRequest
    let others := successiveRequests k first.2
    (first.1 :: others.1, others.2)

end hw4

namespace hw3

/-! ## Notions used to state the properties of the query processor -/

/-- The values of `int32_t`. -/
def isInt32 (x : Int) : Prop := -2147483648 ≤ x ∧ x < 2147483648

instance (x : Int) : Decidable (isInt32 x) :=
  inferInstanceAs (Decidable (-2147483648 ≤ x ∧ x < 2147483648))

/-- The doc ids of a posting list, in its order and with its repetitions. -/
def docIds (postings : List DocIDElementHeader) : List Nat :=
  postings.map (fun e => e.doc_id)

/-- The first entry of a posting list for a doc id, if there is one. -/
def firstWithId (doc_id : Nat) (postings : List DocIDElementHeader) :
    Option DocIDElementHeader :=
  postings.find? (fun e => decide (e.doc_id = doc_id))

/-- The frequency of a document in a posting list: the number of positions of
its first entry there, and `0` when it has none. -/
def frequencyOf (doc_id : Nat) (postings : List DocIDElementHeader) : Int :=
  match firstWithId doc_id postings with
  | some e => e.num_positions
  | none => 0

/-- The posting list of a term in a shard: what `GetDocIDList` gives on the
reader that `LookupWord` returns, and the empty list for an absent term. -/
def IndexTableReader.postings (index_reader : IndexTableReader) (term : List Char) :
    List DocIDElementHeader :=
  match index_reader.LookupWord term with
  | some reader => reader.GetDocIDList
  | none => []

/-- The order of the pair `(document_name, rank)`, the name first: `a` is
before `b`, or equal to it. -/
def QueryResult.le (a b : QueryResult) : Prop :=
  stringLt a.document_name b.document_name = true ∨
    (a.document_name = b.document_name ∧ a.rank ≤ b.rank)

/-- The result that one matching document gives: its name with its
accumulated frequency as rank, or nothing when the name lookup fails. -/
def DocTableReader.resultFor (doc_reader : DocTableReader) (doc : DocIDElementHeader) :
    Option QueryResult :=
  match doc_reader.LookupDocID doc.doc_id with
  | some document_name => some (QueryResult.mk document_name doc.num_positions)
  | none => none

/-- The results of one shard for a query: what one round of the shard loop of
`ProcessQuery` adds to an empty `final_result`. -/
def shardResults (query : List (List Char)) (shard : IndexTableReader × DocTableReader) :
    List QueryResult :=
  AddMatchingDocuments (MultiTermIntersection query shard.1) shard.2 []

/-- Whether a shard has a posting list for every term of the query. -/
def hasAllTerms (query : List (List Char)) (shard : IndexTableReader × DocTableReader) : Bool :=
  query.all (fun term => (shard.1.LookupWord term).isSome)

/-- An index with the posting lists `t1 ↦ {1:3, 2:1}`, `t2 ↦ {2:2}`, and a
list `dup` in which document 1 occurs twice. -/
def exampleIndex : IndexTableReader :=
  IndexTableReader.mk (fun term =>
    if term = ['t', '1'] then some (DocIDTableReader.mk [⟨1, 3⟩, ⟨2, 1⟩])
    else if term = ['t', '2'] then some (DocIDTableReader.mk [⟨2, 2⟩])
    else if term = ['t'] then some (DocIDTableReader.mk [⟨1, 3⟩, ⟨3, 1⟩])
    else if term = ['d', 'u', 'p'] then some (DocIDTableReader.mk [⟨1, 3⟩, ⟨3, 1⟩, ⟨1, 3⟩])
    else none)

/-- A document table with the names `1 ↦ A`, `2 ↦ B`, `3 ↦ C`. -/
def exampleDocs : DocTableReader :=
  DocTableReader.mk (fun doc_id =>
    if doc_id = 1 then some ['A'] else if doc_id = 2 then some ['B']
    else if doc_id = 3 then some ['C'] else none)

/-- A first shard whose only document is `b.txt`, with 5 positions of `w`. -/
def exampleShard1 : IndexTableReader × DocTableReader :=
  (IndexTableReader.mk (fun term => if term = ['w'] then some (DocIDTableReader.mk [⟨1, 5⟩]) else none),
   DocTableReader.mk (fun doc_id => if doc_id = 1 then some "b.txt".toList else none))

/-- A second shard whose only document is `a.txt`, with 2 positions of `w`. -/
def exampleShard2 : IndexTableReader × DocTableReader :=
  (IndexTableReader.mk (fun term => if term = ['w'] then some (DocIDTableReader.mk [⟨1, 2⟩]) else none),
   DocTableReader.mk (fun doc_id => if doc_id = 1 then some "a.txt".toList else none))

end hw3

namespace hw4

/-- A complete header block with the terminator at its end and nowhere
before: the block is some text followed by the terminator, and the block
without its last byte does not contain the terminator. -/
def IsBlock (block : List Char) : Prop :=
  ∃ pre, block = pre ++ kHeaderEnd ∧ ¬ kHeaderEnd <:+: pre ++ kHeaderEnd.dropLast

/-- A request for `/x` with one header. -/
def exampleBlockX : List Char := "GET /x HTTP/1.1\r\nHost: h\r\n\r\n".toList

/-- A request for `/y` without headers. -/
def exampleBlockY : List Char := "GET /y HTTP/1.1\r\n\r\n".toList

end hw4

namespace hw3

/-! ## Construction of the query processor -/

/-- The loop of the constructor of `QueryProcessor` over `index_list_`: one
`FileIndexReader` per index file gives the two readers of a shard. The class
`FileIndexReader` belongs to the index library, which is not among the
sources; it is a parameter, with `none` for an index file that it cannot
open (a failed `Verify333`). -/
def QueryProcessor.new.readers
    (FileIndexReader : List Char → Bool → Option (IndexTableReader × DocTableReader))
    (validate : Bool) : List (List Char) → Option (List (IndexTableReader × DocTableReader))
  | [] => some []
  | index_file :: rest =>
    match FileIndexReader index_file validate with
    | none => none
    | some fir =>
      match QueryProcessor.new.readers FileIndexReader validate rest with
      | none => none
      | some readers => some (fir :: readers)

/-- The constructor `QueryProcessor::QueryProcessor(index_list, validate)`;
`none` is the abort of `Verify333(array_len_ > 0)` or of a reader that cannot
be opened. -/
def QueryProcessor.new
    (FileIndexReader : List Char → Bool → Option (IndexTableReader × DocTableReader))
    (index_list : List (List Char)) (validate : Bool) : Option QueryProcessor :=
  if index_list.length > 0 then
    match QueryProcessor.new.readers FileIndexReader validate index_list with
    | none => none
    | some readers => some (QueryProcessor.mk readers)
  else
    none

end hw3

namespace hw4

/-! ## HttpResponse and the collaborators of the server -/

/-- Modelled from the spec: the class `HttpResponse`, declared in
`HttpResponse.h`, which is not among the sources. A response is a protocol,
a status code and message, a content type and a body. -/
structure HttpResponse where
  protocol_ : List Char
  response_code_ : Int
  message_ : List Char
  content_type_ : List Char
  body_ : List Char
  deriving DecidableEq, Repr

/-- Modelled from the spec: the default constructor of `HttpResponse`; the
body of a new response is empty, and so is every field that no setter has
been called on. -/
def HttpResponse.new : HttpResponse :=
  HttpResponse.mk [] 0 [] [] []

/-- Modelled from the spec: `HttpResponse::AppendToBody`. -/
def HttpResponse.AppendToBody (self : HttpResponse) (text : List Char) : HttpResponse :=
  { self with body_ := self.body_ ++ text }

/-- Modelled from the spec: `HttpResponse::set_content_type`. -/
def HttpResponse.set_content_type (self : HttpResponse) (content_type : List Char) :
    HttpResponse :=
  { self with content_type_ := content_type }

/-- Modelled from the spec: `HttpResponse::set_protocol`. -/
def HttpResponse.set_protocol (self : HttpResponse) (protocol : List Char) : HttpResponse :=
  { self with protocol_ := protocol }

/-- Modelled from the spec: `HttpResponse::set_response_code`. -/
def HttpResponse.set_response_code (self : HttpResponse) (code : Int) : HttpResponse :=
  { self with response_code_ := code }

/-- Modelled from the spec: `HttpResponse::set_message`. -/
def HttpResponse.set_message (self : HttpResponse) (message : List Char) : HttpResponse :=
  { self with message_ := message }

/-- The collaborators of `HttpServer.cc` that are not among the sources, taken
as given: `URLParser` (`path` and `args` are what `path()` and `args()` return
after `Parse(uri)`), `EscapeHtml`, `FileReader` (`ReadFile base_dir file_name`
is the content read, or nothing when `ReadFile` returns false),
`FileIndexReader` (see `QueryProcessor.new`) and `operator<` of
`QueryResult`. -/
structure Collaborators where
  path : List Char → List Char
  args : List Char → List (List Char × List Char)
  EscapeHtml : List Char → List Char
  ReadFile : List Char → List Char → Option (List Char)
  FileIndexReader : List Char → Bool →
    Option (hw3.IndexTableReader × hw3.DocTableReader)
  lt : hw3.QueryResult → hw3.QueryResult → Bool

/-- The access `args()[name]` to a `std::map`: the value stored for the name,
and the empty string when there is none. -/
def argsLookup (args : List (List Char × List Char)) (name : List Char) : List Char :=
  match args.find? (fun entry => entry.1 = name) with
  | some entry => entry.2
  | none => []

/-! ## HttpServer -/

/-- The landing page with the search box. -/
def kThreegleStr : List Char :=
  ("<html><head><title>333gle</title></head>\n" ++
  "<body>\n" ++
  "<center style=\"font-size:500%;\">\n" ++
  "<span style=\"position:relative;bottom:-0.33em;color:orange;\">3</span>" ++
    "<span style=\"color:red;\">3</span>" ++
    "<span style=\"color:gold;\">3</span>" ++
    "<span style=\"color:blue;\">g</span>" ++
    "<span style=\"color:green;\">l</span>" ++
    "<span style=\"color:red;\">e</span>\n" ++
  "</center>\n" ++
  "<p>\n" ++
  "<div style=\"height:20px;\"></div>\n" ++
  "<center>\n" ++
  "<form action=\"/query\" method=\"get\">\n" ++
  "<input type=\"text\" size=30 name=\"terms\" />\n" ++
  "<input type=\"submit\" value=\"Search\" />\n" ++
  "</form>\n" ++
  "</center><p>\n").toList

/-- The call `s.rfind(".")` for the one character `c`: the last position at
which it occurs in `s`, or nothing (`npos`). -/
def rfindChar (c : Char) : List Char → Option Nat
  | [] => none
  | d :: rest =>
    match rfindChar c rest with
    | some position => some (position + 1)
    | none => if d = c then some 0 else none

/-- The table `content_types` of `GetContentType`. -/
def content_types : List (List Char × List Char) :=
  [(".html".toList, "text/html".toList), (".htm".toList, "text/html".toList),
   (".jpeg".toList, "image/jpeg".toList), (".jpg".toList, "image/jpeg".toList),
   (".png".toList, "image/png".toList), (".txt".toList, "text/plain".toList),
   (".js".toList, "text/javascript".toList), (".css".toList, "text/css".toList),
   (".xml".toList, "text/xml".toList), (".gif".toList, "image/gif".toList)]

/-- The function `GetContentType`. -/
def GetContentType (file_name : List Char) : List Char :=
  match rfindChar '.' file_name with
  | some position =>
    let extension := file_name.drop position
    match content_types.find? (fun entry => entry.1 = extension) with
    | some entry => entry.2
    | none => "text/plain".toList
  | none => "text/plain".toList

/-- The function `ProcessFileRequest`. -/
def ProcessFileRequest (ext : Collaborators) (uri base_dir : List Char) : HttpResponse :=
  let ret := HttpResponse.new
  let file_name : List Char :=
    if (ext.path uri).length > 8 then (ext.path uri).drop 8 else []
  match ext.ReadFile base_dir file_name with
  | some file_content =>
    let ret := ret.AppendToBody file_content
    let ret := ret.set_content_type (GetContentType file_name)
    let ret := ret.set_protocol "HTTP/1.1".toList
    let ret := ret.set_response_code 200
    ret.set_message "OK".toList
  | none =>
    let ret := ret.set_protocol "HTTP/1.1".toList
    let ret := ret.set_response_code 404
    let ret := ret.set_message "Not Found".toList
    ret.AppendToBody ("<html><body>Couldn't find file \"".toList
      ++ ext.EscapeHtml file_name ++ "\"</body></html>\n".toList)

/-- The call `boost::split(result, input, is_any_of(delims),
token_compress_on)`: as `split`, but a run of adjacent delimiters ends one
token only. -/
def splitCompress (delims : List Char) : List Char → List (List Char)
  | [] => [[]]
  | c :: rest =>
    if delims.contains c then
      match rest with
      | [] => [] :: splitCompress delims rest
      | d :: _ =>
        if delims.contains d then splitCompress delims rest
        else [] :: splitCompress delims rest
    else
      match splitCompress delims rest with
      | [] => [[c]]
      | token :: tokens => (c :: token) :: tokens

/-- The call `std::to_string(n)` for an unsigned number. -/
def to_string (n : Nat) : List Char :=
  Nat.toDigits 10 n

/-- The call `std::to_string(i)` for an `int`. -/
def to_string_int (i : Int) : List Char :=
  if i < 0 then '-' :: Nat.toDigits 10 i.natAbs else Nat.toDigits 10 i.natAbs

/-- The loop of `AppendSearchResults` over the results. The call
`docname.substr(12)` throws `std::out_of_range` for a name of fewer than 12
characters; nothing catches it, and the result is `none`. -/
def AppendSearchResults.loop (EscapeHtml : List Char → List Char) :
    List hw3.QueryResult → HttpResponse → Option HttpResponse
  | [], response => some response
  | result :: rest, response =>
    let docname := result.document_name
    if docname.take 7 ≠ "http://".toList then
      if docname.length < 12 then none
      else
        let href_prefix := "/static/".toList
        let docname := docname.drop 12
        AppendSearchResults.loop EscapeHtml rest (response.AppendToBody
          ("<li>\n<a href=\"".toList ++ href_prefix ++ docname ++ "\">".toList ++
            EscapeHtml docname ++ "</a> [".toList ++
            to_string_int result.rank ++ "]<br>\n</li>\n".toList))
    else
      let href_prefix : List Char := []
      AppendSearchResults.loop EscapeHtml rest (response.AppendToBody
        ("<li>\n<a href=\"".toList ++ href_prefix ++ docname ++ "\">".toList ++
          EscapeHtml docname ++ "</a> [".toList ++
          to_string_int result.rank ++ "]<br>\n</li>\n".toList))

/-- The function `AppendSearchResults`, for a valid `response` pointer. -/
def AppendSearchResults (EscapeHtml : List Char → List Char) (response : HttpResponse)
    (terms : List Char) (results : List hw3.QueryResult) : Option HttpResponse :=
  if results.isEmpty then
    some (response.AppendToBody
      ("<p><br>\r\nNo results found for <b>".toList ++ EscapeHtml terms ++
        "</b><p>\r\n\r\n".toList))
  else
    let response := response.AppendToBody
      ("<p><br>\r\n".toList ++ to_string results.length ++ " result".toList ++
        (if results.length > 1 then "s".toList else []) ++
        " found for <b>".toList ++ EscapeHtml terms ++ "</b><p>\r\n\r\n<ul>\r\n".toList)
    match AppendSearchResults.loop EscapeHtml results response with
    | none => none
    | some response => some (response.AppendToBody "</ul>\r\n".toList)

/-- The search terms of `ProcessQueryRequest`, from the value of the parameter
`terms`: the value trimmed and put in lower case, and its split at spaces,
adjacent spaces counting once. -/
def ProcessQueryRequest.query_terms (terms : List Char) : List Char × List (List Char) :=
  let terms := trim terms
  let terms := to_lower terms
  (terms, splitCompress [' '] terms)

/-- The function `ProcessQueryRequest`; `none` is the end of the process by a
failed `Verify333` or by an exception that nothing catches. -/
def ProcessQueryRequest (ext : Collaborators) (uri : List Char)
    (indices : List (List Char)) : Option HttpResponse :=
  let ret := HttpResponse.new
  let ret := ret.AppendToBody kThreegleStr
  let finish := fun (ret : HttpResponse) =>
    let ret := ret.AppendToBody "</body>\r\n</html>\r\n".toList
    let ret := ret.set_protocol "HTTP/1.1".toList
    let ret := ret.set_response_code 200
    ret.set_message "OK".toList
  if (find "query?terms=".toList uri).isSome then
    let terms := argsLookup (ext.args uri) "terms".toList
    let query_terms := (ProcessQueryRequest.query_terms terms).2
    let terms := (ProcessQueryRequest.query_terms terms).1
    match hw3.QueryProcessor.new ext.FileIndexReader indices false with
    | none => none
    | some query_processor =>
      match query_processor.ProcessQuery ext.lt query_terms with
      | none => none
      | some results =>
        match AppendSearchResults ext.EscapeHtml ret terms results with
        | none => none
        | some ret => some (finish ret)
  else
    some (finish ret)

/-- The function `ProcessRequest`. -/
def ProcessRequest (ext : Collaborators) (req : HttpRequest) (base_dir : List Char)
    (indices : List (List Char)) : Option HttpResponse :=
  if req.uri_.take 8 = "/static/".toList then
    some (ProcessFileRequest ext req.uri_ base_dir)
  else
    ProcessQueryRequest ext req.uri_ indices

/-- The outcome of the call of `WrappedWrite` in `WriteResponse`: all the
bytes of the response were written, or not. `WrappedWrite` is defined in
`HttpUtils.cc`, which is not among the sources. -/
inductive WriteOutcome where
  | complete
  | incomplete
  deriving DecidableEq, Repr

/-- The method `HttpConnection::WriteResponse`, over the outcomes of the
writes to come on the descriptor: the first of them decides whether the
string of the response is written in full, and once they are used up a write
fails. The result is the return value and the outcomes that remain. -/
def WriteResponse (_response : HttpResponse) (writes : List WriteOutcome) :
    Bool × List WriteOutcome :=
  match writes with
  | [] => (false, [])
  | WriteOutcome.complete :: rest => (true, rest)
  | WriteOutcome.incomplete :: rest => (false, rest)

/-- What a worker does on the client socket, in order. -/
inductive ServerEvent where
  | wrote (response : HttpResponse)
  | writeFailed (response : HttpResponse)
  | closed
  deriving DecidableEq, Repr

/-- How the loop of `HttpServer_ThrFn` ends: by a `break`, by the end of the
process inside `ProcessRequest`, or not within the number of rounds given. -/
inductive LoopEnd where
  | ended
  | aborted
  | unfinished
  deriving DecidableEq, Repr

/-- The task of a worker: the client socket (the reads and the writes to
come on `client_fd`), the directory of the static files and the index
files. -/
structure HttpServerTask where
  client_reads : List ReadOutcome
  client_writes : List WriteOutcome
  base_dir : List Char
  indices : List (List Char)

/-- The loop `while (true)` of `HttpServer_ThrFn`, for at most a number of
rounds: the events on the socket, the connection and the writes left when
the loop ends, and how it ends. -/
def HttpServer_ThrFn.loop (ext : Collaborators) (base_dir : List Char)
    (indices : List (List Char)) :
    Nat → HttpConnection → List WriteOutcome →
      List ServerEvent × HttpConnection × List WriteOutcome × LoopEnd
  | 0, http_connection, writes => ([], http_connection, writes, LoopEnd.unfinished)
  | rounds + 1, http_connection, writes =>
    match http_connection.GetNextRequest with
    | (none, http_connection) => ([], http_connection, writes, LoopEnd.ended)
    | (some request, http_connection) =>
      if request.GetHeaderValue "connection".toList = "close".toList then
        ([], http_connection, writes, LoopEnd.ended)
      else
        match ProcessRequest ext request base_dir indices with
        | none => ([], http_connection, writes, LoopEnd.aborted)
        | some response =>
          match WriteResponse response writes with
          | (false, writes) =>
            ([ServerEvent.writeFailed response], http_connection, writes, LoopEnd.ended)
          | (true, writes) =>
            let later := HttpServer_ThrFn.loop ext base_dir indices rounds http_connection writes
            (ServerEvent.wrote response :: later.1, later.2)

/-- The number of bytes that a connection holds or can still read. Every
request that `GetNextRequest` hands out takes at least the four bytes of its
terminator from them. -/
def HttpConnection.pending (self : HttpConnection) : Nat :=
  self.buffer_.length + ((self.fd_.map (fun outcome => outcome.bytes.length)).sum)

/-- The function `HttpServer_ThrFn`: the loop, and then `close(client_fd)`
unless the process has ended before. The loop is given one round more than
the connection has bytes, which is more than it can use. -/
def HttpServer_ThrFn (ext : Collaborators) (hst : HttpServerTask) :
    List ServerEvent × HttpConnection × List WriteOutcome × LoopEnd :=
  let http_connection := HttpConnection.mk hst.client_reads []
  let run := HttpServer_ThrFn.loop ext hst.base_dir hst.indices
    (http_connection.pending + 1) http_connection hst.client_writes
  match run.2.2.2 with
  | LoopEnd.ended => (run.1 ++ [ServerEvent.closed], run.2)
  | _ => run

/-! ## Notions used to state the properties of `ParseRequest` -/

/-- The first line of a request: its text before the first `\r` or `\n`. -/
def firstLine (request : List Char) : List Char :=
  request.takeWhile (fun c => !(c == '\r' || c == '\n'))

/-- The header that one line gives in `ParseRequest`: the name and the value
that the body of the loop hands to `AddHeader`, or nothing for a line that it
skips. -/
def headerOf (line : List Char) : Option (List Char × List Char) :=
  if line.isEmpty then none
  else
    match findChar ':' line with
    | none => none
    | some colon_pos =>
      if colon_pos = 0 ∨ colon_pos = line.length - 1 then none
      else some (to_lower (trim (line.take colon_pos)), trim (line.drop (colon_pos + 1)))

/-- A line free of `\r` and `\n`, as the lines of a header block are. -/
def IsLine (line : List Char) : Prop :=
  '\r' ∉ line ∧ '\n' ∉ line

instance (line : List Char) : Decidable (IsLine line) :=
  inferInstanceAs (Decidable ('\r' ∉ line ∧ '\n' ∉ line))



/-- The part of `ParseRequest` that follows the split into lines. -/
def ParseRequest.ofLines (lines : List (List Char)) : HttpRequest :=
  let req : HttpRequest := HttpRequest.mk ['/'] []
  let req :=
    match lines with
    | [] => req
    | line0 :: _ =>
      match split [' '] line0 with
      | _ :: uri :: _ => req.set_uri uri
      | _ => req
  ParseRequest.headers (lines.drop 1) req

/-- The headers that the lines after the request line give, in their order. -/
def headerPairs (request : List Char) : List (List Char × List Char) :=
  ((split ['\r', '\n'] request).drop 1).filterMap headerOf



/-- The maximal substrings of a text that are free of separators, in their
order: the pieces between the separators that are not empty. -/
def maximalFreeSubstrings (separator : Char → Bool) (text : List Char) : List (List Char) :=
  (text.splitOnP separator).filter (fun piece => !piece.isEmpty)

/-- Collaborators for the examples: the path of a URI is its text before the
first `?`, its only parameter is `terms` with the text after `terms=` as
value, `EscapeHtml` replaces `<`, the only file is `hello.txt`, and every
index file gives the example shard. -/
def exampleCollaborators : Collaborators where
  path := fun uri => uri.takeWhile (fun c => !(c == '?'))
  args := fun uri =>
    match find "terms=".toList uri with
    | some pos => [("terms".toList, uri.drop (pos + 6))]
    | none => []
  EscapeHtml := fun text =>
    (text.map (fun c => if c = '<' then "&lt;".toList else [c])).flatten
  ReadFile := fun _ file_name =>
    if file_name = "hello.txt".toList then some "hi".toList else none
  FileIndexReader := fun _ _ => some (hw3.exampleIndex, hw3.exampleDocs)
  lt := hw3.QueryResult.lt



/-- The response to a request for the file `hello.txt` of the examples. -/
def exampleHelloResponse : HttpResponse :=
  HttpResponse.mk "HTTP/1.1".toList 200 "OK".toList "text/plain".toList "hi".toList

/-- A request for the file `hello.txt`. -/
def exampleHelloRequest : HttpRequest :=
  HttpRequest.mk "/static/hello.txt".toList []

/-- A request that asks to close the connection. -/
def exampleCloseRequest : HttpRequest :=
  HttpRequest.mk "/static/hello.txt".toList [("connection".toList, "close".toList)]

/-- A client that sends two requests for `hello.txt` and then one that asks
to close the connection, in one read, and that takes every write. -/
def exampleCloseTask : HttpServerTask where
  client_reads := [ReadOutcome.data
    ("GET /static/hello.txt HTTP/1.1\r\n\r\n".toList ++
      "GET /static/hello.txt HTTP/1.1\r\n\r\n".toList ++
      "GET /static/hello.txt HTTP/1.1\r\nConnection: close\r\n\r\n".toList)]
  client_writes := [WriteOutcome.complete, WriteOutcome.complete, WriteOutcome.complete]
  base_dir := []
  indices := []

/-- A client that sends two requests for `hello.txt` in two reads and then
closes, and that takes every write. -/
def exampleEofTask : HttpServerTask where
  client_reads := [ReadOutcome.data "GET /static/hello.txt HTTP/1.1\r\n\r\nGET /sta".toList,
    ReadOutcome.data "tic/hello.txt HTTP/1.1\r\n\r\n".toList, ReadOutcome.closed]
  client_writes := [WriteOutcome.complete, WriteOutcome.complete]
  base_dir := []
  indices := []

/-- A client that sends three requests for `hello.txt` in one read and takes
the first response only. -/
def exampleWriteFailureTask : HttpServerTask where
  client_reads := [ReadOutcome.data
    ("GET /static/hello.txt HTTP/1.1\r\n\r\n".toList ++
      "GET /static/hello.txt HTTP/1.1\r\n\r\n".toList ++
      "GET /static/hello.txt HTTP/1.1\r\n\r\n".toList)]
  client_writes := [WriteOutcome.complete, WriteOutcome.incomplete, WriteOutcome.complete]
  base_dir := []
  indices := []

end hw4

namespace hw4

/-! ## Notions used to state the properties of the query page -/

/-- The closing markup of the query page. -/
def kClosing : List Char := "</body>\r\n</html>\r\n".toList

/-- The response of the query route with a given body: what the end of
`ProcessQueryRequest` makes of it. -/
def queryResponse (body : List Char) : HttpResponse :=
  HttpResponse.mk "HTTP/1.1".toList 200 "OK".toList [] body

/-- The entry that `AppendSearchResults` writes for one result, or nothing
when `substr(12)` throws for its name. -/
def resultEntry (EscapeHtml : List Char → List Char) (result : hw3.QueryResult) :
    Option (List Char) :=
  if result.document_name.take 7 = "http://".toList then
    some ("<li>\n<a href=\"".toList ++ result.document_name ++ "\">".toList ++
      EscapeHtml result.document_name ++ "</a> [".toList ++
      to_string_int result.rank ++ "]<br>\n</li>\n".toList)
  else if result.document_name.length < 12 then none
  else
    some ("<li>\n<a href=\"".toList ++ "/static/".toList ++ result.document_name.drop 12 ++
      "\">".toList ++ EscapeHtml (result.document_name.drop 12) ++ "</a> [".toList ++
      to_string_int result.rank ++ "]<br>\n</li>\n".toList)

/-- The entries that `AppendSearchResults` writes for a list of results, one
after the other, or nothing when `substr(12)` throws for one of the names. -/
def resultEntries (EscapeHtml : List Char → List Char) :
    List hw3.QueryResult → Option (List Char)
  | [] => some []
  | result :: rest =>
    match resultEntry EscapeHtml result, resultEntries EscapeHtml rest with
    | some entry, some entries => some (entry ++ entries)
    | _, _ => none

/-- The count line of `AppendSearchResults` for a number of results. -/
def countLine (EscapeHtml : List Char → List Char) (terms : List Char) (n : Nat) : List Char :=
  "<p><br>\r\n".toList ++ to_string n ++ " result".toList ++
    (if n > 1 then "s".toList else []) ++
    " found for <b>".toList ++ EscapeHtml terms ++ "</b><p>\r\n\r\n<ul>\r\n".toList

/-- Collaborators as `exampleCollaborators`, with an index whose documents
have names under the root `../projdocs/`. -/
def exampleDocsCollaborators : Collaborators :=
  { exampleCollaborators with
    FileIndexReader := fun _ _ =>
      some (hw3.exampleIndex, hw3.DocTableReader.mk (fun doc_id =>
        if doc_id = 1 then some "../projdocs/a.txt".toList
        else if doc_id = 2 then some "http://b.org/".toList
        else none)) }

end hw4

namespace hw4

/-! ## ServerSocket -/

/-- The address family `AF_UNSPEC` (value of `<sys/socket.h>` on Linux). -/
def AF_UNSPEC : Int := 0

/-- The address family `AF_INET`. -/
def AF_INET : Int := 2

/-- The address family `AF_INET6`. -/
def AF_INET6 : Int := 10

/-- The error number `EINTR` (value of `<errno.h>` on Linux). -/
def EINTR : Int := 4

/-- The error number `EAGAIN`. -/
def EAGAIN : Int := 11

/-- The state of a `ServerSocket`. -/
structure ServerSocket where
  port_ : Nat
  listen_sock_fd_ : Int
  sock_family_ : Int
  deriving DecidableEq, Repr

/-- A call that opens or closes a socket descriptor. -/
inductive SocketCall where
  | socket (fd : Int)
  | close (fd : Int)
  deriving DecidableEq, Repr

/-- One candidate of the list that `getaddrinfo` returns, with the outcomes
of the system calls that `BindAndListen` makes for it: what `socket`
returns (`ret_fd`), what `setsockopt` returns on that socket and what `bind`
returns. The system calls are taken as given. -/
structure addrinfo where
  ai_family : Int
  ret_fd : Int
  set_sockopt_res : Int
  bind_res : Int
  deriving DecidableEq, Repr

/-- The loop of `BindAndListen` over the candidates: the value of `ret_fd`
after the loop, the value of `sock_family_`, and the calls that opened and
closed sockets, in order. -/
def BindAndListen.loop (sock_family_ : Int) : List addrinfo → Int × Int × List SocketCall
  | [] => (-1, sock_family_, [])
  | rp :: rest =>
    let ret_fd := rp.ret_fd
    if ret_fd = -1 then BindAndListen.loop sock_family_ rest
    else if rp.set_sockopt_res ≠ 0 then
      let later := BindAndListen.loop sock_family_ rest
      (later.1, later.2.1, SocketCall.socket ret_fd :: SocketCall.close ret_fd :: later.2.2)
    else if rp.bind_res = 0 then
      (ret_fd, rp.ai_family, [SocketCall.socket ret_fd])
    else
      let later := BindAndListen.loop sock_family_ rest
      (later.1, later.2.1, SocketCall.socket ret_fd :: SocketCall.close ret_fd :: later.2.2)

/-- The method `ServerSocket::BindAndListen`, over what `getaddrinfo` returns
(`get_addr_info_res` and the candidates `result`) and what `listen` returns:
the descriptor stored in `*listen_fd` when the method returns true and
nothing when it returns false, the state of the object, and the calls that
opened and closed sockets. -/
def ServerSocket.BindAndListen (self : ServerSocket) (ai_family : Int)
    (get_addr_info_res : Int) (result : List addrinfo) (listen_res : Int) :
    Option Int × ServerSocket × List SocketCall :=
  if ai_family ≠ AF_INET ∧ ai_family ≠ AF_INET6 ∧ ai_family ≠ AF_UNSPEC then
    (none, self, [])
  else if get_addr_info_res ≠ 0 then
    (none, self, [])
  else
    let run := BindAndListen.loop self.sock_family_ result
    let ret_fd := run.1
    let self := { self with sock_family_ := run.2.1 }
    if ret_fd = -1 then (none, self, run.2.2)
    else if listen_res ≠ 0 then (none, self, run.2.2 ++ [SocketCall.close ret_fd])
    else (some ret_fd, { self with listen_sock_fd_ := ret_fd }, run.2.2)

/-- A socket address as the code reads it: the family, the text that
`inet_ntop` gives for the address, and the port in host order. -/
structure sockaddr where
  sa_family : Int
  ip : List Char
  port : Nat
  deriving DecidableEq, Repr

/-- The outcome of one call of `accept` on the listening socket, with the
outcomes of the lookups that `Accept` makes for an accepted socket: the
descriptor that `accept` returns and `errno`, the address of the peer, the
name that `getnameinfo` gives for the peer (nothing when it fails), the
address that `getsockname` gives for the accepted socket (nothing when it
fails) and the name that `getnameinfo` gives for that address. The system
calls are taken as given. -/
structure AcceptOutcome where
  client_fd : Int
  errno : Int
  client_addr : sockaddr
  client_hostname : Option (List Char)
  server_addr : Option sockaddr
  server_hostname : Option (List Char)
  deriving DecidableEq, Repr

/-- The output parameters of a call of `Accept` that returns true. -/
structure Accepted where
  accepted_fd : Int
  client_addr : List Char
  client_port : Nat
  client_dns_name : List Char
  server_addr : List Char
  server_dns_name : List Char
  deriving DecidableEq, Repr

/-- The function `GetSocketInfo`, over what `getsockname` and `getnameinfo`
give: the address and the name, or nothing when it returns false. -/
def GetSocketInfo (getsockname : Option sockaddr) (getnameinfo : Option (List Char)) :
    Option (List Char × List Char) :=
  match getsockname with
  | none => none
  | some server_addr =>
    if server_addr.sa_family = AF_INET ∨ server_addr.sa_family = AF_INET6 then
      let ip_addr := server_addr.ip
      let dns_name :=
        match getnameinfo with
        | some hostname => hostname
        | none => "<unknown>".toList
      some (ip_addr, dns_name)
    else none

/-- The loop `while (true)` of `Accept` over the outcomes of the calls of
`accept` to come: the call that ends the loop by `break`, or nothing when
the loop ends by `return false`, with the outcomes that remain. The result is
`none` when the outcomes are used up while `accept` still asks for another
call. -/
def Accept.loop : List AcceptOutcome → Option (Option AcceptOutcome × List AcceptOutcome)
  | [] => none
  | call :: rest =>
    if call.client_fd ≥ 0 then some (some call, rest)
    else if call.errno = EAGAIN ∨ call.errno = EINTR then Accept.loop rest
    else some (none, rest)

/-- The method `ServerSocket::Accept`: the output parameters when it returns
true and nothing when it returns false, the sockets it closed, and the
outcomes of `accept` that remain. -/
def ServerSocket.Accept (accepts : List AcceptOutcome) :
    Option (Option Accepted × List SocketCall × List AcceptOutcome) :=
  match Accept.loop accepts with
  | none => none
  | some (none, rest) => some (none, [], rest)
  | some (some call, rest) =>
    let client_fd := call.client_fd
    if call.client_addr.sa_family = AF_INET ∨ call.client_addr.sa_family = AF_INET6 then
      let client_addr := call.client_addr.ip
      let client_port := call.client_addr.port
      let client_dns_name :=
        match call.client_hostname with
        | some client_hostname => client_hostname
        | none => "<unknown>".toList
      match GetSocketInfo call.server_addr call.server_hostname with
      | none => some (none, [SocketCall.close client_fd], rest)
      | some (server_addr, server_dns_name) =>
        some (some (Accepted.mk client_fd client_addr client_port client_dns_name
          server_addr server_dns_name), [], rest)
    else some (none, [SocketCall.close client_fd], rest)

/-! ## Notions used to state the properties of `ServerSocket` -/

/-- A candidate for which the creation of the socket, the setting of the
option and the bind all succeed. -/
def addrinfo.binds (rp : addrinfo) : Prop :=
  rp.ret_fd ≠ -1 ∧ rp.set_sockopt_res = 0 ∧ rp.bind_res = 0

instance (rp : addrinfo) : Decidable rp.binds :=
  inferInstanceAs (Decidable (rp.ret_fd ≠ -1 ∧ rp.set_sockopt_res = 0 ∧ rp.bind_res = 0))

/-- The calls for a candidate that does not bind: none when no socket is
created, and else the creation of the socket and its close. -/
def addrinfo.failedCalls (rp : addrinfo) : List SocketCall :=
  if rp.ret_fd = -1 then [] else [SocketCall.socket rp.ret_fd, SocketCall.close rp.ret_fd]

/-- The sockets that are open after a sequence of calls, the last opened
first. -/
def openSockets (calls : List SocketCall) : List Int :=
  calls.foldl (fun opened call =>
    match call with
    | SocketCall.socket fd => fd :: opened
    | SocketCall.close fd => opened.erase fd) []

/-- A call of `accept` that fails with `EAGAIN` or `EINTR`. -/
def AcceptOutcome.retry (call : AcceptOutcome) : Prop :=
  call.client_fd < 0 ∧ (call.errno = EAGAIN ∨ call.errno = EINTR)

instance (call : AcceptOutcome) : Decidable call.retry :=
  inferInstanceAs (Decidable (call.client_fd < 0 ∧ (call.errno = EAGAIN ∨ call.errno = EINTR)))

/-- A peer address of the family v4 or v6. -/
def sockaddr.supported (addr : sockaddr) : Prop :=
  addr.sa_family = AF_INET ∨ addr.sa_family = AF_INET6

instance (addr : sockaddr) : Decidable addr.supported :=
  inferInstanceAs (Decidable (addr.sa_family = AF_INET ∨ addr.sa_family = AF_INET6))

/-- Two candidates that fail, one that binds to the descriptor 5, and one
that is not tried. -/
def exampleCandidates : List addrinfo :=
  [addrinfo.mk 10 (-1) 0 0, addrinfo.mk 10 4 0 (-1), addrinfo.mk 2 5 0 0, addrinfo.mk 2 6 0 0]

/-- An accepted connection of a v4 peer without reverse name, on a local
address with a name. -/
def exampleAccepted : AcceptOutcome :=
  AcceptOutcome.mk 7 0 (sockaddr.mk 2 "10.0.0.9".toList 4242) none
    (some (sockaddr.mk 2 "10.0.0.1".toList 8080)) (some "server".toList)

/-- A call of `accept` that is interrupted. -/
def exampleInterrupted : AcceptOutcome :=
  AcceptOutcome.mk (-1) 4 (sockaddr.mk 0 [] 0) none none none

end hw4

namespace hw4

/-- The name that a lookup gives, or the name `<unknown>` when the lookup
fails. -/
def nameOrUnknown (hostname : Option (List Char)) : List Char :=
  match hostname with
  | some name => name
  | none => "<unknown>".toList

/-- A connection that `accept` returns on the descriptor 7 from a v4 peer,
for which `getsockname` fails. -/
def exampleNoSockname : AcceptOutcome :=
  AcceptOutcome.mk 7 0 (sockaddr.mk 2 "10.0.0.9".toList 4242) (some "peer".toList) none none

end hw4

namespace hw1

/-! ## LinkedList

The doubly linked list of `hw1/LinkedList.c`, over an explicit memory of
nodes. A pointer to a node is the address of the node, and a null pointer is
`none`. A function gives `none` when the code stops in `Verify333` or
dereferences a pointer that is null or not the address of a live node. -/

/-- The payload of a node (`LLPayload_t`, a pointer that the list does not
look into). -/
abbrev LLPayload_t := Nat

/-- The record `LinkedListNode`, declared in `LinkedList_priv.h`, which is
not among the sources, with the fields that the code uses. -/
structure LinkedListNode where
  payload : LLPayload_t
  next : Option Nat
  prev : Option Nat
  deriving DecidableEq, Repr

/-- The record `LinkedList`, declared in `LinkedList_priv.h`, with the
fields that the code uses. -/
structure LinkedList where
  num_elements : Int
  head : Option Nat
  tail : Option Nat
  deriving DecidableEq, Repr

/-- The record `LLIterator`, declared in `LinkedList_priv.h`: the field
`node`; the field `list` is the list record that the functions on iterators
take along. -/
structure LLIterator where
  node : Option Nat
  deriving DecidableEq, Repr

/-- The memory: the live nodes by address, and the payloads that have been
handed to `payload_free_function`, in the order of the calls. -/
structure Memory where
  nodes : Nat → Option LinkedListNode
  freed : List LLPayload_t

/-- The call `payload_free_function(payload)`. -/
def Memory.payload_free_function (mem : Memory) (payload : LLPayload_t) : Memory :=
  { mem with freed := mem.freed ++ [payload] }

/-- The call `free(addr)` of a node. -/
def Memory.free (mem : Memory) (addr : Nat) : Memory :=
  { mem with nodes := fun a => if a = addr then none else mem.nodes a }

/-- The assignment `addr->next = next`. -/
def Memory.setNext (mem : Memory) (addr : Nat) (next : Option Nat) : Option Memory :=
  match mem.nodes addr with
  | none => none
  | some node =>
    some { mem with
      nodes := fun a => if a = addr then some { node with next := next } else mem.nodes a }

/-- The assignment `addr->prev = prev`. -/
def Memory.setPrev (mem : Memory) (addr : Nat) (prev : Option Nat) : Option Memory :=
  match mem.nodes addr with
  | none => none
  | some node =>
    some { mem with
      nodes := fun a => if a = addr then some { node with prev := prev } else mem.nodes a }

/-- The function `LinkedList_Allocate`: the new list record. -/
def LinkedList_Allocate : LinkedList :=
  LinkedList.mk 0 none none

/-- The function `LinkedList_NumElements`. -/
def LinkedList_NumElements (list : LinkedList) : Int :=
  list.num_elements

/-- The function `LLIterator_Allocate`. -/
def LLIterator_Allocate (list : LinkedList) : LLIterator :=
  LLIterator.mk list.head

/-- The function `LLIterator_IsValid`. -/
def LLIterator_IsValid (iter : LLIterator) : Bool :=
  iter.node != none

/-- The function `LLIterator_Remove`: the value returned, the memory, the
list record and the iterator after the call. -/
def LLIterator_Remove (mem : Memory) (list : LinkedList) (iter : LLIterator) :
    Option (Bool × Memory × LinkedList × LLIterator) :=
  match iter.node with
  | none => none
  | some tempNode =>
    match mem.nodes tempNode with
    | none => none
    | some node =>
      let mem := mem.payload_free_function node.payload
      let spliced : Option (Memory × LinkedList × LLIterator) :=
        if list.num_elements = 1 then
          some (mem, { list with head := none, tail := none }, { iter with node := none })
        else if node.prev = none then
          let list := { list with head := node.next }
          match list.head with
          | none => none
          | some head =>
            match mem.setPrev head none with
            | none => none
            | some mem => some (mem, list, { iter with node := list.head })
        else if node.next = none then
          let list := { list with tail := node.prev }
          match list.tail with
          | none => none
          | some tail =>
            match mem.setNext tail none with
            | none => none
            | some mem => some (mem, list, { iter with node := list.tail })
        else
          match node.prev with
          | none => none
          | some prev =>
            match mem.setNext prev node.next with
            | none => none
            | some mem =>
              match mem.nodes tempNode with
              | none => none
              | some node =>
                match node.next with
                | none => none
                | some next =>
                  match mem.setPrev next node.prev with
                  | none => none
                  | some mem =>
                    match mem.nodes tempNode with
                    | none => none
                    | some node => some (mem, list, { iter with node := node.next })
      match spliced with
      | none => none
      | some (mem, list, iter) =>
        let list := { list with num_elements := list.num_elements - 1 }
        let mem := mem.free tempNode
        some (decide (list.num_elements > 0), mem, list, iter)

/-! ## Notions used to state the properties of the list -/

/-- The address of the first of the cells, or `otherwise` when there is
none. -/
def firstAddr (cells : List (Nat × LLPayload_t)) (otherwise : Option Nat) : Option Nat :=
  match cells with
  | [] => otherwise
  | (addr, _) :: _ => some addr

/-- The address of the last of the cells, or `otherwise` when there is
none. -/
def lastAddr : List (Nat × LLPayload_t) → Option Nat → Option Nat
  | [], otherwise => otherwise
  | (addr, _) :: rest, _ => lastAddr rest (some addr)

/-- The nodes at the addresses of `cells` hold the payloads of `cells` and
are linked in this order: each `next` is the address of the following cell
and `next` after the last; each `prev` is the address of the cell before and
`prev` before the first. -/
def IsSegment (nodes : Nat → Option LinkedListNode) :
    Option Nat → Option Nat → List (Nat × LLPayload_t) → Prop
  | _, _, [] => True
  | prev, next, (addr, payload) :: rest =>
    nodes addr = some (LinkedListNode.mk payload (firstAddr rest next) prev) ∧
      IsSegment nodes (some addr) next rest

instance IsSegment.instDecidable (nodes : Nat → Option LinkedListNode) :
    (prev next : Option Nat) → (cells : List (Nat × LLPayload_t)) →
      Decidable (IsSegment nodes prev next cells)
  | _, _, [] => inferInstanceAs (Decidable True)
  | prev, next, (addr, payload) :: rest =>
    have := IsSegment.instDecidable nodes (some addr) next rest
    inferInstanceAs (Decidable
      (nodes addr = some (LinkedListNode.mk payload (firstAddr rest next) prev) ∧
        IsSegment nodes (some addr) next rest))

/-- The list record and the memory hold the list of `cells`, given from the
head to the tail as pairs of the address of a node and its payload: the
count is the number of cells, `head` and `tail` are the addresses of the
first and the last cell (null when there is none), the addresses are
distinct, and the nodes are linked in this order with no `prev` before the
first and no `next` after the last. -/
def Represents (mem : Memory) (list : LinkedList) (cells : List (Nat × LLPayload_t)) :
    Prop :=
  list.num_elements = cells.length ∧ list.head = firstAddr cells none ∧
    list.tail = lastAddr cells none ∧ (cells.map Prod.fst).Nodup ∧
    IsSegment mem.nodes none none cells

instance (mem : Memory) (list : LinkedList) (cells : List (Nat × LLPayload_t)) :
    Decidable (Represents mem list cells) :=
  inferInstanceAs (Decidable
    (list.num_elements = cells.length ∧ list.head = firstAddr cells none ∧
      list.tail = lastAddr cells none ∧ (cells.map Prod.fst).Nodup ∧
      IsSegment mem.nodes none none cells))

/-- The cursor that the removal of the cell between `before` and `after`
leaves: the first cell of `after`, or the last cell of `before` when
`after` is empty, or null when both are empty. -/
def cursorAfterRemove (before after : List (Nat × LLPayload_t)) : Option Nat :=
  firstAddr after (lastAddr before none)

/-- A memory of three nodes at the addresses 1, 2 and 3 with the payloads
10, 20 and 30, linked in this order. -/
def exampleMemory : Memory :=
  Memory.mk
    (fun a =>
      if a = 1 then some (LinkedListNode.mk 10 (some 2) none)
      else if a = 2 then some (LinkedListNode.mk 20 (some 3) (some 1))
      else if a = 3 then some (LinkedListNode.mk 30 none (some 2))
      else none)
    []

/-- The list record of the three nodes of `exampleMemory`. -/
def exampleList : LinkedList :=
  LinkedList.mk 3 (some 1) (some 3)

end hw1

namespace hw3

/-! ## The interactive shell -/

/-- The classification `isspace` of the classic locale, by which the
extraction `ss >> query_word` delimits words. -/
def isspace (c : Char) : Bool :=
  c = ' ' || c = '\t' || c = '\n' || c.toNat = 11 || c.toNat = 12 || c = '\r'

/-- The function `tolower` of the classic locale. -/
def tolower (c : Char) : Char :=
  if 'A'.toNat ≤ c.toNat ∧ c.toNat ≤ 'Z'.toNat then Char.ofNat (c.toNat + 32) else c

/-- The function `ToLowerCase`. -/
def ToLowerCase (input : List Char) : List Char :=
  input.map tolower

/-- The loop `while (ss >> query_word)` of `ParseQuery`, character by
character: white space ends the word that is being read, if there is one,
and the word is pushed onto `query`. -/
def ParseQuery.loop : List Char → List Char → List (List Char)
  | [], query_word => if query_word.isEmpty then [] else [query_word]
  | c :: rest, query_word =>
    if isspace c then
      if query_word.isEmpty then ParseQuery.loop rest []
      else query_word :: ParseQuery.loop rest []
    else ParseQuery.loop rest (query_word ++ [c])

/-- The function `ParseQuery`. -/
def ParseQuery (user_query : List Char) : List (List Char) :=
  ParseQuery.loop user_query []

/-- The stream `std::cin`: the characters that are not read yet, and the
state bits `eofbit` and `failbit`. -/
structure istream where
  unread : List Char
  eofbit : Bool
  failbit : Bool
  deriving DecidableEq, Repr

/-- The call `std::getline(std::cin, user_query)` on an empty `user_query`:
the characters up to the next `\n`, which is taken from the stream and
dropped. When the input ends before a `\n`, `eofbit` is set, and `failbit`
too when no character was taken. On a stream whose bits are set nothing is
read. -/
def getline (cin : istream) : List Char × istream :=
  if cin.eofbit || cin.failbit then ([], { cin with failbit := true })
  else
    let line := cin.unread.takeWhile (fun c => c != '\n')
    match cin.unread.dropWhile (fun c => c != '\n') with
    | [] => (line, istream.mk [] true line.isEmpty)
    | _ :: rest => (line, istream.mk rest false false)

/-- The function `GetUserQueryInput`, without the prompt that it prints. -/
def GetUserQueryInput (cin : istream) : List Char × istream :=
  let read := getline cin
  (ToLowerCase read.1, read.2)

/-- The function `PrintResult`: the line that it prints. -/
def PrintResult (query_result : QueryResult) : List Char :=
  " ".toList ++ query_result.document_name ++ " (".toList ++
    hw4.to_string_int query_result.rank ++ ")".toList

/-- The function `ProcessAndDisplayQueryResults`: the lines that it prints,
or `none` when `ProcessQuery` ends the process. -/
def ProcessAndDisplayQueryResults (lt : QueryResult → QueryResult → Bool)
    (processor : QueryProcessor) (query : List (List Char)) : Option (List (List Char)) :=
  match processor.ProcessQuery lt query with
  | none => none
  | some query_res =>
    if !query_res.isEmpty then some (query_res.map PrintResult)
    else some [" [no results]".toList]

/-- How a run of the shell ends: by the `break` at the end of the input, by
the end of the process in a failed `Verify333`, or not within the given
number of rounds. -/
inductive ShellEnd where
  | returned
  | aborted
  | unfinished
  deriving DecidableEq, Repr

/-- The function `RunInteractiveShell`, for a number of rounds of its loop:
the lines printed and how the run ends. -/
def RunInteractiveShell (lt : QueryResult → QueryResult → Bool) (processor : QueryProcessor) :
    Nat → istream → List (List Char) × ShellEnd
  | 0, _ => ([], ShellEnd.unfinished)
  | rounds + 1, cin =>
    let input := GetUserQueryInput cin
    let user_query := input.1
    let cin := input.2
    if user_query.isEmpty && cin.eofbit then (["Enter query:".toList], ShellEnd.returned)
    else
      let query := ParseQuery user_query
      match ProcessAndDisplayQueryResults lt processor query with
      | none => (["Enter query:".toList], ShellEnd.aborted)
      | some lines =>
        let later := RunInteractiveShell lt processor rounds cin
        ("Enter query:".toList :: lines ++ later.1, later.2)

end hw3

namespace hw4

/-! ## Notions used to state that framing does not depend on the reads -/

/-- The connection on which the reads to come deliver the chunks in their
order, with an empty buffer; after the last chunk every read reports end of
file. -/
def HttpConnection.ofChunks (chunks : List (List Char)) : HttpConnection :=
  HttpConnection.mk (chunks.map ReadOutcome.data) []

/-- The results of a number of successive calls of `GetNextRequest` as the
byte stream alone determines them: as long as the rest of the stream holds a
terminator, the parse of the block up to the first terminator, and a failure
from then on. -/
def streamRequests : Nat → List Char → List (Option HttpRequest)
  | 0, _ => []
  | k + 1, stream =>
    match find kHeaderEnd stream with
    | some pos =>
      some (ParseRequest (stream.take (pos + kHeaderEndLen))) ::
        streamRequests k (stream.drop (pos + kHeaderEndLen))
    | none => none :: streamRequests k stream

/-- A request block whose terminator is cut by the reads: the reads deliver
`GET /x HTTP/1.1\r\n\r` and then `\n` followed by a second block. -/
def exampleCutChunks : List (List Char) :=
  ["GET /x HTTP/1.1\r\n\r".toList, "\nGET /y HTTP/1.1\r\n\r\n".toList]

/-- The same bytes delivered in three other reads. -/
def exampleOtherChunks : List (List Char) :=
  ["GET /x".toList, " HTTP/1.1\r\n\r\nGET /y HTTP".toList, "/1.1\r\n\r\n".toList]

end hw4

namespace hw1

/-! ## Push, Append, Pop, LLSlice and Sort

The count `num_elements` is kept exact: the type of the field is declared in
`LinkedList_priv.h`, which is not among the sources. The address that
`malloc` returns is an argument of the functions that allocate a node. -/

/-- The node at `addr` after `malloc` has returned `addr` and the code has
assigned the three fields of the node. -/
def Memory.malloc (mem : Memory) (addr : Nat) (node : LinkedListNode) : Memory :=
  { mem with nodes := fun a => if a = addr then some node else mem.nodes a }

/-- The assignment `addr->payload = payload`. -/
def Memory.setPayload (mem : Memory) (addr : Nat) (payload : LLPayload_t) : Option Memory :=
  match mem.nodes addr with
  | none => none
  | some node =>
    some { mem with
      nodes := fun a => if a = addr then some { node with payload := payload } else mem.nodes a }

/-- The function `LinkedList_Push`; `ln` is what `malloc` returns, `none`
for a null pointer. -/
def LinkedList_Push (mem : Memory) (list : LinkedList) (ln : Option Nat)
    (payload : LLPayload_t) : Option (Memory × LinkedList) :=
  match ln with
  | none => none
  | some ln =>
    if list.num_elements = 0 then
      if list.head = none ∧ list.tail = none then
        some (mem.malloc ln (LinkedListNode.mk payload none none),
          LinkedList.mk 1 (some ln) (some ln))
      else none
    else
      match list.head, list.tail with
      | some head, some _ =>
        let mem := mem.malloc ln (LinkedListNode.mk payload list.head none)
        match mem.setPrev head (some ln) with
        | none => none
        | some mem =>
          some (mem, { list with head := some ln, num_elements := list.num_elements + 1 })
      | _, _ => none

/-- The function `LinkedList_Append`; `ln` is what `malloc` returns. -/
def LinkedList_Append (mem : Memory) (list : LinkedList) (ln : Option Nat)
    (payload : LLPayload_t) : Option (Memory × LinkedList) :=
  match ln with
  | none => none
  | some ln =>
    if list.num_elements = 0 then
      if list.head = none ∧ list.tail = none then
        some (mem.malloc ln (LinkedListNode.mk payload none none),
          { list with head := some ln, tail := some ln,
                      num_elements := list.num_elements + 1 })
      else none
    else
      match list.head, list.tail with
      | some _, some tail =>
        let mem := mem.malloc ln (LinkedListNode.mk payload none list.tail)
        match mem.setNext tail (some ln) with
        | none => none
        | some mem =>
          some (mem, { list with tail := some ln, num_elements := list.num_elements + 1 })
      | _, _ => none

/-- The function `LLSlice`: the value returned, the content of
`*payload_ptr`, the memory and the list record after the call. -/
def LLSlice (mem : Memory) (list : LinkedList) (payload_ptr : LLPayload_t) :
    Option (Bool × LLPayload_t × Memory × LinkedList) :=
  if list.num_elements = 0 then some (false, payload_ptr, mem, list)
  else
    match list.tail with
    | none => none
    | some tempNode =>
      match mem.nodes tempNode with
      | none => none
      | some node =>
        let payload_ptr := node.payload
        let spliced : Option (Memory × LinkedList) :=
          if list.num_elements = 1 then
            some (mem, { list with head := none, tail := none })
          else
            let list := { list with tail := node.prev }
            match list.tail with
            | none => none
            | some tail =>
              match mem.setNext tail none with
              | none => none
              | some mem => some (mem, list)
        match spliced with
        | none => none
        | some (mem, list) =>
          some (true, payload_ptr, mem.free tempNode,
            { list with num_elements := list.num_elements - 1 })

/-- The function `LinkedList_Pop`: the value returned, the content of
`*payload_ptr`, the memory and the list record after the call. -/
def LinkedList_Pop (mem : Memory) (list : LinkedList) (payload_ptr : LLPayload_t) :
    Option (Bool × LLPayload_t × Memory × LinkedList) :=
  if list.num_elements = 0 then some (false, payload_ptr, mem, list)
  else
    match list.head with
    | none => none
    | some tempNode =>
      match mem.nodes tempNode with
      | none => none
      | some node =>
        let payload_ptr := node.payload
        if list.num_elements = 1 then LLSlice mem list payload_ptr
        else
          let list := { list with head := node.next }
          match list.head with
          | none => none
          | some head =>
            match mem.setPrev head none with
            | none => none
            | some mem =>
              some (true, payload_ptr, mem.free tempNode,
                { list with num_elements := list.num_elements - 1 })

/-- How a run of `LinkedList_Sort` ends: it returns, it follows a pointer
that is null or not the address of a live node, or it is not over within the
given number of rounds of its loops. -/
inductive SortEnd (α : Type) where
  | returned (value : α)
  | undefined
  | unfinished

/-- The `int` multiplication `compare_result *= -1`, reduced to the range of
`int` (two's complement, 32 bits). -/
def negateInt (compare_result : Int) : Int :=
  (compare_result * -1 + 2147483648) % 4294967296 - 2147483648

/-- The loop `while (curnode->next != NULL)` of `LinkedList_Sort`, for a
number of rounds: the memory and `swapped` at its end. -/
def LinkedList_Sort.pass (ascending : Bool)
    (comparator_function : LLPayload_t → LLPayload_t → Int) :
    Nat → Memory → Nat → Int → SortEnd (Memory × Int)
  | 0, _, _, _ => SortEnd.unfinished
  | steps + 1, mem, curnode, swapped =>
    match mem.nodes curnode with
    | none => SortEnd.undefined
    | some node =>
      match node.next with
      | none => SortEnd.returned (mem, swapped)
      | some next =>
        match mem.nodes next with
        | none => SortEnd.undefined
        | some nextNode =>
          let compare_result := comparator_function node.payload nextNode.payload
          let compare_result := if ascending then negateInt compare_result else compare_result
          if compare_result < 0 then
            let tmp := node.payload
            match mem.setPayload curnode nextNode.payload with
            | none => SortEnd.undefined
            | some mem =>
              match mem.nodes curnode with
              | none => SortEnd.undefined
              | some node =>
                match node.next with
                | none => SortEnd.undefined
                | some next =>
                  match mem.setPayload next tmp with
                  | none => SortEnd.undefined
                  | some mem =>
                    match mem.nodes curnode with
                    | none => SortEnd.undefined
                    | some node =>
                      match node.next with
                      | none => SortEnd.undefined
                      | some next => LinkedList_Sort.pass ascending comparator_function steps mem next 1
          else LinkedList_Sort.pass ascending comparator_function steps mem next swapped

/-- The loop `do ... while (swapped)` of `LinkedList_Sort`, for a number of
rounds, each with a number of rounds of the inner loop. -/
def LinkedList_Sort.loop (list : LinkedList) (ascending : Bool)
    (comparator_function : LLPayload_t → LLPayload_t → Int) (steps : Nat) :
    Nat → Memory → SortEnd Memory
  | 0, _ => SortEnd.unfinished
  | rounds + 1, mem =>
    match list.head with
    | none => SortEnd.undefined
    | some curnode =>
      match LinkedList_Sort.pass ascending comparator_function steps mem curnode 0 with
      | SortEnd.returned (mem, swapped) =>
        if swapped ≠ 0 then LinkedList_Sort.loop list ascending comparator_function steps rounds mem
        else SortEnd.returned mem
      | SortEnd.undefined => SortEnd.undefined
      | SortEnd.unfinished => SortEnd.unfinished

/-- The function `LinkedList_Sort`, for a number of rounds of its outer loop
and of each run of its inner loop: the memory when it returns. -/
def LinkedList_Sort (mem : Memory) (list : LinkedList) (ascending : Bool)
    (comparator_function : LLPayload_t → LLPayload_t → Int) (rounds steps : Nat) :
    SortEnd Memory :=
  if list.num_elements < 2 then SortEnd.returned mem
  else LinkedList_Sort.loop list ascending comparator_function steps rounds mem

end hw1

namespace hw1

/-! ## Notions used to state the properties of Push, Pop and Sort -/

/-- The nodes reachable from `start` by `next` links are those at `addrs`,
in this order, and the last of them has no `next`. -/
def IsChain (nodes : Nat → Option LinkedListNode) : Option Nat → List Nat → Prop
  | start, [] => start = none
  | start, addr :: rest =>
    start = some addr ∧ ∃ node, nodes addr = some node ∧ IsChain nodes node.next rest

/-- A well-formed list: `num_elements` is the number of the nodes reachable
from `head` by `next` links; `head` is null exactly when `num_elements` is 0,
and so is `tail`; the head node has no `prev` and the tail node has no
`next`; `tail` is the last node reachable from `head`; and for every
reachable node `n` with a successor, `n.next.prev` is `n`. -/
def WellFormed (mem : Memory) (list : LinkedList) : Prop :=
  ∃ reachable : List Nat,
    IsChain mem.nodes list.head reachable ∧
    list.num_elements = reachable.length ∧
    (list.head = none ↔ list.num_elements = 0) ∧
    (list.tail = none ↔ list.num_elements = 0) ∧
    (∀ head, list.head = some head → ∃ node, mem.nodes head = some node ∧ node.prev = none) ∧
    (∀ tail, list.tail = some tail → ∃ node, mem.nodes tail = some node ∧ node.next = none) ∧
    list.tail = reachable.getLast? ∧
    (∀ n ∈ reachable, ∀ node successor, mem.nodes n = some node →
      node.next = some successor →
      ∃ next, mem.nodes successor = some next ∧ next.prev = some n)

/-- The states that a program reaches from `LinkedList_Allocate`, in a
memory without nodes, by any sequence of calls of `LinkedList_Push`,
`LinkedList_Append`, `LinkedList_Pop`, `LLSlice` and `LLIterator_Remove` that
return. `malloc` returns an address that is not the address of a live node;
the iterator of `LLIterator_Remove` is any iterator, and the call returns
only when its node is live. -/
inductive Reachable : Memory → LinkedList → Prop where
  | allocate (freed : List LLPayload_t) :
    Reachable (Memory.mk (fun _ => none) freed) LinkedList_Allocate
  | push {mem : Memory} {list : LinkedList} (ln : Nat) (payload : LLPayload_t)
    {mem' : Memory} {list' : LinkedList} :
    Reachable mem list → mem.nodes ln = none →
    LinkedList_Push mem list (some ln) payload = some (mem', list') → Reachable mem' list'
  | append {mem : Memory} {list : LinkedList} (ln : Nat) (payload : LLPayload_t)
    {mem' : Memory} {list' : LinkedList} :
    Reachable mem list → mem.nodes ln = none →
    LinkedList_Append mem list (some ln) payload = some (mem', list') → Reachable mem' list'
  | pop {mem : Memory} {list : LinkedList} (payload_ptr : LLPayload_t) {ret : Bool}
    {payload : LLPayload_t} {mem' : Memory} {list' : LinkedList} :
    Reachable mem list →
    LinkedList_Pop mem list payload_ptr = some (ret, payload, mem', list') →
    Reachable mem' list'
  | slice {mem : Memory} {list : LinkedList} (payload_ptr : LLPayload_t) {ret : Bool}
    {payload : LLPayload_t} {mem' : Memory} {list' : LinkedList} :
    Reachable mem list →
    LLSlice mem list payload_ptr = some (ret, payload, mem', list') →
    Reachable mem' list'
  | remove {mem : Memory} {list : LinkedList} (iter : LLIterator) {ret : Bool}
    {mem' : Memory} {list' : LinkedList} {iter' : LLIterator} :
    Reachable mem list →
    LLIterator_Remove mem list iter = some (ret, mem', list', iter') →
    Reachable mem' list'

/-- A memory of two nodes at the addresses 1 and 2 with the payloads 10 and
20, linked in this order. -/
def exampleTwoNodes : Memory :=
  Memory.mk
    (fun a =>
      if a = 1 then some (LinkedListNode.mk 10 (some 2) none)
      else if a = 2 then some (LinkedListNode.mk 20 none (some 1))
      else none)
    []

/-- The list record of the two nodes of `exampleTwoNodes`. -/
def exampleTwoList : LinkedList :=
  LinkedList.mk 2 (some 1) (some 2)

/-- A comparator of the payloads by their order as numbers, which returns
the least `int` for a first argument that is smaller, `0` for equal
arguments and `1` for a first argument that is greater. -/
def exampleComparator (payload_a payload_b : LLPayload_t) : Int :=
  if payload_a < payload_b then -2147483648 else if payload_a = payload_b then 0 else 1

/-- The comparator that returns `-1`, `0` and `1` for the same order. -/
def exampleSignComparator (payload_a payload_b : LLPayload_t) : Int :=
  if payload_a < payload_b then -1 else if payload_a = payload_b then 0 else 1

end hw1

/-! ## Further examples and the reads of a connection -/

namespace hw3

/-- An index in which document 1 has the greatest `int32_t` frequency for
the term `a` and the frequency 1 for the term `b`. -/
def exampleOverflowIndex : IndexTableReader :=
  IndexTableReader.mk (fun term =>
    if term = ['a'] then some (DocIDTableReader.mk [⟨1, 2147483647⟩])
    else if term = ['b'] then some (DocIDTableReader.mk [⟨1, 1⟩])
    else none)

/-- An index that answers as `exampleIndex` for the terms `t1` and `t2` and
knows no other term. -/
def exampleOtherIndex : IndexTableReader :=
  IndexTableReader.mk (fun term =>
    if term = ['t', '2'] then some (DocIDTableReader.mk [⟨2, 2⟩])
    else if term = ['t', '1'] then some (DocIDTableReader.mk [⟨1, 3⟩, ⟨2, 1⟩])
    else none)

/-- A document table that answers as `exampleDocs` for document 2 only: it
gives document 1 the name `X` and does not know document 3. -/
def exampleOtherDocs : DocTableReader :=
  DocTableReader.mk (fun doc_id =>
    if doc_id = 2 then some ['B'] else if doc_id = 1 then some ['X'] else none)

end hw3

namespace hw4

/-- Modelled from the spec: the call `WrappedRead(fd, buf, read_len)` of
`HttpUtils.cc`, which is not among the sources, on a descriptor whose input
is what the peer delivers, in order: the call stores at most `read_len`
bytes, taken from the front of the first delivery, and what it does not take
of that delivery stays on the descriptor for the next call. The result is
the outcome of the call and the input left on the descriptor. -/
def WrappedRead (fd : List ReadOutcome) (read_len : Nat) : ReadOutcome × List ReadOutcome :=
  match fd with
  | [] => (ReadOutcome.closed, [])
  | ReadOutcome.data bytes :: rest =>
    if bytes.length ≤ read_len then (ReadOutcome.data bytes, rest)
    else (ReadOutcome.data (bytes.take read_len), ReadOutcome.data (bytes.drop read_len) :: rest)
  | outcome :: rest => (outcome, rest)

/-- The loop `while (true)` of `GetNextRequest` on the descriptor itself, for
a number of rounds: a round that finds no terminator in the buffer reads by
`WrappedRead(fd_, read_buffer.data(), kBufferSize)`, returns false when
`bytes_read <= 0` and appends the bytes read to the buffer otherwise. The
result is the outcomes of the reads made, in order, the local `header` on
success and nothing on failure, and the connection on return (the input left
on the descriptor and the buffer); it is `none` when the rounds are used
up. `GetNextRequest.loop` is this loop over the outcomes of its reads. -/
def GetNextRequest.onDescriptor :
    Nat → List ReadOutcome → List Char →
      Option (List ReadOutcome × Option (List Char) × HttpConnection)
  | 0, _, _ => none
  | rounds + 1, fd, buffer =>
    match find kHeaderEnd buffer with
    | some header_end_pos =>
      some ([], some (buffer.take (header_end_pos + kHeaderEndLen)),
        HttpConnection.mk fd (buffer.drop (header_end_pos + kHeaderEndLen)))
    | none =>
      let read := WrappedRead fd kBufferSize
      let bytes_read := read.1.bytes_read
      if bytes_read ≤ 0 then some ([read.1], none, HttpConnection.mk read.2 buffer)
      else
        match GetNextRequest.onDescriptor rounds read.2 (buffer ++ read.1.bytes) with
        | none => none
        | some (reads, result, conn) => some (read.1 :: reads, result, conn)

/-- A task whose client sends one query for the term `t1` and then closes
its side. -/
def exampleQueryTask : HttpServerTask where
  client_reads := [ReadOutcome.data "GET /query?terms=t1 HTTP/1.1\r\n\r\n".toList]
  client_writes := [WriteOutcome.complete]
  base_dir := []
  indices := ["idx".toList]

end hw4

/-! # Theorems about the query processor -/

namespace hw3

theorem wrapInt32_of_isInt32 {x : Int} (h : isInt32 x) : wrapInt32 x = x := by
  unfold wrapInt32; unfold isInt32 at h; omega

theorem isInt32_wrapInt32 (x : Int) : isInt32 (wrapInt32 x) := by
  unfold wrapInt32 isInt32; omega

theorem wrapInt32_add_left (a b : Int) : wrapInt32 (wrapInt32 a + b) = wrapInt32 (a + b) := by
  unfold wrapInt32; omega

theorem inner_eq_firstWithId (it1 : DocIDElementHeader) (list2 : List DocIDElementHeader) :
    Intersection.inner it1 list2 =
      match firstWithId it1.doc_id list2 with
      | some it2 => [DocIDElementHeader.mk it1.doc_id (addInt32 it1.num_positions it2.num_positions)]
      | none => [] := by
  induction list2 with
  | nil => rfl
  | cons it2 rest ih =>
    unfold Intersection.inner firstWithId
    by_cases h : it1.doc_id = it2.doc_id
    · have h2 : it2.doc_id = it1.doc_id := h.symm
      simp only [List.find?_cons, h2, decide_True, if_true]
    · have h2 : ¬ it2.doc_id = it1.doc_id := fun e => h e.symm
      simp only [List.find?_cons, h, h2, if_false, decide_False]
      exact ih

theorem firstWithId_eq_none {d : Nat} {l : List DocIDElementHeader} :
    firstWithId d l = none ↔ d ∉ docIds l := by
  unfold firstWithId docIds
  simp only [List.find?_eq_none, decide_eq_true_eq, List.mem_map, not_exists, not_and]

theorem firstWithId_some {d : Nat} {l : List DocIDElementHeader} {e : DocIDElementHeader}
    (h : firstWithId d l = some e) : e ∈ l ∧ e.doc_id = d := by
  unfold firstWithId at h
  refine ⟨List.mem_of_find?_eq_some h, ?_⟩
  have := List.find?_some h
  simpa using this

theorem firstWithId_of_nodup {l : List DocIDElementHeader} (hnd : (docIds l).Nodup)
    {e : DocIDElementHeader} (he : e ∈ l) : firstWithId e.doc_id l = some e := by
  induction l with
  | nil => cases he
  | cons x xs ih =>
    unfold docIds at hnd
    rw [List.map_cons, List.nodup_cons] at hnd
    unfold firstWithId
    rcases List.mem_cons.1 he with rfl | hmem
    · simp [List.find?_cons]
    · have hne : ¬ x.doc_id = e.doc_id := by
        intro heq
        apply hnd.1
        rw [heq]
        exact List.mem_map_of_mem _ hmem
      simp only [List.find?_cons, hne, decide_False]
      exact ih hnd.2 hmem

theorem docIds_Intersection (list1 list2 : List DocIDElementHeader) :
    docIds (Intersection list1 list2) = (docIds list1).filter (fun d => decide (d ∈ docIds list2)) := by
  induction list1 with
  | nil => rfl
  | cons it1 rest ih =>
    unfold Intersection
    have hsplit : docIds (Intersection.inner it1 list2 ++ Intersection rest list2)
        = docIds (Intersection.inner it1 list2) ++ docIds (Intersection rest list2) := by
      unfold docIds; simp
    rw [hsplit, ih, inner_eq_firstWithId]
    cases hf : firstWithId it1.doc_id list2 with
    | none =>
      have := firstWithId_eq_none.1 hf
      simp only [docIds, List.map_cons, List.map_nil, List.filter_cons, List.nil_append] at this ⊢
      simp [this]
    | some it2 =>
      have hmem : it1.doc_id ∈ docIds list2 := by
        have := firstWithId_some hf
        unfold docIds
        exact List.mem_map.2 ⟨it2, this.1, this.2⟩
      simp only [docIds, List.map_cons, List.map_nil, List.filter_cons] at hmem ⊢
      simp [hmem]

theorem mem_Intersection {list1 list2 : List DocIDElementHeader} {e : DocIDElementHeader}
    (he : e ∈ Intersection list1 list2) :
    ∃ it1 ∈ list1, ∃ it2, firstWithId it1.doc_id list2 = some it2 ∧
      e = DocIDElementHeader.mk it1.doc_id (addInt32 it1.num_positions it2.num_positions) := by
  induction list1 with
  | nil => cases he
  | cons it1 rest ih =>
    unfold Intersection at he
    rcases List.mem_append.1 he with h | h
    · rw [inner_eq_firstWithId] at h
      cases hf : firstWithId it1.doc_id list2 with
      | none => rw [hf] at h; cases h
      | some it2 =>
        rw [hf] at h
        simp only [List.mem_singleton] at h
        exact ⟨it1, List.mem_cons_self _ _, it2, hf, h⟩
    · obtain ⟨a, ha, b, hb, hab⟩ := ih h
      exact ⟨a, List.mem_cons_of_mem _ ha, b, hb, hab⟩

theorem postings_of_lookup {r : IndexTableReader} {t : List Char} {ct : DocIDTableReader}
    (h : r.LookupWord t = some ct) : r.postings t = ct.GetDocIDList := by
  unfold IndexTableReader.postings; rw [h]

theorem loop_cons_some {r : IndexTableReader} {t : List Char} {ct : DocIDTableReader}
    (h : r.LookupWord t = some ct) (rest : List (List Char)) (m : List DocIDElementHeader) :
    MultiTermIntersection.loop r (t :: rest) m =
      if (Intersection (r.postings t) m).isEmpty then Intersection (r.postings t) m
      else MultiTermIntersection.loop r rest (Intersection (r.postings t) m) := by
  rw [postings_of_lookup h]
  simp only [MultiTermIntersection.loop, h]

theorem loop_cons_none {r : IndexTableReader} {t : List Char}
    (h : r.LookupWord t = none) (rest : List (List Char)) (m : List DocIDElementHeader) :
    MultiTermIntersection.loop r (t :: rest) m = [] := by
  simp only [MultiTermIntersection.loop, h]

theorem isInt32_of_mem_Intersection {list1 list2 : List DocIDElementHeader}
    {e : DocIDElementHeader} (he : e ∈ Intersection list1 list2) : isInt32 e.num_positions := by
  obtain ⟨it1, _, it2, _, rfl⟩ := mem_Intersection he
  exact isInt32_wrapInt32 _

theorem frequencyOf_of_nodup {l : List DocIDElementHeader} (hnd : (docIds l).Nodup)
    {e : DocIDElementHeader} (he : e ∈ l) : frequencyOf e.doc_id l = e.num_positions := by
  unfold frequencyOf; rw [firstWithId_of_nodup hnd he]

theorem loop_all_terms (r : IndexTableReader) :
    ∀ (rest : List (List Char)) (m : List DocIDElementHeader),
      (∀ t ∈ rest, (r.LookupWord t).isSome = true) →
      (∀ t ∈ rest, (docIds (r.postings t)).Nodup) →
      (docIds m).Nodup →
      (docIds (MultiTermIntersection.loop r rest m)).Nodup ∧
      (∀ d, d ∈ docIds (MultiTermIntersection.loop r rest m) ↔
        d ∈ docIds m ∧ ∀ t ∈ rest, d ∈ docIds (r.postings t)) ∧
      (∀ e ∈ MultiTermIntersection.loop r rest m, ∃ e0 ∈ m, e0.doc_id = e.doc_id ∧
        wrapInt32 e.num_positions = wrapInt32 (e0.num_positions +
          (rest.map (fun t => frequencyOf e.doc_id (r.postings t))).sum) ∧
        ((∀ x ∈ m, isInt32 x.num_positions) → isInt32 e.num_positions)) := by
  intro rest
  induction rest with
  | nil =>
    intro m _ _ hm
    refine ⟨hm, fun d => by simp [MultiTermIntersection.loop], fun e he => ?_⟩
    exact ⟨e, he, rfl, by simp, fun h => h e he⟩
  | cons t rest ih =>
    intro m hfound hnodup hm
    have ht := hfound t (List.mem_cons_self _ _)
    obtain ⟨ct, hct⟩ := Option.isSome_iff_exists.1 ht
    have hnext := hnodup t (List.mem_cons_self _ _)
    have hI : (docIds (Intersection (r.postings t) m)).Nodup := by
      rw [docIds_Intersection]; exact hnext.filter _
    have hmemI : ∀ d, d ∈ docIds (Intersection (r.postings t) m) ↔
        d ∈ docIds (r.postings t) ∧ d ∈ docIds m := by
      intro d; rw [docIds_Intersection]; simp [List.mem_filter]
    rw [loop_cons_some hct]
    by_cases hemp : (Intersection (r.postings t) m).isEmpty = true
    · rw [if_pos hemp]
      have hnil : Intersection (r.postings t) m = [] := List.isEmpty_iff.1 hemp
      rw [hnil] at hmemI ⊢
      refine ⟨List.nodup_nil, fun d => ?_, fun e he => by cases he⟩
      constructor
      · intro h; cases h
      · intro h
        exact (hmemI d).2 ⟨h.2 t (List.mem_cons_self _ _), h.1⟩
    · rw [if_neg hemp]
      obtain ⟨h1, h2, h3⟩ := ih (Intersection (r.postings t) m)
        (fun u hu => hfound u (List.mem_cons_of_mem _ hu))
        (fun u hu => hnodup u (List.mem_cons_of_mem _ hu)) hI
      refine ⟨h1, fun d => ?_, fun e he => ?_⟩
      · rw [h2 d, hmemI d]
        constructor
        · rintro ⟨⟨ha, hb⟩, hc⟩
          refine ⟨hb, fun u hu => ?_⟩
          rcases List.mem_cons.1 hu with rfl | hu
          · exact ha
          · exact hc u hu
        · rintro ⟨ha, hb⟩
          exact ⟨⟨hb t (List.mem_cons_self _ _), ha⟩,
            fun u hu => hb u (List.mem_cons_of_mem _ hu)⟩
      · obtain ⟨eI, heI, hid, hsum, hrange⟩ := h3 e he
        obtain ⟨it1, hit1, it2, hit2, heq⟩ := mem_Intersection heI
        obtain ⟨hit2m, hit2id⟩ := firstWithId_some hit2
        have hid1 : it1.doc_id = e.doc_id := by rw [← hid, heq]
        refine ⟨it2, hit2m, by rw [hit2id, hid1], ?_, fun _ => ?_⟩
        · have hfreq : frequencyOf e.doc_id (r.postings t) = it1.num_positions := by
            rw [← hid1]; exact frequencyOf_of_nodup hnext hit1
          rw [hsum, List.map_cons, List.sum_cons, hfreq, heq]
          simp only [addInt32]
          rw [wrapInt32_add_left]
          congr 1; ring
        · exact hrange (fun x hx => isInt32_of_mem_Intersection hx)

theorem char_toNat_inj {a b : Char} (h : a.toNat = b.toNat) : a = b := by
  rw [← Char.ofNat_toNat a, ← Char.ofNat_toNat b, h]

theorem stringLt_irrefl : ∀ a : List Char, stringLt a a = false
  | [] => rfl
  | c :: cs => by
    unfold stringLt
    simp only [lt_self_iff_false, if_false]
    exact stringLt_irrefl cs

theorem stringLt_trans : ∀ {a b c : List Char},
    stringLt a b = true → stringLt b c = true → stringLt a c = true
  | [], [], _, h, _ => by simp [stringLt] at h
  | [], _ :: _, [], _, h => by simp [stringLt] at h
  | [], _ :: _, _ :: _, _, _ => by simp [stringLt]
  | _ :: _, [], _, h, _ => by simp [stringLt] at h
  | _ :: _, _ :: _, [], _, h => by simp [stringLt] at h
  | x :: xs, y :: ys, z :: zs, h1, h2 => by
    unfold stringLt at h1 h2 ⊢
    by_cases hxy : x.toNat < y.toNat
    · by_cases hyz : y.toNat < z.toNat
      · rw [if_pos (by omega)]
      · rw [if_neg hyz] at h2
        by_cases hzy : z.toNat < y.toNat
        · rw [if_pos hzy] at h2; cases h2
        · rw [if_pos (by omega)]
    · rw [if_neg hxy] at h1
      by_cases hyx : y.toNat < x.toNat
      · rw [if_pos hyx] at h1; cases h1
      · rw [if_neg hyx] at h1
        by_cases hyz : y.toNat < z.toNat
        · rw [if_pos (by omega)]
        · rw [if_neg hyz] at h2
          by_cases hzy : z.toNat < y.toNat
          · rw [if_pos hzy] at h2; cases h2
          · rw [if_neg hzy] at h2
            rw [if_neg (by omega), if_neg (by omega)]
            exact stringLt_trans h1 h2

theorem stringLt_total : ∀ a b : List Char,
    stringLt a b = true ∨ a = b ∨ stringLt b a = true
  | [], [] => Or.inr (Or.inl rfl)
  | [], _ :: _ => Or.inl (by simp [stringLt])
  | _ :: _, [] => Or.inr (Or.inr (by simp [stringLt]))
  | x :: xs, y :: ys => by
    unfold stringLt
    by_cases hxy : x.toNat < y.toNat
    · left; rw [if_pos hxy]
    · by_cases hyx : y.toNat < x.toNat
      · right; right; rw [if_pos hyx]
      · rw [if_neg hxy, if_neg hyx, if_neg hyx, if_neg hxy]
        have hc : x = y := char_toNat_inj (by omega)
        rcases stringLt_total xs ys with h | h | h
        · exact Or.inl h
        · exact Or.inr (Or.inl (by rw [hc, h]))
        · exact Or.inr (Or.inr h)

theorem QueryResult.lt_iff (a b : QueryResult) :
    QueryResult.lt a b = true ↔
      stringLt a.document_name b.document_name = true ∨
        (a.document_name = b.document_name ∧ a.rank < b.rank) := by
  unfold QueryResult.lt
  simp

theorem QueryResult.lt_asymm {a b : QueryResult}
    (h : QueryResult.lt a b = true) : QueryResult.lt b a = false := by
  rw [Bool.eq_false_iff]
  intro h2
  rw [QueryResult.lt_iff] at h h2
  rcases h with h | ⟨hn, hr⟩
  · rcases h2 with h2 | ⟨hn2, _⟩
    · have := stringLt_trans h h2
      rw [stringLt_irrefl] at this; cases this
    · rw [hn2, stringLt_irrefl] at h; cases h
  · rcases h2 with h2 | ⟨_, hr2⟩
    · rw [hn, stringLt_irrefl] at h2; cases h2
    · omega

theorem QueryResult.lt_trans {a b c : QueryResult}
    (h1 : QueryResult.lt a b = true) (h2 : QueryResult.lt b c = true) :
    QueryResult.lt a c = true := by
  rw [QueryResult.lt_iff] at h1 h2 ⊢
  rcases h1 with h1 | ⟨hn1, hr1⟩
  · rcases h2 with h2 | ⟨hn2, _⟩
    · exact Or.inl (stringLt_trans h1 h2)
    · exact Or.inl (by rw [← hn2]; exact h1)
  · rcases h2 with h2 | ⟨hn2, hr2⟩
    · exact Or.inl (by rw [hn1]; exact h2)
    · exact Or.inr ⟨hn1.trans hn2, by omega⟩

theorem QueryResult.le_of_not_lt {a b : QueryResult}
    (h : QueryResult.lt b a = false) : QueryResult.le a b := by
  unfold QueryResult.le
  have hn : ¬ (QueryResult.lt b a = true) := by rw [h]; simp
  rw [QueryResult.lt_iff] at hn
  rcases stringLt_total a.document_name b.document_name with h1 | h1 | h1
  · exact Or.inl h1
  · refine Or.inr ⟨h1, ?_⟩
    by_contra hlt
    exact hn (Or.inr ⟨h1.symm, by omega⟩)
  · exact absurd (Or.inl h1) hn

theorem sortInsert_perm {α : Type} (lt : α → α → Bool) (x : α) :
    ∀ l : List α, (sortInsert lt x l).Perm (x :: l)
  | [] => List.Perm.refl _
  | y :: ys => by
    unfold sortInsert
    split
    · exact List.Perm.refl _
    · exact ((sortInsert_perm lt x ys).cons y).trans (List.Perm.swap x y ys)

theorem sort_perm {α : Type} (lt : α → α → Bool) : ∀ l : List α, (sort lt l).Perm l
  | [] => List.Perm.refl _
  | x :: xs => by
    unfold sort
    exact (sortInsert_perm lt x (sort lt xs)).trans ((sort_perm lt xs).cons x)

theorem sortInsert_sorted {α : Type} (lt : α → α → Bool)
    (hasymm : ∀ a b, lt a b = true → lt b a = false)
    (htrans : ∀ a b c, lt a b = true → lt b c = true → lt a c = true) (x : α) :
    ∀ l : List α, l.Pairwise (fun a b => lt b a = false) →
      (sortInsert lt x l).Pairwise (fun a b => lt b a = false)
  | [], _ => List.pairwise_singleton _ _
  | y :: ys, h => by
    unfold sortInsert
    rw [List.pairwise_cons] at h
    by_cases hxy : lt x y = true
    · rw [if_pos hxy]
      refine List.Pairwise.cons ?_ (List.Pairwise.cons h.1 h.2)
      intro z hz
      rcases List.mem_cons.1 hz with rfl | hz
      · exact hasymm _ _ hxy
      · cases hzx : lt z x with
        | false => rfl
        | true =>
          have := htrans z x y hzx hxy
          rw [h.1 z hz] at this; cases this
    · rw [if_neg hxy]
      refine List.Pairwise.cons ?_ (sortInsert_sorted lt hasymm htrans x ys h.2)
      intro z hz
      rcases List.mem_cons.1 ((sortInsert_perm lt x ys).subset hz) with rfl | hz
      · simpa using hxy
      · exact h.1 z hz

theorem sort_sorted {α : Type} (lt : α → α → Bool)
    (hasymm : ∀ a b, lt a b = true → lt b a = false)
    (htrans : ∀ a b c, lt a b = true → lt b c = true → lt a c = true) :
    ∀ l : List α, (sort lt l).Pairwise (fun a b => lt b a = false)
  | [] => List.Pairwise.nil
  | x :: xs => by
    unfold sort
    exact sortInsert_sorted lt hasymm htrans x _ (sort_sorted lt hasymm htrans xs)

theorem sort_QueryResult_sorted (l : List QueryResult) :
    (sort QueryResult.lt l).Pairwise QueryResult.le :=
  (sort_sorted QueryResult.lt (fun _ _ => QueryResult.lt_asymm)
    (fun _ _ _ => QueryResult.lt_trans) l).imp (fun h => QueryResult.le_of_not_lt h)

theorem AddMatchingDocuments_eq (doc_reader : DocTableReader) :
    ∀ (matching_docs : List DocIDElementHeader) (results : List QueryResult),
      AddMatchingDocuments matching_docs doc_reader results =
        results ++ matching_docs.filterMap doc_reader.resultFor
  | [], results => by simp [AddMatchingDocuments]
  | doc :: rest, results => by
    unfold AddMatchingDocuments
    cases h : doc_reader.LookupDocID doc.doc_id with
    | none =>
      have hr : doc_reader.resultFor doc = none := by
        unfold DocTableReader.resultFor; rw [h]
      simp only [List.filterMap_cons, hr]
      exact AddMatchingDocuments_eq doc_reader rest results
    | some name =>
      have hr : doc_reader.resultFor doc = some (QueryResult.mk name doc.num_positions) := by
        unfold DocTableReader.resultFor; rw [h]
      simp only [List.filterMap_cons, hr]
      rw [AddMatchingDocuments_eq doc_reader rest]
      simp

theorem ProcessQuery_loop_eq (query : List (List Char)) :
    ∀ (readers : List (IndexTableReader × DocTableReader)) (final_result : List QueryResult),
      ProcessQuery.loop query readers final_result =
        final_result ++ (readers.map (shardResults query)).flatten
  | [], final_result => by simp [ProcessQuery.loop]
  | (index_reader, doc_reader) :: rest, final_result => by
    unfold ProcessQuery.loop
    simp only
    rw [ProcessQuery_loop_eq query rest, AddMatchingDocuments_eq]
    simp [shardResults, AddMatchingDocuments_eq]

theorem ProcessQuery_eq (lt : QueryResult → QueryResult → Bool) (self : QueryProcessor)
    {query : List (List Char)} (hquery : query ≠ []) :
    self.ProcessQuery lt query = some (sort lt ((self.readers.map (shardResults query)).flatten)) := by
  unfold QueryProcessor.ProcessQuery
  have : query.length > 0 := List.length_pos.2 hquery
  rw [if_pos this, ProcessQuery_loop_eq]
  simp

theorem loop_missing_term (r : IndexTableReader) :
    ∀ (rest : List (List Char)) (m : List DocIDElementHeader),
      (∃ t ∈ rest, r.LookupWord t = none) → MultiTermIntersection.loop r rest m = []
  | [], _, h => by obtain ⟨t, ht, _⟩ := h; cases ht
  | t :: rest, m, h => by
    cases hl : r.LookupWord t with
    | none => exact loop_cons_none hl rest m
    | some ct =>
      rw [loop_cons_some hl]
      by_cases hemp : (Intersection (r.postings t) m).isEmpty = true
      · rw [if_pos hemp]; exact List.isEmpty_iff.1 hemp
      · rw [if_neg hemp]
        apply loop_missing_term r rest
        obtain ⟨u, hu, hnone⟩ := h
        rcases List.mem_cons.1 hu with rfl | hu
        · rw [hl] at hnone; cases hnone
        · exact ⟨u, hu, hnone⟩

theorem MultiTermIntersection_cons_none {r : IndexTableReader} {first : List Char}
    (h : r.LookupWord first = none) (rest : List (List Char)) :
    MultiTermIntersection (first :: rest) r = [] := by
  simp only [MultiTermIntersection, h]

theorem MultiTermIntersection_cons_some {r : IndexTableReader} {first : List Char}
    {first_term : DocIDTableReader} (h : r.LookupWord first = some first_term)
    (rest : List (List Char)) :
    MultiTermIntersection (first :: rest) r =
      MultiTermIntersection.loop r rest (r.postings first) := by
  rw [postings_of_lookup h]
  simp only [MultiTermIntersection, h]

theorem MultiTermIntersection_missing_term (r : IndexTableReader) (query : List (List Char))
    (h : ∃ t ∈ query, r.LookupWord t = none) : MultiTermIntersection query r = [] := by
  cases query with
  | nil => rfl
  | cons first rest =>
    cases hl : r.LookupWord first with
    | none => exact MultiTermIntersection_cons_none hl rest
    | some ct =>
      rw [MultiTermIntersection_cons_some hl]
      apply loop_missing_term
      obtain ⟨u, hu, hnone⟩ := h
      rcases List.mem_cons.1 hu with rfl | hu
      · rw [hl] at hnone; cases hnone
      · exact ⟨u, hu, hnone⟩

theorem shardResults_missing_term (query : List (List Char))
    (shard : IndexTableReader × DocTableReader) (h : hasAllTerms query shard = false) :
    shardResults query shard = [] := by
  unfold shardResults
  rw [MultiTermIntersection_missing_term]
  · rfl
  · unfold hasAllTerms at h
    rw [List.all_eq_false] at h
    obtain ⟨t, ht, hnone⟩ := h
    refine ⟨t, ht, ?_⟩
    cases hl : shard.1.LookupWord t with
    | none => rfl
    | some ct => rw [hl] at hnone; simp at hnone

theorem flatten_shardResults_filter (query : List (List Char)) :
    ∀ readers : List (IndexTableReader × DocTableReader),
      ((readers.filter (hasAllTerms query)).map (shardResults query)).flatten =
        (readers.map (shardResults query)).flatten
  | [] => rfl
  | shard :: rest => by
    cases h : hasAllTerms query shard with
    | false =>
      rw [List.filter_cons_of_neg (by simp [h]), List.map_cons, List.flatten_cons,
        shardResults_missing_term query shard h, List.nil_append]
      exact flatten_shardResults_filter query rest
    | true =>
      rw [List.filter_cons_of_pos h, List.map_cons, List.flatten_cons, List.map_cons,
        List.flatten_cons, flatten_shardResults_filter query rest]

/-- C1 as stated fails: the terms `a` and `b` both have a posting list, each
with document 1 once, with the frequencies 2147483647 and 1; the sum of the
frequencies is 2147483648, and the frequency kept is -2147483648. -/
theorem MultiTermIntersection_sum_overflows :
    (∀ term ∈ [['a'], ['b']], (exampleOverflowIndex.LookupWord term).isSome = true) ∧
    (∀ term ∈ [['a'], ['b']], (docIds (exampleOverflowIndex.postings term)).Nodup) ∧
    (∀ term ∈ [['a'], ['b']], ∀ e ∈ exampleOverflowIndex.postings term,
      isInt32 e.num_positions) ∧
    ([['a'], ['b']].map (fun term => frequencyOf 1 (exampleOverflowIndex.postings term))).sum =
      2147483648 ∧
    MultiTermIntersection [['a'], ['b']] exampleOverflowIndex = [⟨1, -2147483648⟩] := by
  decide

/-- C1, amended: for a query of at least one term whose terms all have a
posting list in the shard, none of which repeats a doc id,
`MultiTermIntersection` returns each doc id that occurs in all the posting
lists exactly once and no other, and the frequency kept for it is the sum of
its frequencies over the posting lists reduced to the range of `int32_t`: it
is the sum itself whenever that sum is an `int32_t` value. -/
theorem MultiTermIntersection_all_terms_found (index_reader : IndexTableReader)
    (query : List (List Char)) (hquery : query ≠ [])
    (hfound : ∀ term ∈ query, (index_reader.LookupWord term).isSome = true)
    (hnodup : ∀ term ∈ query, (docIds (index_reader.postings term)).Nodup)
    (hint : ∀ term ∈ query, ∀ e ∈ index_reader.postings term, isInt32 e.num_positions) :
    (docIds (MultiTermIntersection query index_reader)).Nodup ∧
    (∀ d, d ∈ docIds (MultiTermIntersection query index_reader) ↔
      ∀ term ∈ query, d ∈ docIds (index_reader.postings term)) ∧
    (∀ e ∈ MultiTermIntersection query index_reader,
      e.num_positions = wrapInt32
        ((query.map (fun term => frequencyOf e.doc_id (index_reader.postings term))).sum) ∧
      (isInt32 ((query.map (fun term => frequencyOf e.doc_id (index_reader.postings term))).sum) →
        e.num_positions =
          (query.map (fun term => frequencyOf e.doc_id (index_reader.postings term))).sum)) := by
  cases query with
  | nil => exact absurd rfl hquery
  | cons first rest =>
    obtain ⟨first_term, hfirst⟩ :=
      Option.isSome_iff_exists.1 (hfound first (List.mem_cons_self _ _))
    have hfirstnd := hnodup first (List.mem_cons_self _ _)
    rw [MultiTermIntersection_cons_some hfirst]
    obtain ⟨h1, h2, h3⟩ := loop_all_terms index_reader rest (index_reader.postings first)
      (fun t ht => hfound t (List.mem_cons_of_mem _ ht))
      (fun t ht => hnodup t (List.mem_cons_of_mem _ ht)) hfirstnd
    refine ⟨h1, fun d => ?_, fun e he => ?_⟩
    · rw [h2 d]
      constructor
      · rintro ⟨ha, hb⟩ t ht
        rcases List.mem_cons.1 ht with rfl | ht
        · exact ha
        · exact hb t ht
      · intro h
        exact ⟨h first (List.mem_cons_self _ _), fun t ht => h t (List.mem_cons_of_mem _ ht)⟩
    · obtain ⟨e0, he0, hid, hsum, hrange⟩ := h3 e he
      have hfreq : frequencyOf e.doc_id (index_reader.postings first) = e0.num_positions := by
        rw [← hid]; exact frequencyOf_of_nodup hfirstnd he0
      have hin : isInt32 e.num_positions :=
        hrange (hint first (List.mem_cons_self _ _))
      have hval : e.num_positions = wrapInt32 (((first :: rest).map
          (fun term => frequencyOf e.doc_id (index_reader.postings term))).sum) := by
        rw [List.map_cons, List.sum_cons, hfreq, ← hsum, wrapInt32_of_isInt32 hin]
      refine ⟨hval, fun hfit => ?_⟩
      rw [← wrapInt32_of_isInt32 hfit]
      exact hval

/-- Witness of C1, amended: the terms `t1 ↦ {1:3, 2:1}` and `t2 ↦ {2:2}` match exactly
document 2, with frequency 3. -/
theorem MultiTermIntersection_all_terms_found_witness :
    MultiTermIntersection [['t', '1'], ['t', '2']] exampleIndex = [⟨2, 3⟩] ∧
    (docIds (MultiTermIntersection [['t', '1'], ['t', '2']] exampleIndex)).Nodup ∧
    (∀ d, d ∈ docIds (MultiTermIntersection [['t', '1'], ['t', '2']] exampleIndex) ↔
      ∀ term ∈ [['t', '1'], ['t', '2']], d ∈ docIds (exampleIndex.postings term)) :=
  have h := MultiTermIntersection_all_terms_found exampleIndex [['t', '1'], ['t', '2']]
    (by decide) (by decide) (by decide) (by decide)
  ⟨by decide, h.1, h.2.1⟩

/-- C2 as stated fails: a posting list that holds document 1 twice gives two
results for its name `A`. -/
theorem single_term_posting_repeats :
    QueryProcessor.ProcessQuery QueryResult.lt
        (QueryProcessor.mk [(exampleIndex, exampleDocs)]) [['d', 'u', 'p']] =
      some [⟨['A'], 3⟩, ⟨['A'], 3⟩, ⟨['C'], 1⟩] ∧
    ¬ (([⟨['A'], 3⟩, ⟨['A'], 3⟩, ⟨['C'], 1⟩] : List QueryResult).map
        (fun r => r.document_name)).Nodup := by
  decide

/-- C2, amended: for a single shard and a single-term query whose term has a
posting list, `ProcessQuery` returns one result for each entry of the posting
list whose doc id has a name, carrying that name and the entry's frequency as
rank (an entry that repeats a doc id gives a result of its own), ordered by
name and then rank; no name appears twice when the posting list repeats no
doc id and different doc ids have different names. -/
theorem ProcessQuery_single_term (index_reader : IndexTableReader)
    (doc_reader : DocTableReader) (term : List Char) (first_term : DocIDTableReader)
    (hlookup : index_reader.LookupWord term = some first_term) :
    ∃ results,
      QueryProcessor.ProcessQuery QueryResult.lt
        (QueryProcessor.mk [(index_reader, doc_reader)]) [term] = some results ∧
      results.Perm (first_term.GetDocIDList.filterMap doc_reader.resultFor) ∧
      results.Pairwise QueryResult.le ∧
      ((docIds first_term.GetDocIDList).Nodup →
        (∀ d d' name, doc_reader.LookupDocID d = some name →
          doc_reader.LookupDocID d' = some name → d = d') →
        (results.map (fun r => r.document_name)).Nodup) := by
  have hshard : shardResults [term] (index_reader, doc_reader) =
      first_term.GetDocIDList.filterMap doc_reader.resultFor := by
    unfold shardResults
    rw [MultiTermIntersection_cons_some hlookup, postings_of_lookup hlookup,
      AddMatchingDocuments_eq]
    rfl
  refine ⟨_, ProcessQuery_eq QueryResult.lt _ (List.cons_ne_nil _ _), ?_, ?_, ?_⟩
  · simp only [List.map_cons, List.map_nil, List.flatten_cons, List.flatten_nil,
      List.append_nil, hshard]
    exact sort_perm _ _
  · exact sort_QueryResult_sorted _
  · intro hnd hinj
    simp only [List.map_cons, List.map_nil, List.flatten_cons, List.flatten_nil,
      List.append_nil, hshard]
    refine ((sort_perm QueryResult.lt _).map _).nodup_iff.2 ?_
    have hnames : (first_term.GetDocIDList.filterMap doc_reader.resultFor).map
        (fun r => r.document_name) =
        (docIds first_term.GetDocIDList).filterMap doc_reader.LookupDocID := by
      unfold docIds
      rw [List.map_filterMap, List.filterMap_map]
      congr 1
      funext doc
      simp only [DocTableReader.resultFor, Function.comp]
      cases doc_reader.LookupDocID doc.doc_id <;> rfl
    rw [hnames]
    exact hnd.filterMap (fun d d' name h h' => hinj d d' name (by simpa using h) (by simpa using h'))

/-- Witness of C2: the posting list `{1:3, 3:1}` with the names `1 ↦ A` and
`3 ↦ C` gives exactly the results `A` with rank 3 and `C` with rank 1. -/
theorem ProcessQuery_single_term_witness :
    QueryProcessor.ProcessQuery QueryResult.lt
        (QueryProcessor.mk [(exampleIndex, exampleDocs)]) [['t']] =
      some [⟨['A'], 3⟩, ⟨['C'], 1⟩] ∧
    ∃ results,
      QueryProcessor.ProcessQuery QueryResult.lt
        (QueryProcessor.mk [(exampleIndex, exampleDocs)]) [['t']] = some results ∧
      results.Perm (([⟨1, 3⟩, ⟨3, 1⟩] : List DocIDElementHeader).filterMap
        exampleDocs.resultFor) ∧
      results.Pairwise QueryResult.le ∧
      ((docIds [⟨1, 3⟩, ⟨3, 1⟩]).Nodup →
        (∀ d d' name, exampleDocs.LookupDocID d = some name →
          exampleDocs.LookupDocID d' = some name → d = d') →
        (results.map (fun r => r.document_name)).Nodup) :=
  ⟨by decide,
    ProcessQuery_single_term exampleIndex exampleDocs ['t']
      (DocIDTableReader.mk [⟨1, 3⟩, ⟨3, 1⟩]) rfl⟩

/-- C3 as stated fails: a doc id that occurs twice in the first list (the new
term's posting list) gives two entries, the second built from its second
occurrence. -/
theorem Intersection_repeats_first_list :
    Intersection [⟨1, 2⟩, ⟨1, 5⟩] [⟨1, 10⟩] = [⟨1, 12⟩, ⟨1, 15⟩] ∧
    ¬ (docIds (Intersection [⟨1, 2⟩, ⟨1, 5⟩] [⟨1, 10⟩])).Nodup := by
  decide

/-- C3, amended: `Intersection list1 list2` (`list1` the new term's posting
list, `list2` the running match set) has, in the order of `list1`, one entry
for every entry of `list1` whose doc id occurs in `list2`, also when `list1`
repeats a doc id; of `list2` only the first occurrence of that doc id is
used, and the frequency is the `int32_t` sum of the two. So a doc id has as
many entries in the output as in `list1` when it occurs in `list2`, and none
otherwise. -/
theorem Intersection_first_occurrence (list1 list2 : List DocIDElementHeader) :
    Intersection list1 list2 =
      list1.filterMap (fun it1 =>
        match firstWithId it1.doc_id list2 with
        | some it2 =>
          some (DocIDElementHeader.mk it1.doc_id (addInt32 it1.num_positions it2.num_positions))
        | none => none) ∧
    ∀ d, (docIds (Intersection list1 list2)).count d =
      if d ∈ docIds list2 then (docIds list1).count d else 0 := by
  constructor
  · induction list1 with
    | nil => rfl
    | cons it1 rest ih =>
      unfold Intersection
      rw [ih, inner_eq_firstWithId, List.filterMap_cons]
      cases firstWithId it1.doc_id list2 <;> rfl
  · intro d
    rw [docIds_Intersection]
    by_cases h : d ∈ docIds list2
    · rw [if_pos h]
      exact List.count_filter (by simpa using h)
    · rw [if_neg h]
      apply List.count_eq_zero_of_not_mem
      intro hmem
      exact h (by simpa using (List.mem_filter.1 hmem).2)

/-- C4: a shard in which some term of the query has no posting list gives an
empty match set and adds nothing to the results, whatever the other terms
match; `ProcessQuery` returns what it returns without such shards, and the
empty list when every shard is one. -/
theorem ProcessQuery_missing_term (lt : QueryResult → QueryResult → Bool)
    (self : QueryProcessor) (query : List (List Char)) (hquery : query ≠ []) :
    (∀ (index_reader : IndexTableReader) (doc_reader : DocTableReader)
        (results : List QueryResult),
      (∃ term ∈ query, index_reader.LookupWord term = none) →
        MultiTermIntersection query index_reader = [] ∧
        AddMatchingDocuments (MultiTermIntersection query index_reader) doc_reader results =
          results) ∧
    self.ProcessQuery lt query =
      (QueryProcessor.mk (self.readers.filter (hasAllTerms query))).ProcessQuery lt query ∧
    ((∀ shard ∈ self.readers, ∃ term ∈ query, shard.1.LookupWord term = none) →
      self.ProcessQuery lt query = some []) := by
  refine ⟨fun index_reader doc_reader results h => ?_, ?_, fun h => ?_⟩
  · rw [MultiTermIntersection_missing_term index_reader query h]
    exact ⟨rfl, rfl⟩
  · rw [ProcessQuery_eq lt self hquery, ProcessQuery_eq lt _ hquery,
      flatten_shardResults_filter]
  · rw [ProcessQuery_eq lt self hquery]
    have hall : (self.readers.map (shardResults query)).flatten = [] := by
      rw [List.flatten_eq_nil_iff]
      intro l hl
      obtain ⟨shard, hshard, rfl⟩ := List.mem_map.1 hl
      unfold shardResults
      rw [MultiTermIntersection_missing_term shard.1 query (h shard hshard)]
      rfl
    rw [hall]
    rfl

/-- Witness of C4: `t1` matches documents 1 and 2 of the example shard, the
second term is unknown there, and the query has no result. -/
theorem ProcessQuery_missing_term_witness :
    MultiTermIntersection [['t', '1']] exampleIndex = [⟨1, 3⟩, ⟨2, 1⟩] ∧
    MultiTermIntersection [['t', '1'], ['z']] exampleIndex = [] ∧
    QueryProcessor.ProcessQuery QueryResult.lt
        (QueryProcessor.mk [(exampleIndex, exampleDocs)]) [['t', '1'], ['z']] = some [] :=
  ⟨by decide,
    ((ProcessQuery_missing_term QueryResult.lt (QueryProcessor.mk [(exampleIndex, exampleDocs)])
      [['t', '1'], ['z']] (by decide)).1 exampleIndex exampleDocs []
        ⟨['z'], by decide, rfl⟩).1,
    (ProcessQuery_missing_term QueryResult.lt (QueryProcessor.mk [(exampleIndex, exampleDocs)])
      [['t', '1'], ['z']] (by decide)).2.2
        (fun shard hshard => by
          rw [List.mem_singleton] at hshard
          rw [hshard]
          exact ⟨['z'], by decide, rfl⟩)⟩

/-- C5: the list that `ProcessQuery` returns is in ascending order of the
pair `(document_name, rank)`, the name being the primary key, over the
results of all shards. -/
theorem ProcessQuery_sorted (self : QueryProcessor) (query : List (List Char))
    (hquery : query ≠ []) :
    ∃ results, self.ProcessQuery QueryResult.lt query = some results ∧
      results.Pairwise QueryResult.le :=
  ⟨_, ProcessQuery_eq QueryResult.lt self hquery, sort_QueryResult_sorted _⟩

/-- Witness of C5: a first shard giving `b.txt` with rank 5 and a second one
giving `a.txt` with rank 2 yield `a.txt` before `b.txt`. -/
theorem ProcessQuery_sorted_witness :
    QueryProcessor.ProcessQuery QueryResult.lt
        (QueryProcessor.mk [exampleShard1, exampleShard2]) [['w']] =
      some [⟨"a.txt".toList, 2⟩, ⟨"b.txt".toList, 5⟩] ∧
    ∃ results, QueryProcessor.ProcessQuery QueryResult.lt
        (QueryProcessor.mk [exampleShard1, exampleShard2]) [['w']] = some results ∧
      results.Pairwise QueryResult.le :=
  ⟨by decide,
    ProcessQuery_sorted (QueryProcessor.mk [exampleShard1, exampleShard2]) [['w']] (by decide)⟩

/-- C6: whatever the order `operator<` is, the list that `ProcessQuery`
returns is a rearrangement of the results of the shards put one after the
other, where the results of a shard are computed from the readers of that
shard alone: every result of a shard is in the output as often as the shards
produce it, and nothing else is. -/
theorem ProcessQuery_perm_shards (lt : QueryResult → QueryResult → Bool)
    (self : QueryProcessor) (query : List (List Char)) (hquery : query ≠ []) :
    ∃ results, self.ProcessQuery lt query = some results ∧
      results.Perm ((self.readers.map (shardResults query)).flatten) ∧
      ∀ r, results.count r = ((self.readers.map (fun shard =>
        (shardResults query shard).count r)).sum) := by
  refine ⟨_, ProcessQuery_eq lt self hquery, sort_perm lt _, fun r => ?_⟩
  rw [(sort_perm lt _).count_eq, List.count_flatten, List.map_map]
  rfl

/-- Witness of C6: the same document name found in two shards gives two
entries. -/
theorem ProcessQuery_perm_shards_witness :
    QueryProcessor.ProcessQuery QueryResult.lt
        (QueryProcessor.mk [exampleShard1, exampleShard2, exampleShard1]) [['w']] =
      some [⟨"a.txt".toList, 2⟩, ⟨"b.txt".toList, 5⟩, ⟨"b.txt".toList, 5⟩] ∧
    ∃ results, QueryProcessor.ProcessQuery QueryResult.lt
        (QueryProcessor.mk [exampleShard1, exampleShard2, exampleShard1]) [['w']] =
          some results ∧
      results.Perm (([exampleShard1, exampleShard2, exampleShard1].map
        (shardResults [['w']])).flatten) ∧
      ∀ r, results.count r = (([exampleShard1, exampleShard2, exampleShard1].map (fun shard =>
        (shardResults [['w']] shard).count r)).sum) :=
  ⟨by decide,
    ProcessQuery_perm_shards QueryResult.lt
      (QueryProcessor.mk [exampleShard1, exampleShard2, exampleShard1]) [['w']] (by decide)⟩

/-- C7: in `AddMatchingDocuments`, a matching document whose name lookup
succeeds gives exactly one result, with that name and with the document's
accumulated frequency as rank, and one whose lookup fails gives none; in both
cases the results of the documents before it and after it are the same, and
the function returns for every input. -/
theorem AddMatchingDocuments_each (before after : List DocIDElementHeader)
    (doc : DocIDElementHeader) (doc_reader : DocTableReader) (results : List QueryResult) :
    AddMatchingDocuments (before ++ doc :: after) doc_reader results =
      AddMatchingDocuments before doc_reader results ++
        (match doc_reader.LookupDocID doc.doc_id with
          | some document_name => [QueryResult.mk document_name doc.num_positions]
          | none => []) ++
        AddMatchingDocuments after doc_reader [] := by
  rw [AddMatchingDocuments_eq, AddMatchingDocuments_eq, AddMatchingDocuments_eq,
    List.filterMap_append, List.filterMap_cons]
  unfold DocTableReader.resultFor
  cases doc_reader.LookupDocID doc.doc_id <;> simp

end hw3

/-! # Theorems about the connection framing -/

namespace hw4

theorem find_unfold (pattern s : List Char) :
    find pattern s =
      if pattern.isPrefixOf s then some 0
      else
        match s with
        | [] => none
        | _ :: rest => (find pattern rest).map (fun pos => pos + 1) := by
  cases s <;> rw [find]

theorem find_eq_some {pattern : List Char} :
    ∀ {s : List Char} {pos : Nat}, find pattern s = some pos →
      ∃ pre post, s = pre ++ pattern ++ post ∧ pre.length = pos ∧
        ∀ a b, s = a ++ pattern ++ b → pos ≤ a.length
  | [], pos, h => by
    rw [find_unfold] at h
    by_cases hp : pattern.isPrefixOf [] = true
    · rw [if_pos hp] at h
      obtain ⟨t, ht⟩ := List.isPrefixOf_iff_prefix.1 hp
      injection h with h
      exact ⟨[], t, by simpa using ht.symm, h, fun a b _ => by omega⟩
    · rw [if_neg hp] at h; cases h
  | c :: cs, pos, h => by
    rw [find_unfold] at h
    by_cases hp : pattern.isPrefixOf (c :: cs) = true
    · rw [if_pos hp] at h
      obtain ⟨t, ht⟩ := List.isPrefixOf_iff_prefix.1 hp
      injection h with h
      exact ⟨[], t, by simpa using ht.symm, h, fun a b _ => by omega⟩
    · rw [if_neg hp] at h
      simp only [Option.map_eq_some'] at h
      obtain ⟨p, hfind, hpos⟩ := h
      obtain ⟨pre, post, hs, hlen, hmin⟩ := find_eq_some hfind
      refine ⟨c :: pre, post, by rw [hs]; simp, by simp [hlen, hpos], fun a b hab => ?_⟩
      cases a with
      | nil =>
        exfalso
        apply hp
        rw [List.isPrefixOf_iff_prefix]
        exact ⟨b, by simpa using hab.symm⟩
      | cons x a =>
        simp only [List.cons_append, List.cons.injEq] at hab
        have := hmin a b (by simpa using hab.2)
        simp only [List.length_cons]
        omega

theorem find_isSome_of_infix {pattern : List Char} :
    ∀ {s : List Char}, pattern <:+: s → ∃ pos, find pattern s = some pos
  | [], h => by
    have : pattern = [] := List.eq_nil_of_infix_nil h
    subst this
    exact ⟨0, by rw [find_unfold]; simp⟩
  | c :: cs, h => by
    rw [find_unfold]
    by_cases hp : pattern.isPrefixOf (c :: cs) = true
    · exact ⟨0, by rw [if_pos hp]⟩
    · rw [if_neg hp]
      rcases List.infix_cons_iff.1 h with h | h
      · exact absurd (List.isPrefixOf_iff_prefix.2 h) hp
      · obtain ⟨p, hfind⟩ := find_isSome_of_infix h
        exact ⟨p + 1, by simp [hfind]⟩

theorem find_eq_none {pattern s : List Char} (h : find pattern s = none) :
    ¬ pattern <:+: s := by
  intro hin
  obtain ⟨pos, hpos⟩ := find_isSome_of_infix hin
  rw [hpos] at h; cases h

/-- A terminator found at `pos` frames the buffer: the block up to and
including it, and the rest. -/
theorem frame_of_find {buffer : List Char} {pos : Nat}
    (h : find kHeaderEnd buffer = some pos) :
    ∃ pre, buffer.take (pos + kHeaderEndLen) = pre ++ kHeaderEnd ∧
      buffer.take (pos + kHeaderEndLen) ++ buffer.drop (pos + kHeaderEndLen) = buffer ∧
      ¬ kHeaderEnd <:+: pre ++ kHeaderEnd.dropLast := by
  obtain ⟨pre, post, hs, hlen, hmin⟩ := find_eq_some h
  refine ⟨pre, ?_, List.take_append_drop _ _, ?_⟩
  · have hl : pos + kHeaderEndLen = (pre ++ kHeaderEnd).length := by
      rw [List.length_append, hlen]; rfl
    rw [hs, hl, List.take_left']
    rfl
  · rintro ⟨a, b, hab⟩
    have hlen2 : a.length + 4 + b.length = pre.length + 3 := by
      have := congrArg List.length hab
      simp only [List.length_append] at this
      have h4 : kHeaderEnd.length = 4 := rfl
      have h3 : kHeaderEnd.dropLast.length = 3 := rfl
      omega
    have := hmin a (b ++ '\n' :: post) (by
      rw [hs]
      calc pre ++ kHeaderEnd ++ post
          = (pre ++ kHeaderEnd.dropLast) ++ ('\n' :: post) := by
            rw [List.append_assoc pre, List.append_assoc pre]
            congr 1
        _ = a ++ kHeaderEnd ++ (b ++ '\n' :: post) := by
            rw [← hab]; simp only [List.append_assoc])
    omega

/-- The first terminator of a buffer that starts with a block holding the
terminator at its end only is the one of the block. -/
theorem find_block {pre post : List Char}
    (hfirst : ¬ kHeaderEnd <:+: pre ++ kHeaderEnd.dropLast) :
    find kHeaderEnd (pre ++ kHeaderEnd ++ post) = some pre.length := by
  obtain ⟨pos, hpos⟩ := find_isSome_of_infix (s := pre ++ kHeaderEnd ++ post)
    ⟨pre, post, rfl⟩
  obtain ⟨pre', post', hs, hlen, hmin⟩ := find_eq_some hpos
  have hle : pos ≤ pre.length := hmin pre post rfl
  rcases Nat.lt_or_ge pos pre.length with hlt | hge
  · exfalso
    apply hfirst
    have h1 : pre' ++ kHeaderEnd <+: pre ++ kHeaderEnd ++ post := ⟨post', hs.symm⟩
    have h2 : pre ++ kHeaderEnd.dropLast <+: pre ++ kHeaderEnd ++ post :=
      ⟨'\n' :: post, by
        rw [List.append_assoc pre, List.append_assoc pre]
        congr 1⟩
    have h3 : pre' ++ kHeaderEnd <+: pre ++ kHeaderEnd.dropLast := by
      apply List.prefix_of_prefix_length_le h1 h2
      simp only [List.length_append]
      have h4 : kHeaderEnd.length = 4 := rfl
      have h3 : kHeaderEnd.dropLast.length = 3 := rfl
      omega
    exact List.IsInfix.trans ⟨pre', [], by simp⟩ h3.isInfix
  · rw [hpos]; congr 1; omega

theorem loop_of_find_some {buffer : List Char} {pos : Nat}
    (h : find kHeaderEnd buffer = some pos) (fd : List ReadOutcome) :
    GetNextRequest.loop fd buffer =
      (some (buffer.take (pos + kHeaderEndLen)),
        HttpConnection.mk fd (buffer.drop (pos + kHeaderEndLen))) := by
  cases fd <;> simp only [GetNextRequest.loop, h]

theorem loop_of_find_none_nil {buffer : List Char} (h : find kHeaderEnd buffer = none) :
    GetNextRequest.loop [] buffer = (none, HttpConnection.mk [] buffer) := by
  simp only [GetNextRequest.loop, h]

theorem loop_of_find_none_cons {buffer : List Char} (h : find kHeaderEnd buffer = none)
    (outcome : ReadOutcome) (fd : List ReadOutcome) :
    GetNextRequest.loop (outcome :: fd) buffer =
      if outcome.bytes_read ≤ 0 then (none, HttpConnection.mk fd buffer)
      else GetNextRequest.loop fd (buffer ++ outcome.bytes) := by
  simp only [GetNextRequest.loop, h]

theorem loop_success :
    ∀ (fd : List ReadOutcome) (buffer header : List Char) (conn : HttpConnection),
      GetNextRequest.loop fd buffer = (some header, conn) →
      ∃ consumed : List ReadOutcome, fd = consumed ++ conn.fd_ ∧
        (∀ outcome ∈ consumed, 0 < outcome.bytes_read) ∧
        header ++ conn.buffer_ = buffer ++ (consumed.map ReadOutcome.bytes).flatten ∧
        ∃ pre, header = pre ++ kHeaderEnd ∧ ¬ kHeaderEnd <:+: pre ++ kHeaderEnd.dropLast := by
  intro fd
  induction fd with
  | nil =>
    intro buffer header conn h
    cases hf : find kHeaderEnd buffer with
    | none => rw [loop_of_find_none_nil hf] at h; cases h
    | some pos =>
      rw [loop_of_find_some hf] at h
      injection h with h1 h2
      injection h1 with h1
      subst h1 h2
      obtain ⟨pre, hpre, happ, hfirst⟩ := frame_of_find hf
      exact ⟨[], rfl, fun _ ho => absurd ho (List.not_mem_nil _), by simp, pre, hpre, hfirst⟩
  | cons outcome fd ih =>
    intro buffer header conn h
    cases hf : find kHeaderEnd buffer with
    | none =>
      rw [loop_of_find_none_cons hf] at h
      by_cases hr : outcome.bytes_read ≤ 0
      · rw [if_pos hr] at h; cases h
      · rw [if_neg hr] at h
        obtain ⟨consumed, hfd, hpos, happ, hblock⟩ := ih _ header conn h
        refine ⟨outcome :: consumed, by rw [hfd]; rfl, ?_, ?_, hblock⟩
        · intro o ho
          rcases List.mem_cons.1 ho with rfl | ho
          · omega
          · exact hpos o ho
        · rw [happ]; simp
    | some pos =>
      rw [loop_of_find_some hf] at h
      injection h with h1 h2
      injection h1 with h1
      subst h1 h2
      obtain ⟨pre, hpre, happ, hfirst⟩ := frame_of_find hf
      exact ⟨[], rfl, fun _ ho => absurd ho (List.not_mem_nil _), by simp, pre, hpre, hfirst⟩

theorem GetNextRequest_of_loop {self conn : HttpConnection} {header : List Char}
    (h : GetNextRequest.loop self.fd_ self.buffer_ = (some header, conn)) :
    self.GetNextRequest = (some (ParseRequest header), conn) := by
  unfold HttpConnection.GetNextRequest; rw [h]

theorem loop_of_GetNextRequest {self conn : HttpConnection} {request : HttpRequest}
    (h : self.GetNextRequest = (some request, conn)) :
    ∃ header, GetNextRequest.loop self.fd_ self.buffer_ = (some header, conn) ∧
      request = ParseRequest header := by
  unfold HttpConnection.GetNextRequest at h
  rcases hl : GetNextRequest.loop self.fd_ self.buffer_ with ⟨_ | header, c⟩
  · rw [hl] at h; simp at h
  · rw [hl] at h
    simp only [Prod.mk.injEq, Option.some.injEq] at h
    exact ⟨header, by rw [h.2], h.1.symm⟩

/-- A call on a buffer that starts with a block returns the parse of the
block, keeps the rest of the buffer, and reads nothing. -/
theorem GetNextRequest_block (fd : List ReadOutcome) {pre : List Char} (post : List Char)
    (hfirst : ¬ kHeaderEnd <:+: pre ++ kHeaderEnd.dropLast) :
    (HttpConnection.mk fd (pre ++ kHeaderEnd ++ post)).GetNextRequest =
      (some (ParseRequest (pre ++ kHeaderEnd)), HttpConnection.mk fd post) := by
  apply GetNextRequest_of_loop
  rw [loop_of_find_some (find_block hfirst)]
  have hl : pre.length + kHeaderEndLen = (pre ++ kHeaderEnd).length := by
    rw [List.length_append]; rfl
  rw [hl, List.take_left', List.drop_left']
  · rfl
  · rfl

theorem successiveRequests_buffered (fd : List ReadOutcome) :
    ∀ blocks : List (List Char), (∀ block ∈ blocks, IsBlock block) →
      successiveRequests blocks.length (HttpConnection.mk fd blocks.flatten) =
        (blocks.map (fun block => some (ParseRequest block)), HttpConnection.mk fd [])
  | [], _ => rfl
  | block :: blocks, h => by
    obtain ⟨pre, hpre, hfirst⟩ := h block (List.mem_cons_self _ _)
    have hstep := GetNextRequest_block fd blocks.flatten hfirst
    rw [← hpre] at hstep
    simp only [List.length_cons, successiveRequests, List.flatten_cons, hstep, List.map_cons]
    rw [successiveRequests_buffered fd blocks (fun b hb => h b (List.mem_cons_of_mem _ hb))]

theorem GetNextRequest_read_first (fd : List ReadOutcome) {bytes : List Char}
    (hbytes : bytes ≠ []) :
    (HttpConnection.mk (ReadOutcome.data bytes :: fd) []).GetNextRequest =
      (HttpConnection.mk fd bytes).GetNextRequest := by
  unfold HttpConnection.GetNextRequest
  have hnone : find kHeaderEnd [] = none := by decide
  have hpos : ¬ (ReadOutcome.data bytes).bytes_read ≤ 0 := by
    simp only [ReadOutcome.bytes_read]
    have := List.length_pos.2 hbytes
    omega
  simp only [loop_of_find_none_cons hnone, if_neg hpos, ReadOutcome.bytes, List.nil_append]

theorem successiveRequests_read_first (k : Nat) (fd : List ReadOutcome) {bytes : List Char}
    (hbytes : bytes ≠ []) :
    successiveRequests (k + 1) (HttpConnection.mk (ReadOutcome.data bytes :: fd) []) =
      successiveRequests (k + 1) (HttpConnection.mk fd bytes) := by
  simp only [successiveRequests, GetNextRequest_read_first fd hbytes]

theorem IsBlock.ne_nil {block : List Char} (h : IsBlock block) : block ≠ [] := by
  obtain ⟨pre, rfl, _⟩ := h
  simp [kHeaderEnd]

/-- C8: whenever `GetNextRequest` succeeds, the header block it parses and
the buffer it leaves are the two parts of the buffer on entry followed by the
bytes of the reads made during the call, in that order and nothing else; the
block ends with the first terminator of that input. -/
theorem GetNextRequest_frames (self conn : HttpConnection) (request : HttpRequest)
    (hsuccess : self.GetNextRequest = (some request, conn)) :
    ∃ (header : List Char) (consumed : List ReadOutcome),
      GetNextRequest.loop self.fd_ self.buffer_ = (some header, conn) ∧
      request = ParseRequest header ∧
      self.fd_ = consumed ++ conn.fd_ ∧
      (∀ outcome ∈ consumed, 0 < outcome.bytes_read) ∧
      header ++ conn.buffer_ = self.buffer_ ++ (consumed.map ReadOutcome.bytes).flatten ∧
      ∃ pre, header = pre ++ kHeaderEnd ∧ ¬ kHeaderEnd <:+: pre ++ kHeaderEnd.dropLast := by
  obtain ⟨header, hloop, hreq⟩ := loop_of_GetNextRequest hsuccess
  obtain ⟨consumed, h1, h2, h3, h4⟩ := loop_success _ _ _ _ hloop
  exact ⟨header, consumed, hloop, hreq, h1, h2, h3, h4⟩

/-- Witness of C8: a buffer holding the start of a request, completed by one
read that also brings the start of the next request. -/
theorem GetNextRequest_frames_witness :
    ∃ (header : List Char) (consumed : List ReadOutcome),
      GetNextRequest.loop [ReadOutcome.data "TP/1.1\r\n\r\nGET /y".toList, ReadOutcome.closed]
        "GET /x HT".toList =
        (some header, HttpConnection.mk [ReadOutcome.closed] "GET /y".toList) ∧
      HttpRequest.mk "/x".toList [] = ParseRequest header ∧
      [ReadOutcome.data "TP/1.1\r\n\r\nGET /y".toList, ReadOutcome.closed] =
        consumed ++ [ReadOutcome.closed] ∧
      (∀ outcome ∈ consumed, 0 < outcome.bytes_read) ∧
      header ++ "GET /y".toList =
        "GET /x HT".toList ++ (consumed.map ReadOutcome.bytes).flatten ∧
      ∃ pre, header = pre ++ kHeaderEnd ∧ ¬ kHeaderEnd <:+: pre ++ kHeaderEnd.dropLast :=
  GetNextRequest_frames
    (HttpConnection.mk [ReadOutcome.data "TP/1.1\r\n\r\nGET /y".toList, ReadOutcome.closed]
      "GET /x HT".toList)
    (HttpConnection.mk [ReadOutcome.closed] "GET /y".toList)
    (HttpRequest.mk "/x".toList []) (by decide)

/-- C9: when one read delivers a number of complete header blocks back to
back, each holding the terminator at its end only, as many successive calls
of `GetNextRequest` all succeed and return the parses of the blocks in their
order; after them the buffer is empty and no further read was made. -/
theorem successiveRequests_pipelined (blocks : List (List Char)) (fd : List ReadOutcome)
    (hblocks : ∀ block ∈ blocks, IsBlock block) :
    (successiveRequests blocks.length
        (HttpConnection.mk (ReadOutcome.data blocks.flatten :: fd) [])).1 =
      blocks.map (fun block => some (ParseRequest block)) ∧
    (blocks ≠ [] →
      (successiveRequests blocks.length
        (HttpConnection.mk (ReadOutcome.data blocks.flatten :: fd) [])).2 =
        HttpConnection.mk fd []) := by
  cases blocks with
  | nil => exact ⟨rfl, fun h => absurd rfl h⟩
  | cons block rest =>
    have hne : (block :: rest).flatten ≠ [] := by
      rw [List.flatten_cons]
      intro h
      exact (hblocks block (List.mem_cons_self _ _)).ne_nil (List.append_eq_nil.1 h).1
    rw [List.length_cons, successiveRequests_read_first _ fd hne, ← List.length_cons,
      successiveRequests_buffered fd (block :: rest) hblocks]
    exact ⟨rfl, fun _ => rfl⟩

/-- Witness of C9: one read of a request for `/x` followed by a request for
`/y` gives the path `/x` and then the path `/y`. -/
theorem successiveRequests_pipelined_witness :
    (successiveRequests 2
        (HttpConnection.mk [ReadOutcome.data (exampleBlockX ++ exampleBlockY)] [])).1.map
      (fun result => result.map (fun request => request.uri_)) =
      [some "/x".toList, some "/y".toList] ∧
    (successiveRequests [exampleBlockX, exampleBlockY].length
        (HttpConnection.mk (ReadOutcome.data [exampleBlockX, exampleBlockY].flatten :: []) [])).1 =
      [exampleBlockX, exampleBlockY].map (fun block => some (ParseRequest block)) :=
  ⟨by decide,
    (successiveRequests_pipelined [exampleBlockX, exampleBlockY] []
      (fun block hblock => by
        rcases List.mem_cons.1 hblock with rfl | hblock
        · exact ⟨"GET /x HTTP/1.1\r\nHost: h".toList, by decide, by decide⟩
        · rw [List.mem_singleton] at hblock
          rw [hblock]
          exact ⟨"GET /y HTTP/1.1".toList, by decide, by decide⟩)).1⟩

/-- C10: when the buffer already contains the terminator, `GetNextRequest`
succeeds with the parse of a first part of the buffer, keeps the rest, and
makes no read: the unread input is what it was before the call. -/
theorem GetNextRequest_buffered (self : HttpConnection)
    (hbuffered : kHeaderEnd <:+: self.buffer_) :
    ∃ (request : HttpRequest) (conn : HttpConnection),
      self.GetNextRequest = (some request, conn) ∧ conn.fd_ = self.fd_ ∧
      ∃ header, request = ParseRequest header ∧ header ++ conn.buffer_ = self.buffer_ ∧
        IsBlock header := by
  obtain ⟨pos, hpos⟩ := find_isSome_of_infix hbuffered
  obtain ⟨pre, hpre, happ, hfirst⟩ := frame_of_find hpos
  exact ⟨_, _, GetNextRequest_of_loop (loop_of_find_some hpos self.fd_), rfl,
    _, rfl, happ, pre, hpre, hfirst⟩

/-- Witness of C10: two requests in the buffer, and a pending read that stays
pending. -/
theorem GetNextRequest_buffered_witness :
    (HttpConnection.mk [ReadOutcome.data exampleBlockY] (exampleBlockX ++ exampleBlockY)).GetNextRequest =
      (some (HttpRequest.mk "/x".toList [("host".toList, "h".toList)]),
        HttpConnection.mk [ReadOutcome.data exampleBlockY] exampleBlockY) ∧
    ∃ (request : HttpRequest) (conn : HttpConnection),
      (HttpConnection.mk [ReadOutcome.data exampleBlockY]
        (exampleBlockX ++ exampleBlockY)).GetNextRequest = (some request, conn) ∧
      conn.fd_ = [ReadOutcome.data exampleBlockY] ∧
      ∃ header, request = ParseRequest header ∧
        header ++ conn.buffer_ = exampleBlockX ++ exampleBlockY ∧ IsBlock header :=
  ⟨by decide,
    GetNextRequest_buffered
      (HttpConnection.mk [ReadOutcome.data exampleBlockY] (exampleBlockX ++ exampleBlockY))
      (by decide)⟩

end hw4

/-! # Theorems about request framing, parsing and the server -/

namespace hw4

theorem infix_of_find_some {pattern s : List Char} {pos : Nat}
    (h : find pattern s = some pos) : pattern <:+: s := by
  obtain ⟨pre, post, hs, _, _⟩ := find_eq_some h
  exact ⟨pre, post, hs.symm⟩

theorem GetNextRequest_fst_eq_none (self : HttpConnection) :
    self.GetNextRequest.1 = none ↔ (GetNextRequest.loop self.fd_ self.buffer_).1 = none := by
  unfold HttpConnection.GetNextRequest
  rcases GetNextRequest.loop self.fd_ self.buffer_ with ⟨_ | header, conn⟩ <;> simp

theorem loop_fails_iff :
    ∀ (fd : List ReadOutcome) (buffer : List Char),
      (GetNextRequest.loop fd buffer).1 = none ↔
        ∃ (consumed : List ReadOutcome) (bad : ReadOutcome) (rest : List ReadOutcome),
          fd ++ [ReadOutcome.closed] = consumed ++ bad :: rest ∧
          (∀ outcome ∈ consumed, 0 < outcome.bytes_read) ∧
          bad.bytes_read ≤ 0 ∧
          ¬ kHeaderEnd <:+: buffer ++ (consumed.map ReadOutcome.bytes).flatten := by
  intro fd
  induction fd with
  | nil =>
    intro buffer
    cases hf : find kHeaderEnd buffer with
    | none =>
      rw [loop_of_find_none_nil hf]
      refine ⟨fun _ => ⟨[], ReadOutcome.closed, [], rfl, fun _ h => absurd h (List.not_mem_nil _),
        by decide, by simpa using find_eq_none hf⟩, fun _ => rfl⟩
    | some pos =>
      rw [loop_of_find_some hf]
      refine ⟨fun h => (by cases h), ?_⟩
      rintro ⟨consumed, bad, rest, _, _, _, hno⟩
      exact absurd ((infix_of_find_some hf).trans (List.infix_append' [] buffer _)) hno
  | cons outcome fd ih =>
    intro buffer
    cases hf : find kHeaderEnd buffer with
    | none =>
      rw [loop_of_find_none_cons hf]
      by_cases hr : outcome.bytes_read ≤ 0
      · rw [if_pos hr]
        refine ⟨fun _ => ⟨[], outcome, fd ++ [ReadOutcome.closed], rfl,
          fun _ h => absurd h (List.not_mem_nil _), hr, by simpa using find_eq_none hf⟩,
          fun _ => rfl⟩
      · rw [if_neg hr, ih]
        constructor
        · rintro ⟨consumed, bad, rest, hfd, hpos, hbad, hno⟩
          refine ⟨outcome :: consumed, bad, rest, by rw [List.cons_append, hfd]; rfl, ?_, hbad,
            by simpa using hno⟩
          intro o ho
          rcases List.mem_cons.1 ho with rfl | ho
          · omega
          · exact hpos o ho
        · rintro ⟨consumed, bad, rest, hfd, hpos, hbad, hno⟩
          cases consumed with
          | nil =>
            simp only [List.cons_append, List.nil_append, List.cons.injEq] at hfd
            rw [← hfd.1] at hbad
            exact absurd hbad hr
          | cons first consumed =>
            simp only [List.cons_append, List.cons.injEq] at hfd
            refine ⟨consumed, bad, rest, hfd.2, fun o ho => hpos o (List.mem_cons_of_mem _ ho),
              hbad, ?_⟩
            rw [hfd.1]
            simpa using hno
    | some pos =>
      rw [loop_of_find_some hf]
      refine ⟨fun h => (by cases h), ?_⟩
      rintro ⟨consumed, bad, rest, _, _, _, hno⟩
      exact absurd ((infix_of_find_some hf).trans (List.infix_append' [] buffer _)) hno

theorem loop_success_first :
    ∀ (fd : List ReadOutcome) (buffer header : List Char) (conn : HttpConnection),
      GetNextRequest.loop fd buffer = (some header, conn) →
      ∃ consumed : List ReadOutcome, fd = consumed ++ conn.fd_ ∧
        (∀ outcome ∈ consumed, 0 < outcome.bytes_read) ∧
        kHeaderEnd <:+: buffer ++ (consumed.map ReadOutcome.bytes).flatten ∧
        ∀ shorter : List ReadOutcome, shorter <+: consumed → shorter ≠ consumed →
          ¬ kHeaderEnd <:+: buffer ++ (shorter.map ReadOutcome.bytes).flatten := by
  intro fd
  induction fd with
  | nil =>
    intro buffer header conn h
    cases hf : find kHeaderEnd buffer with
    | none => rw [loop_of_find_none_nil hf] at h; cases h
    | some pos =>
      rw [loop_of_find_some hf] at h
      injection h with h1 h2
      subst h2
      refine ⟨[], rfl, fun _ ho => absurd ho (List.not_mem_nil _),
        by simpa using infix_of_find_some hf, fun shorter hs hne => ?_⟩
      exact absurd (List.prefix_nil.1 hs) hne
  | cons outcome fd ih =>
    intro buffer header conn h
    cases hf : find kHeaderEnd buffer with
    | none =>
      rw [loop_of_find_none_cons hf] at h
      by_cases hr : outcome.bytes_read ≤ 0
      · rw [if_pos hr] at h; cases h
      · rw [if_neg hr] at h
        obtain ⟨consumed, hfd, hpos, hin, hmin⟩ := ih _ header conn h
        refine ⟨outcome :: consumed, by rw [hfd]; rfl, ?_, by simpa using hin, ?_⟩
        · intro o ho
          rcases List.mem_cons.1 ho with rfl | ho
          · omega
          · exact hpos o ho
        · intro shorter hs hne
          cases shorter with
          | nil => simpa using find_eq_none hf
          | cons first shorter =>
            obtain ⟨hfirst, hs'⟩ := List.cons_prefix_cons.1 hs
            subst hfirst
            have := hmin shorter hs' (fun he => hne (by rw [he]))
            simpa using this
    | some pos =>
      rw [loop_of_find_some hf] at h
      injection h with h1 h2
      subst h2
      refine ⟨[], rfl, fun _ ho => absurd ho (List.not_mem_nil _),
        by simpa using infix_of_find_some hf, fun shorter hs hne => ?_⟩
      exact absurd (List.prefix_nil.1 hs) hne

theorem WrappedRead_bound (fd : List ReadOutcome) (read_len : Nat) :
    (WrappedRead fd read_len).1.bytes.length ≤ read_len := by
  unfold WrappedRead
  cases fd with
  | nil => exact Nat.zero_le _
  | cons outcome rest =>
    cases outcome with
    | data bytes =>
      simp only
      by_cases h : bytes.length ≤ read_len
      · rw [if_pos h]; exact h
      · rw [if_neg h]
        simp only [ReadOutcome.bytes, List.length_take]
        exact Nat.min_le_left _ _
    | closed => exact Nat.zero_le _
    | error => exact Nat.zero_le _

/-- A call of `WrappedRead` takes the bytes that it stores from the input of
the descriptor: none is lost and none is added. -/
theorem WrappedRead_sum (fd : List ReadOutcome) (read_len : Nat) :
    (WrappedRead fd read_len).1.bytes.length +
        (((WrappedRead fd read_len).2.map (fun outcome => outcome.bytes.length)).sum) =
      ((fd.map (fun outcome => outcome.bytes.length)).sum) := by
  unfold WrappedRead
  cases fd with
  | nil => rfl
  | cons outcome rest =>
    cases outcome with
    | data bytes =>
      simp only
      by_cases h : bytes.length ≤ read_len
      · rw [if_pos h]
        simp [ReadOutcome.bytes]
      · rw [if_neg h]
        simp only [ReadOutcome.bytes, List.map_cons, List.sum_cons, List.length_take,
          List.length_drop]
        omega
    | closed => simp [ReadOutcome.bytes]
    | error => simp [ReadOutcome.bytes]

theorem bytes_pos_of_bytes_read {outcome : ReadOutcome} (h : ¬ outcome.bytes_read ≤ 0) :
    0 < outcome.bytes.length := by
  cases outcome with
  | data bytes =>
    simp only [ReadOutcome.bytes_read] at h
    simp only [ReadOutcome.bytes]
    omega
  | closed => exact absurd (le_refl (0 : Int)) h
  | error => exact absurd (by decide) h

theorem onDescriptor_spec :
    ∀ (rounds : Nat) (fd : List ReadOutcome) (buffer : List Char),
      ((fd.map (fun outcome => outcome.bytes.length)).sum) < rounds →
      ∃ (reads : List ReadOutcome) (result : Option (List Char)) (conn : HttpConnection),
        GetNextRequest.onDescriptor rounds fd buffer = some (reads, result, conn) ∧
        (∀ outcome ∈ reads, outcome.bytes.length ≤ kBufferSize) ∧
        GetNextRequest.loop reads buffer = (result, HttpConnection.mk [] conn.buffer_) ∧
        (result = none →
          ∃ (consumed : List ReadOutcome) (bad : ReadOutcome), reads = consumed ++ [bad] ∧
            (∀ outcome ∈ consumed, 0 < outcome.bytes_read) ∧ bad.bytes_read ≤ 0 ∧
            ¬ kHeaderEnd <:+: buffer ++ (consumed.map ReadOutcome.bytes).flatten ∧
            conn.buffer_ = buffer ++ (consumed.map ReadOutcome.bytes).flatten) ∧
        (∀ header, result = some header →
          (∀ outcome ∈ reads, 0 < outcome.bytes_read) ∧
          kHeaderEnd <:+: buffer ++ (reads.map ReadOutcome.bytes).flatten ∧
          (∀ shorter : List ReadOutcome, shorter <+: reads → shorter ≠ reads →
            ¬ kHeaderEnd <:+: buffer ++ (shorter.map ReadOutcome.bytes).flatten) ∧
          header ++ conn.buffer_ = buffer ++ (reads.map ReadOutcome.bytes).flatten)
  | 0, _, _, h => absurd h (Nat.not_lt_zero _)
  | rounds + 1, fd, buffer, hrounds => by
    cases hf : find kHeaderEnd buffer with
    | some pos =>
      refine ⟨[], some (buffer.take (pos + kHeaderEndLen)),
        HttpConnection.mk fd (buffer.drop (pos + kHeaderEndLen)), ?_, ?_, ?_, ?_, ?_⟩
      · simp only [GetNextRequest.onDescriptor, hf]
      · intro outcome h
        exact absurd h (List.not_mem_nil _)
      · exact loop_of_find_some hf []
      · intro h
        cases h
      · intro header hheader
        refine ⟨fun outcome h => absurd h (List.not_mem_nil _), ?_, ?_, ?_⟩
        · simpa using infix_of_find_some hf
        · intro shorter hs hne
          exact absurd (List.prefix_nil.1 hs) hne
        · rw [← Option.some.inj hheader]
          simp
    | none =>
      by_cases hread : (WrappedRead fd kBufferSize).1.bytes_read ≤ 0
      · refine ⟨[(WrappedRead fd kBufferSize).1], none,
          HttpConnection.mk (WrappedRead fd kBufferSize).2 buffer, ?_, ?_, ?_, ?_, ?_⟩
        · simp only [GetNextRequest.onDescriptor, hf, if_pos hread]
        · intro outcome h
          rw [List.mem_singleton] at h
          rw [h]
          exact WrappedRead_bound fd kBufferSize
        · rw [loop_of_find_none_cons hf, if_pos hread]
        · intro _
          exact ⟨[], _, rfl, fun outcome h => absurd h (List.not_mem_nil _), hread,
            by simpa using find_eq_none hf, by simp⟩
        · intro header h
          cases h
      · have hsum := WrappedRead_sum fd kBufferSize
        have hpos := bytes_pos_of_bytes_read hread
        obtain ⟨reads, result, conn, hrun, hbound, hloop, hfail, hsucc⟩ :=
          onDescriptor_spec rounds (WrappedRead fd kBufferSize).2
            (buffer ++ (WrappedRead fd kBufferSize).1.bytes) (by omega)
        refine ⟨(WrappedRead fd kBufferSize).1 :: reads, result, conn, ?_, ?_, ?_, ?_, ?_⟩
        · simp only [GetNextRequest.onDescriptor, hf, if_neg hread, hrun]
        · intro outcome h
          rcases List.mem_cons.1 h with rfl | h
          · exact WrappedRead_bound fd kBufferSize
          · exact hbound outcome h
        · rw [loop_of_find_none_cons hf, if_neg hread]
          exact hloop
        · intro hnone
          obtain ⟨consumed, bad, hreads, hcons, hbad, hterm, hbuf⟩ := hfail hnone
          refine ⟨(WrappedRead fd kBufferSize).1 :: consumed, bad, by rw [hreads]; rfl, ?_,
            hbad, ?_, ?_⟩
          · intro outcome h
            rcases List.mem_cons.1 h with rfl | h
            · exact not_le.1 hread
            · exact hcons outcome h
          · rw [List.map_cons, List.flatten_cons, ← List.append_assoc]
            exact hterm
          · rw [List.map_cons, List.flatten_cons, ← List.append_assoc]
            exact hbuf
        · intro header hsome
          obtain ⟨hall, hterm, hmin, hheader⟩ := hsucc header hsome
          refine ⟨?_, ?_, ?_, ?_⟩
          · intro outcome h
            rcases List.mem_cons.1 h with rfl | h
            · exact not_le.1 hread
            · exact hall outcome h
          · rw [List.map_cons, List.flatten_cons, ← List.append_assoc]
            exact hterm
          · intro shorter hs hne
            cases shorter with
            | nil => simpa using find_eq_none hf
            | cons first shorter =>
              obtain ⟨hfirst, hrest⟩ := List.cons_prefix_cons.1 hs
              subst hfirst
              rw [List.map_cons, List.flatten_cons, ← List.append_assoc]
              exact hmin shorter hrest (fun e => hne (by rw [e]))
          · rw [List.map_cons, List.flatten_cons, ← List.append_assoc]
            exact hheader

/-- C11: `GetNextRequest` on a descriptor returns, and it returns failure
exactly when its last read reports end of file or an error (a result `<= 0`)
while the buffer with the bytes of the reads before holds no terminator.
Otherwise it succeeds after the reads it needed, which all brought bytes: the
terminator is in the buffer after the last of them and not before. In both
cases each read, made by `WrappedRead` with `kBufferSize`, brought at most
1024 bytes, and the bytes read were appended to the buffer. The result is the
one of `GetNextRequest.loop` on the outcomes of these reads. -/
theorem GetNextRequest_failure_iff (fd : List ReadOutcome) (buffer : List Char)
    (rounds : Nat) (hrounds : ((fd.map (fun outcome => outcome.bytes.length)).sum) < rounds) :
    ∃ (reads : List ReadOutcome) (result : Option (List Char)) (conn : HttpConnection),
      GetNextRequest.onDescriptor rounds fd buffer = some (reads, result, conn) ∧
      (HttpConnection.mk reads buffer).GetNextRequest =
        (result.map ParseRequest, HttpConnection.mk [] conn.buffer_) ∧
      (∀ outcome ∈ reads, outcome.bytes.length ≤ 1024) ∧
      (result = none ↔
        ∃ (consumed : List ReadOutcome) (bad : ReadOutcome), reads = consumed ++ [bad] ∧
          (∀ outcome ∈ consumed, 0 < outcome.bytes_read) ∧ bad.bytes_read ≤ 0 ∧
          ¬ kHeaderEnd <:+: buffer ++ (consumed.map ReadOutcome.bytes).flatten ∧
          conn.buffer_ = buffer ++ (consumed.map ReadOutcome.bytes).flatten) ∧
      (∀ header, result = some header →
        (∀ outcome ∈ reads, 0 < outcome.bytes_read) ∧
        kHeaderEnd <:+: buffer ++ (reads.map ReadOutcome.bytes).flatten ∧
        (∀ shorter : List ReadOutcome, shorter <+: reads → shorter ≠ reads →
          ¬ kHeaderEnd <:+: buffer ++ (shorter.map ReadOutcome.bytes).flatten) ∧
        header ++ conn.buffer_ = buffer ++ (reads.map ReadOutcome.bytes).flatten) := by
  obtain ⟨reads, result, conn, hrun, hbound, hloop, hfail, hsucc⟩ :=
    onDescriptor_spec rounds fd buffer hrounds
  refine ⟨reads, result, conn, hrun, ?_, hbound, ⟨hfail, ?_⟩, hsucc⟩
  · unfold HttpConnection.GetNextRequest
    simp only [hloop]
    cases result <;> rfl
  · rintro ⟨consumed, bad, hreads, hcons, hbad, _, _⟩
    cases hres : result with
    | none => rfl
    | some header =>
      exfalso
      obtain ⟨hall, _⟩ := hsucc header hres
      have := hall bad (by rw [hreads]; simp)
      omega

set_option maxRecDepth 100000 in
/-- Witness of C11: a request that is delivered in two pieces is handed out
after the second read; a delivery of 1030 bytes without terminator, followed
by the end of the input, is read in calls of 1024 and of 6 bytes, and the
third read reports the end: failure. -/
theorem GetNextRequest_failure_iff_witness :
    GetNextRequest.onDescriptor 20
        [ReadOutcome.data "GET /x HT".toList, ReadOutcome.data "TP/1.1\r\n\r\n".toList,
          ReadOutcome.error] [] =
      some ([ReadOutcome.data "GET /x HT".toList, ReadOutcome.data "TP/1.1\r\n\r\n".toList],
        some "GET /x HTTP/1.1\r\n\r\n".toList, HttpConnection.mk [ReadOutcome.error] []) ∧
    GetNextRequest.onDescriptor 1031 [ReadOutcome.data (List.replicate 1030 'a')] [] =
      some ([ReadOutcome.data (List.replicate 1024 'a'),
          ReadOutcome.data (List.replicate 6 'a'), ReadOutcome.closed],
        none, HttpConnection.mk [] (List.replicate 1030 'a')) ∧
    ∃ (reads : List ReadOutcome) (result : Option (List Char)) (conn : HttpConnection),
      GetNextRequest.onDescriptor 1031 [ReadOutcome.data (List.replicate 1030 'a')] [] =
        some (reads, result, conn) ∧
      (HttpConnection.mk reads []).GetNextRequest =
        (result.map ParseRequest, HttpConnection.mk [] conn.buffer_) ∧
      (∀ outcome ∈ reads, outcome.bytes.length ≤ 1024) ∧
      (result = none ↔
        ∃ (consumed : List ReadOutcome) (bad : ReadOutcome), reads = consumed ++ [bad] ∧
          (∀ outcome ∈ consumed, 0 < outcome.bytes_read) ∧ bad.bytes_read ≤ 0 ∧
          ¬ kHeaderEnd <:+: [] ++ (consumed.map ReadOutcome.bytes).flatten ∧
          conn.buffer_ = [] ++ (consumed.map ReadOutcome.bytes).flatten) ∧
      (∀ header, result = some header →
        (∀ outcome ∈ reads, 0 < outcome.bytes_read) ∧
        kHeaderEnd <:+: [] ++ (reads.map ReadOutcome.bytes).flatten ∧
        (∀ shorter : List ReadOutcome, shorter <+: reads → shorter ≠ reads →
          ¬ kHeaderEnd <:+: [] ++ (shorter.map ReadOutcome.bytes).flatten) ∧
        header ++ conn.buffer_ = [] ++ (reads.map ReadOutcome.bytes).flatten) :=
  ⟨by decide, by decide!,
    GetNextRequest_failure_iff [ReadOutcome.data (List.replicate 1030 'a')] [] 1031
      (by decide)⟩

theorem split_ne_nil (delims : List Char) : ∀ s : List Char, split delims s ≠ []
  | [] => by simp [split]
  | c :: rest => by
    unfold split
    split
    · simp
    · split <;> simp

theorem split_cons_delim {delims : List Char} {c : Char} (h : delims.contains c = true)
    (rest : List Char) : split delims (c :: rest) = [] :: split delims rest := by
  rw [split, if_pos h]

theorem split_cons_other {delims : List Char} {c : Char} (h : ¬ delims.contains c = true)
    (rest : List Char) :
    ∃ token tokens, split delims rest = token :: tokens ∧
      split delims (c :: rest) = (c :: token) :: tokens := by
  rw [split, if_neg h]
  cases hs : split delims rest with
  | nil => exact absurd hs (split_ne_nil _ _)
  | cons token tokens => exact ⟨token, tokens, rfl, rfl⟩

theorem split_no_delim {delims : List Char} :
    ∀ {s : List Char}, (∀ c ∈ s, ¬ delims.contains c = true) → split delims s = [s]
  | [], _ => rfl
  | c :: rest, h => by
    obtain ⟨token, tokens, hrest, hsplit⟩ :=
      split_cons_other (h c (List.mem_cons_self _ _)) rest
    rw [hsplit]
    rw [split_no_delim (fun d hd => h d (List.mem_cons_of_mem _ hd))] at hrest
    injection hrest with h1 h2
    rw [← h1, ← h2]

theorem split_append_delim {delims : List Char} {d : Char} (hd : delims.contains d = true)
    (y : List Char) :
    ∀ x : List Char, split delims (x ++ d :: y) = split delims x ++ split delims y
  | [] => by rw [List.nil_append, split_cons_delim hd]; rfl
  | c :: x => by
    by_cases hc : delims.contains c = true
    · rw [List.cons_append, split_cons_delim hc, split_cons_delim hc,
        split_append_delim hd y x]
      rfl
    · obtain ⟨token, tokens, hx, hcx⟩ := split_cons_other hc x
      obtain ⟨token', tokens', hxy, hcxy⟩ := split_cons_other hc (x ++ d :: y)
      rw [List.cons_append, hcxy, hcx]
      rw [split_append_delim hd y x, hx] at hxy
      injection hxy with h1 h2
      rw [← h1, ← h2]
      rfl

/-- A line without a delimiter, followed by a delimiter: the line is the
first token. -/
theorem split_first {delims : List Char} {d : Char} (hd : delims.contains d = true)
    {x : List Char} (hx : ∀ c ∈ x, ¬ delims.contains c = true) (y : List Char) :
    split delims (x ++ d :: y) = x :: split delims y := by
  rw [split_append_delim hd, split_no_delim hx]
  rfl

theorem takeWhile_append_dropWhile_head (p : Char → Bool) (s : List Char) :
    s.dropWhile p = [] ∨ ∃ d y, s.dropWhile p = d :: y ∧ p d = false := by
  cases h : s.dropWhile p with
  | nil => exact Or.inl rfl
  | cons d y =>
    refine Or.inr ⟨d, y, rfl, ?_⟩
    have := List.head_dropWhile_not p s (by rw [h]; simp)
    simpa [h] using this

theorem split_head (delims : List Char) (s : List Char) :
    ∃ tokens, split delims s = s.takeWhile (fun c => !delims.contains c) :: tokens := by
  have hx : ∀ c ∈ s.takeWhile (fun c => !delims.contains c), ¬ delims.contains c = true := by
    intro c hc
    have := List.mem_takeWhile_imp hc
    simpa using this
  rcases takeWhile_append_dropWhile_head (fun c => !delims.contains c) s with h | ⟨d, y, h, hd⟩
  · have hs : s = s.takeWhile (fun c => !delims.contains c) := by
      conv_lhs => rw [← List.takeWhile_append_dropWhile (fun c => !delims.contains c) s, h]
      simp
    refine ⟨[], ?_⟩
    conv_lhs => rw [hs]
    exact split_no_delim hx
  · have hs : s = s.takeWhile (fun c => !delims.contains c) ++ d :: y := by
      conv_lhs => rw [← List.takeWhile_append_dropWhile (fun c => !delims.contains c) s, h]
    refine ⟨split delims y, ?_⟩
    conv_lhs => rw [hs]
    exact split_first (by simpa using hd) hx y

theorem headers_uri : ∀ (lines : List (List Char)) (req : HttpRequest),
    (ParseRequest.headers lines req).uri_ = req.uri_
  | [], _ => rfl
  | line :: rest, req => by
    unfold ParseRequest.headers
    split
    · exact headers_uri rest req
    · split
      · exact headers_uri rest req
      · split
        · exact headers_uri rest req
        · rw [headers_uri rest]; rfl

theorem ParseRequest_uri_eq (request : List Char) :
    (ParseRequest request).uri_ =
      match split [' '] (firstLine request) with
      | _ :: uri :: _ => uri
      | _ => ['/'] := by
  obtain ⟨tokens, hlines⟩ := split_head ['\r', '\n'] request
  have hfirst : request.takeWhile (fun c => !(['\r', '\n'].contains c)) =
      firstLine request := by
    unfold firstLine
    congr 1
    funext c
    by_cases h1 : c = '\r' <;> by_cases h2 : c = '\n' <;> simp [List.contains_cons, h1, h2]
  rw [hfirst] at hlines
  unfold ParseRequest
  simp only [hlines, headers_uri]
  rcases split [' '] (firstLine request) with _ | ⟨t0, _ | ⟨t1, ts⟩⟩ <;> rfl

/-- C12: `ParseRequest` gives a request for every input. When the first line
has no space, the split at spaces gives one token and the path is the
default `/`; otherwise the path is the second token, the text between the
first space of the line and the next one (or the end of the line). -/
theorem ParseRequest_uri (request : List Char) :
    (' ' ∉ firstLine request → (ParseRequest request).uri_ = ['/']) ∧
    (∀ method rest : List Char, firstLine request = method ++ ' ' :: rest → ' ' ∉ method →
      (ParseRequest request).uri_ = rest.takeWhile (fun c => !(c == ' '))) := by
  rw [ParseRequest_uri_eq]
  constructor
  · intro h
    rw [@split_no_delim [' '] (firstLine request)
      (by intro c hc; simp only [List.contains_cons, List.contains_nil, Bool.or_false,
            beq_iff_eq]; rintro rfl; exact h hc)]
  · intro method rest hline hmethod
    rw [hline, split_first (by decide)
      (by intro c hc; simp only [List.contains_cons, List.contains_nil, Bool.or_false,
            beq_iff_eq]; rintro rfl; exact hmethod hc)]
    obtain ⟨tokens, hrest⟩ := split_head [' '] rest
    rw [hrest]
    simp only
    congr 1
    funext c
    by_cases h : c = ' ' <;> simp [List.contains_cons, h]

/-- Witness of C12: the request line `GET /x HTTP/1.1` has the path `/x`, and
a request line without a space has the path `/`. -/
theorem ParseRequest_uri_witness :
    (ParseRequest "GET /x HTTP/1.1\r\nHost: h\r\n\r\n".toList).uri_ = "/x".toList ∧
    (ParseRequest "GET\r\n\r\n".toList).uri_ = ['/'] ∧
    (ParseRequest "GET /x HTTP/1.1\r\nHost: h\r\n\r\n".toList).uri_ =
      "/x HTTP/1.1".toList.takeWhile (fun c => !(c == ' ')) :=
  ⟨by decide,
    (ParseRequest_uri "GET\r\n\r\n".toList).1 (by decide),
    (ParseRequest_uri "GET /x HTTP/1.1\r\nHost: h\r\n\r\n".toList).2
      "GET".toList "/x HTTP/1.1".toList (by decide) (by decide)⟩

theorem findChar_eq_none {c : Char} : ∀ {s : List Char}, findChar c s = none ↔ c ∉ s
  | [] => by simp [findChar]
  | d :: rest => by
    unfold findChar
    by_cases h : d = c
    · simp [h]
    · rw [if_neg h]
      simp only [Option.map_eq_none', List.mem_cons, not_or]
      rw [findChar_eq_none]
      exact ⟨fun hr => ⟨fun e => h e.symm, hr⟩, fun hr => hr.2⟩

theorem findChar_append {c : Char} (post : List Char) :
    ∀ {pre : List Char}, c ∉ pre → findChar c (pre ++ c :: post) = some pre.length
  | [], _ => by simp [findChar]
  | d :: pre, h => by
    have hd : ¬ d = c := fun e => h (by rw [e]; exact List.mem_cons_self _ _)
    have hpre : c ∉ pre := fun hm => h (List.mem_cons_of_mem _ hm)
    rw [List.cons_append, findChar, if_neg hd, findChar_append post hpre]
    rfl

theorem findChar_eq_some {c : Char} :
    ∀ {s : List Char} {pos : Nat}, findChar c s = some pos →
      ∃ pre post, s = pre ++ c :: post ∧ c ∉ pre ∧ pre.length = pos
  | [], _, h => by simp [findChar] at h
  | d :: rest, pos, h => by
    unfold findChar at h
    by_cases hd : d = c
    · rw [if_pos hd] at h
      injection h with h
      exact ⟨[], rest, by rw [hd]; rfl, List.not_mem_nil _, h⟩
    · rw [if_neg hd] at h
      simp only [Option.map_eq_some'] at h
      obtain ⟨p, hp, hpos⟩ := h
      obtain ⟨pre, post, hs, hpre, hlen⟩ := findChar_eq_some hp
      refine ⟨d :: pre, post, by rw [hs]; rfl, ?_, by simp [hlen, hpos]⟩
      intro hm
      rcases List.mem_cons.1 hm with e | hm
      · exact hd e.symm
      · exact hpre hm

theorem headers_cons (line : List Char) (rest : List (List Char)) (req : HttpRequest) :
    ParseRequest.headers (line :: rest) req =
      ParseRequest.headers rest
        (match headerOf line with
          | some header => req.AddHeader header.1 header.2
          | none => req) := by
  unfold headerOf
  conv_lhs => unfold ParseRequest.headers
  by_cases hempty : line.isEmpty = true
  · simp only [hempty, if_true]
  · simp only [hempty, if_false, Bool.false_eq_true]
    cases findChar ':' line with
    | none => rfl
    | some colon_pos =>
      simp only
      by_cases hpos : colon_pos = 0 ∨ colon_pos = line.length - 1
      · simp only [if_pos hpos]
      · simp only [if_neg hpos]

theorem headers_append :
    ∀ (lines more : List (List Char)) (req : HttpRequest),
      ParseRequest.headers (lines ++ more) req =
        ParseRequest.headers more (ParseRequest.headers lines req)
  | [], _, _ => rfl
  | line :: lines, more, req => by
    rw [List.cons_append, headers_cons, headers_cons, headers_append lines more]

theorem headerOf_skipped {line : List Char}
    (h : line = [] ∨ ':' ∉ line ∨ (∃ rest, line = ':' :: rest) ∨
      (∃ name, line = name ++ [':'] ∧ ':' ∉ name)) : headerOf line = none := by
  unfold headerOf
  rcases h with rfl | h | ⟨rest, rfl⟩ | ⟨name, rfl, hname⟩
  · rfl
  · rw [findChar_eq_none.2 h]
    simp
  · simp [findChar]
  · rw [findChar_append [] hname]
    simp

theorem headerOf_accepted {name value : List Char} (hname : name ≠ [])
    (hcolon : ':' ∉ name) (hvalue : value ≠ []) :
    headerOf (name ++ ':' :: value) = some (to_lower (trim name), trim value) := by
  unfold headerOf
  rw [findChar_append value hcolon]
  have h1 : (name ++ ':' :: value).isEmpty = false := by
    cases name <;> rfl
  have h2 : ¬ (name.length = 0 ∨ name.length = (name ++ ':' :: value).length - 1) := by
    have := List.length_pos.2 hname
    have := List.length_pos.2 hvalue
    simp only [List.length_append, List.length_cons]
    omega
  have hd : List.drop (name.length + 1) (name ++ ':' :: value) = value := by
    rw [show name ++ ':' :: value = (name ++ [':']) ++ value by simp]
    exact List.drop_left' (by simp)
  simp only [h1, h2, if_false, Bool.false_eq_true, hd]
  rw [List.take_left' rfl]

/-- Every line is skipped or is a name, a colon and a value. -/
theorem line_cases (line : List Char) :
    (line = [] ∨ ':' ∉ line ∨ (∃ rest, line = ':' :: rest) ∨
      (∃ name, line = name ++ [':'] ∧ ':' ∉ name)) ∨
    ∃ name value, line = name ++ ':' :: value ∧ name ≠ [] ∧ ':' ∉ name ∧ value ≠ [] := by
  cases hf : findChar ':' line with
  | none => exact Or.inl (Or.inr (Or.inl (findChar_eq_none.1 hf)))
  | some pos =>
    obtain ⟨pre, post, hs, hpre, -⟩ := findChar_eq_some hf
    cases pre with
    | nil => exact Or.inl (Or.inr (Or.inr (Or.inl ⟨post, hs⟩)))
    | cons c pre =>
      cases post with
      | nil => exact Or.inl (Or.inr (Or.inr (Or.inr ⟨c :: pre, hs, hpre⟩)))
      | cons d post =>
        exact Or.inr ⟨c :: pre, d :: post, hs, List.cons_ne_nil _ _, hpre,
          List.cons_ne_nil _ _⟩

theorem ParseRequest_eq_ofLines (request : List Char) :
    ParseRequest request = ParseRequest.ofLines (split ['\r', '\n'] request) := rfl

theorem ofLines_append {lines : List (List Char)} (hlines : lines ≠ [])
    (more : List (List Char)) :
    ParseRequest.ofLines (lines ++ more) =
      ParseRequest.headers more (ParseRequest.ofLines lines) := by
  cases lines with
  | nil => exact absurd rfl hlines
  | cons line0 lines =>
    unfold ParseRequest.ofLines
    simp only [List.cons_append, List.drop_succ_cons, List.drop_zero]
    rw [headers_append]

theorem isLine_no_delim {line : List Char} (h : IsLine line) :
    ∀ c ∈ line, ¬ ['\r', '\n'].contains c = true := by
  intro c hc
  simp only [List.contains_cons, List.contains_nil, Bool.or_false, Bool.or_eq_true,
    beq_iff_eq]
  rintro (rfl | rfl)
  · exact h.1 hc
  · exact h.2 hc

/-- C13 as stated fails: the line `a:b:` has a colon as its last character
and gives the header `a` with the value `b:`. -/
theorem ParseRequest_line_ending_in_colon :
    "a:b:".toList.getLast? = some ':' ∧
    ParseRequest "GET / HTTP/1.1\r\na:b:\r\n\r\n".toList =
      HttpRequest.mk ['/'] [("a".toList, "b:".toList)] := by
  decide

/-- C13, amended: a line after the request line that is empty, contains no
colon, or whose first colon is its first or its last character adds nothing
to the header map and does not stop the parsing of the lines that follow:
the lines before and after it are parsed as if it were not there, in the
loop over the lines and in `ParseRequest` on a header block that holds the
line. -/
theorem ParseRequest_skips_line (line : List Char)
    (hskip : line = [] ∨ ':' ∉ line ∨ (∃ rest, line = ':' :: rest) ∨
      (∃ name, line = name ++ [':'] ∧ ':' ∉ name)) :
    (∀ (before after : List (List Char)) (req : HttpRequest),
      ParseRequest.headers (before ++ line :: after) req =
        ParseRequest.headers (before ++ after) req) ∧
    (IsLine line → ∀ a b : List Char,
      ParseRequest (a ++ '\r' :: '\n' :: line ++ '\r' :: '\n' :: b) =
        ParseRequest (a ++ '\r' :: '\n' :: b)) := by
  have hstep : ∀ (after : List (List Char)) (req : HttpRequest),
      ParseRequest.headers (line :: after) req = ParseRequest.headers after req := by
    intro after req
    rw [headers_cons, headerOf_skipped hskip]
  refine ⟨fun before after req => ?_, fun hline a b => ?_⟩
  · rw [headers_append, hstep, headers_append]
  · have h1 : split ['\r', '\n'] (a ++ '\r' :: '\n' :: line ++ '\r' :: '\n' :: b) =
        split ['\r', '\n'] a ++ [] :: line :: [] :: split ['\r', '\n'] b := by
      have e : a ++ '\r' :: '\n' :: line ++ '\r' :: '\n' :: b =
          a ++ '\r' :: ('\n' :: (line ++ '\r' :: ('\n' :: b))) := by simp
      rw [e, split_append_delim (by decide), split_cons_delim (by decide),
        split_first (by decide) (isLine_no_delim hline), split_cons_delim (by decide)]
    have h2 : split ['\r', '\n'] (a ++ '\r' :: '\n' :: b) =
        split ['\r', '\n'] a ++ [] :: split ['\r', '\n'] b := by
      rw [split_append_delim (by decide), split_cons_delim (by decide)]
    rw [ParseRequest_eq_ofLines, ParseRequest_eq_ofLines, h1, h2,
      ofLines_append (split_ne_nil _ _), ofLines_append (split_ne_nil _ _)]
    rw [headers_cons, headers_cons, headers_cons]
    rw [headerOf_skipped hskip]
    rfl

/-- Witness of C13: the lines `BadHeaderNoColon` and `: emptyname` add
nothing between two headers. -/
theorem ParseRequest_skips_line_witness :
    ParseRequest
        "GET / HTTP/1.1\r\nA: 1\r\nBadHeaderNoColon\r\n: emptyname\r\nB: 2\r\n\r\n".toList =
      HttpRequest.mk ['/'] [("a".toList, "1".toList), ("b".toList, "2".toList)] ∧
    (∀ (before after : List (List Char)) (req : HttpRequest),
      ParseRequest.headers (before ++ "BadHeaderNoColon".toList :: after) req =
        ParseRequest.headers (before ++ after) req) ∧
    (∀ (before after : List (List Char)) (req : HttpRequest),
      ParseRequest.headers (before ++ ": emptyname".toList :: after) req =
        ParseRequest.headers (before ++ after) req) :=
  ⟨by decide,
    (ParseRequest_skips_line "BadHeaderNoColon".toList (Or.inr (Or.inl (by decide)))).1,
    (ParseRequest_skips_line ": emptyname".toList
      (Or.inr (Or.inr (Or.inl ⟨" emptyname".toList, rfl⟩)))).1⟩

/-- C14: a line that is not skipped is a name without colon, a colon and a
value, both not empty (every line is of this form or skipped). The loop hands
the name, trimmed and put in lower case, and the value, trimmed and with its
later colons, to `AddHeader`; `ParseRequest` of a block that ends with such a
line is `ParseRequest` of the block before it with that header added. -/
theorem ParseRequest_adds_header (name value : List Char) (hname : name ≠ [])
    (hcolon : ':' ∉ name) (hvalue : value ≠ []) :
    (∀ (rest : List (List Char)) (req : HttpRequest),
      ParseRequest.headers ((name ++ ':' :: value) :: rest) req =
        ParseRequest.headers rest (req.AddHeader (to_lower (trim name)) (trim value))) ∧
    (IsLine (name ++ ':' :: value) → ∀ a : List Char,
      ParseRequest (a ++ '\r' :: '\n' :: (name ++ ':' :: value)) =
        (ParseRequest a).AddHeader (to_lower (trim name)) (trim value)) ∧
    (∀ line : List Char,
      (line = [] ∨ ':' ∉ line ∨ (∃ rest, line = ':' :: rest) ∨
        (∃ name, line = name ++ [':'] ∧ ':' ∉ name)) ∨
      ∃ name value, line = name ++ ':' :: value ∧ name ≠ [] ∧ ':' ∉ name ∧ value ≠ []) := by
  refine ⟨fun rest req => ?_, fun hline a => ?_, line_cases⟩
  · rw [headers_cons, headerOf_accepted hname hcolon hvalue]
  · have h1 : split ['\r', '\n'] (a ++ '\r' :: '\n' :: (name ++ ':' :: value)) =
        split ['\r', '\n'] a ++ [[], name ++ ':' :: value] := by
      rw [split_append_delim (by decide), split_cons_delim (by decide),
        split_no_delim (isLine_no_delim hline)]
    rw [ParseRequest_eq_ofLines, ParseRequest_eq_ofLines, h1,
      ofLines_append (split_ne_nil _ _), headers_cons, headers_cons,
      headerOf_accepted hname hcolon hvalue]
    rfl

/-- Witness of C14: the line `Name:value` gives the name `name` and the value
`value`, and later colons stay in the value. -/
theorem ParseRequest_adds_header_witness :
    ParseRequest "GET / HTTP/1.1\r\nName:value\r\n\r\n".toList =
      HttpRequest.mk ['/'] [("name".toList, "value".toList)] ∧
    ParseRequest "GET / HTTP/1.1\r\n Host : h:80 \r\n\r\n".toList =
      HttpRequest.mk ['/'] [("host".toList, "h:80".toList)] ∧
    (∀ (rest : List (List Char)) (req : HttpRequest),
      ParseRequest.headers (("Name".toList ++ ':' :: "value".toList) :: rest) req =
        ParseRequest.headers rest
          (req.AddHeader (to_lower (trim "Name".toList)) (trim "value".toList))) :=
  ⟨by decide, by decide,
    (ParseRequest_adds_header "Name".toList "value".toList (by decide) (by decide)
      (by decide)).1⟩

theorem keys_headersInsert (name value : List Char) :
    ∀ headers : List (List Char × List Char),
      (headersInsert name value headers).map Prod.fst =
        if name ∈ headers.map Prod.fst then headers.map Prod.fst
        else headers.map Prod.fst ++ [name]
  | [] => by simp [headersInsert]
  | (n, v) :: rest => by
    unfold headersInsert
    by_cases h : n = name
    · simp [h]
    · have h' : ¬ name = n := fun e => h e.symm
      rw [if_neg h, List.map_cons, keys_headersInsert name value rest]
      by_cases hr : name ∈ rest.map Prod.fst
      · simp [hr]
      · simp [hr, h']

theorem nodup_keys_headersInsert (name value : List Char)
    {headers : List (List Char × List Char)} (h : (headers.map Prod.fst).Nodup) :
    ((headersInsert name value headers).map Prod.fst).Nodup := by
  rw [keys_headersInsert]
  by_cases hr : name ∈ headers.map Prod.fst
  · rw [if_pos hr]; exact h
  · rw [if_neg hr]
    exact List.Nodup.append h (List.nodup_singleton _)
      (by intro a ha hb; rw [List.mem_singleton] at hb; exact hr (hb ▸ ha))

theorem mem_headersInsert (name value : List Char) (k v : List Char) :
    ∀ {headers : List (List Char × List Char)}, (headers.map Prod.fst).Nodup →
      ((k, v) ∈ headersInsert name value headers ↔
        (k = name ∧ v = value) ∨ (k ≠ name ∧ (k, v) ∈ headers))
  | [], _ => by simp [headersInsert]
  | (n, x) :: rest, hnd => by
    rw [List.map_cons, List.nodup_cons] at hnd
    unfold headersInsert
    by_cases h : n = name
    · subst h
      rw [if_pos rfl]
      simp only [List.mem_cons, Prod.mk.injEq]
      constructor
      · rintro (⟨hk, hv⟩ | hmem)
        · exact Or.inl ⟨hk, hv⟩
        · refine Or.inr ⟨?_, Or.inr hmem⟩
          rintro rfl
          exact hnd.1 (List.mem_map.2 ⟨(k, v), hmem, rfl⟩)
      · rintro (⟨hk, hv⟩ | ⟨hk, ⟨hk', _⟩ | hmem⟩)
        · exact Or.inl ⟨hk, hv⟩
        · exact absurd hk' hk
        · exact Or.inr hmem
    · rw [if_neg h]
      simp only [List.mem_cons, Prod.mk.injEq]
      rw [mem_headersInsert name value k v hnd.2]
      constructor
      · rintro (⟨hk, hv⟩ | ⟨hk, hv⟩ | ⟨hk, hmem⟩)
        · exact Or.inr ⟨by rw [hk]; exact h, Or.inl ⟨hk, hv⟩⟩
        · exact Or.inl ⟨hk, hv⟩
        · exact Or.inr ⟨hk, Or.inr hmem⟩
      · rintro (⟨hk, hv⟩ | ⟨hk, ⟨hk', hv⟩ | hmem⟩)
        · exact Or.inr (Or.inl ⟨hk, hv⟩)
        · exact Or.inl ⟨hk', hv⟩
        · exact Or.inr (Or.inr ⟨hk, hmem⟩)

theorem foldl_headersInsert (k v : List Char) :
    ∀ (pairs headers : List (List Char × List Char)), (headers.map Prod.fst).Nodup →
      ((pairs.foldl (fun m p => headersInsert p.1 p.2 m) headers).map Prod.fst).Nodup ∧
      ((k, v) ∈ pairs.foldl (fun m p => headersInsert p.1 p.2 m) headers ↔
        (∃ earlier later, pairs = earlier ++ (k, v) :: later ∧ ∀ p ∈ later, p.1 ≠ k) ∨
        ((k, v) ∈ headers ∧ ∀ p ∈ pairs, p.1 ≠ k))
  | [], headers, hnd => by
    refine ⟨hnd, ?_⟩
    simp
  | (n, x) :: pairs, headers, hnd => by
    obtain ⟨h1, h2⟩ := foldl_headersInsert k v pairs (headersInsert n x headers)
      (nodup_keys_headersInsert n x hnd)
    refine ⟨h1, ?_⟩
    rw [List.foldl_cons, h2, mem_headersInsert n x k v hnd]
    constructor
    · rintro (⟨earlier, later, hp, hl⟩ | ⟨⟨hk, hv⟩ | ⟨hk, hmem⟩, hall⟩)
      · exact Or.inl ⟨(n, x) :: earlier, later, by rw [hp]; rfl, hl⟩
      · exact Or.inl ⟨[], pairs, by rw [hk, hv]; rfl, hall⟩
      · refine Or.inr ⟨hmem, fun p hp => ?_⟩
        rcases List.mem_cons.1 hp with rfl | hp
        · exact fun e => hk e.symm
        · exact hall p hp
    · rintro (⟨earlier, later, hp, hl⟩ | ⟨hmem, hall⟩)
      · cases earlier with
        | nil =>
          simp only [List.nil_append, List.cons.injEq, Prod.mk.injEq] at hp
          obtain ⟨⟨hn, hx⟩, hpairs⟩ := hp
          exact Or.inr ⟨Or.inl ⟨hn.symm, hx.symm⟩, by rw [hpairs]; exact hl⟩
        | cons first earlier =>
          simp only [List.cons_append, List.cons.injEq] at hp
          exact Or.inl ⟨earlier, later, hp.2, hl⟩
      · have hk : k ≠ n := fun e => hall (n, x) (List.mem_cons_self _ _) e.symm
        exact Or.inr ⟨Or.inr ⟨hk, hmem⟩, fun p hp => hall p (List.mem_cons_of_mem _ hp)⟩

theorem headers_eq_foldl :
    ∀ (lines : List (List Char)) (req : HttpRequest),
      (ParseRequest.headers lines req).headers_ =
        (lines.filterMap headerOf).foldl (fun m p => headersInsert p.1 p.2 m) req.headers_
  | [], _ => rfl
  | line :: lines, req => by
    rw [headers_cons, headers_eq_foldl lines, List.filterMap_cons]
    cases headerOf line <;> rfl

theorem ofLines_headers (lines : List (List Char)) :
    (ParseRequest.ofLines lines).headers_ =
      ((lines.drop 1).filterMap headerOf).foldl (fun m p => headersInsert p.1 p.2 m) [] := by
  unfold ParseRequest.ofLines
  rw [headers_eq_foldl]
  rcases lines with _ | ⟨line0, lines⟩
  · rfl
  · simp only
    rcases split [' '] line0 with _ | ⟨t0, _ | ⟨t1, ts⟩⟩ <;> rfl

/-- C15: the header map of a parsed request holds every name once, and the
value that it holds for a name is the value of the last accepted line with
that name (trimmed and put in lower case); so do two lines `Host: a` and
`HOST : b` give the one entry `host` with the value `b`. -/
theorem ParseRequest_last_header_wins :
    (∀ request : List Char,
      ((ParseRequest request).headers_.map Prod.fst).Nodup ∧
      ∀ name value : List Char, (name, value) ∈ (ParseRequest request).headers_ ↔
        ∃ earlier later, headerPairs request = earlier ++ (name, value) :: later ∧
          ∀ p ∈ later, p.1 ≠ name) ∧
    ParseRequest "GET / HTTP/1.1\r\nHost: a\r\nX: 1\r\nHOST : b\r\n\r\n".toList =
      HttpRequest.mk ['/'] [("host".toList, "b".toList), ("x".toList, "1".toList)] := by
  refine ⟨fun request => ?_, by decide⟩
  rw [ParseRequest_eq_ofLines, ofLines_headers]
  refine ⟨(foldl_headersInsert [] [] _ [] List.nodup_nil).1, fun name value => ?_⟩
  rw [(foldl_headersInsert name value _ [] List.nodup_nil).2]
  unfold headerPairs
  simp

theorem GetNextRequest_pending {self conn : HttpConnection} {request : HttpRequest}
    (h : self.GetNextRequest = (some request, conn)) : conn.pending + 4 ≤ self.pending := by
  obtain ⟨header, hloop, _⟩ := loop_of_GetNextRequest h
  obtain ⟨consumed, hfd, _, happ, pre, hpre, _⟩ := loop_success _ _ _ _ hloop
  have hlen := congrArg List.length happ
  have hheader : header.length = pre.length + 4 := by rw [hpre, List.length_append]; rfl
  unfold HttpConnection.pending
  rw [hfd, List.map_append, List.sum_append]
  simp only [List.length_append, List.length_flatten, List.map_map] at hlen
  have hsum : (consumed.map (List.length ∘ ReadOutcome.bytes)).sum =
      (consumed.map (fun outcome => outcome.bytes.length)).sum := rfl
  omega

theorem ThrFn_loop_fail (ext : Collaborators) (base_dir : List Char)
    (indices : List (List Char)) (rounds : Nat) {conn conn' : HttpConnection}
    (writes : List WriteOutcome) (h : conn.GetNextRequest = (none, conn')) :
    HttpServer_ThrFn.loop ext base_dir indices (rounds + 1) conn writes =
      ([], conn', writes, LoopEnd.ended) := by
  simp only [HttpServer_ThrFn.loop, h]

theorem ThrFn_loop_close (ext : Collaborators) (base_dir : List Char)
    (indices : List (List Char)) (rounds : Nat) {conn conn' : HttpConnection}
    {request : HttpRequest} (writes : List WriteOutcome)
    (h : conn.GetNextRequest = (some request, conn'))
    (hclose : request.GetHeaderValue "connection".toList = "close".toList) :
    HttpServer_ThrFn.loop ext base_dir indices (rounds + 1) conn writes =
      ([], conn', writes, LoopEnd.ended) := by
  simp only [HttpServer_ThrFn.loop, h, hclose, if_true]

theorem ThrFn_loop_abort (ext : Collaborators) (base_dir : List Char)
    (indices : List (List Char)) (rounds : Nat) {conn conn' : HttpConnection}
    {request : HttpRequest} (writes : List WriteOutcome)
    (h : conn.GetNextRequest = (some request, conn'))
    (hopen : ¬ request.GetHeaderValue "connection".toList = "close".toList)
    (hrouted : ProcessRequest ext request base_dir indices = none) :
    HttpServer_ThrFn.loop ext base_dir indices (rounds + 1) conn writes =
      ([], conn', writes, LoopEnd.aborted) := by
  simp only [HttpServer_ThrFn.loop, h, hopen, if_false, hrouted]

theorem ThrFn_loop_write_failed (ext : Collaborators) (base_dir : List Char)
    (indices : List (List Char)) (rounds : Nat) {conn conn' : HttpConnection}
    {request : HttpRequest} {response : HttpResponse} (writes : List WriteOutcome)
    (h : conn.GetNextRequest = (some request, conn'))
    (hopen : ¬ request.GetHeaderValue "connection".toList = "close".toList)
    (hrouted : ProcessRequest ext request base_dir indices = some response)
    (hwrite : (WriteResponse response writes).1 = false) :
    HttpServer_ThrFn.loop ext base_dir indices (rounds + 1) conn writes =
      ([ServerEvent.writeFailed response], conn', (WriteResponse response writes).2,
        LoopEnd.ended) := by
  rcases hw : WriteResponse response writes with ⟨_ | _, left⟩
  · simp only [HttpServer_ThrFn.loop, h, hopen, if_false, hrouted, hw]
  · rw [hw] at hwrite; cases hwrite

theorem ThrFn_loop_wrote (ext : Collaborators) (base_dir : List Char)
    (indices : List (List Char)) (rounds : Nat) {conn conn' : HttpConnection}
    {request : HttpRequest} {response : HttpResponse} (writes : List WriteOutcome)
    (h : conn.GetNextRequest = (some request, conn'))
    (hopen : ¬ request.GetHeaderValue "connection".toList = "close".toList)
    (hrouted : ProcessRequest ext request base_dir indices = some response) :
    HttpServer_ThrFn.loop ext base_dir indices (rounds + 1) conn
        (WriteOutcome.complete :: writes) =
      (ServerEvent.wrote response ::
          (HttpServer_ThrFn.loop ext base_dir indices rounds conn' writes).1,
        (HttpServer_ThrFn.loop ext base_dir indices rounds conn' writes).2) := by
  simp only [HttpServer_ThrFn.loop, h, hopen, if_false, hrouted, WriteResponse]

/-- The loop ends within one round more than the connection has bytes. -/
theorem ThrFn_loop_finishes (ext : Collaborators) (base_dir : List Char)
    (indices : List (List Char)) :
    ∀ (rounds : Nat) (conn : HttpConnection) (writes : List WriteOutcome),
      conn.pending < rounds →
      (HttpServer_ThrFn.loop ext base_dir indices rounds conn writes).2.2.2 ≠
        LoopEnd.unfinished
  | 0, _, _, h => absurd h (Nat.not_lt_zero _)
  | rounds + 1, conn, writes, h => by
    rcases hg : conn.GetNextRequest with ⟨_ | request, conn'⟩
    · rw [ThrFn_loop_fail ext base_dir indices rounds writes hg]
      simp
    · by_cases hclose : request.GetHeaderValue "connection".toList = "close".toList
      · rw [ThrFn_loop_close ext base_dir indices rounds writes hg hclose]
        simp
      · cases hrouted : ProcessRequest ext request base_dir indices with
        | none =>
          rw [ThrFn_loop_abort ext base_dir indices rounds writes hg hclose hrouted]
          simp
        | some response =>
          cases writes with
          | nil =>
            rw [ThrFn_loop_write_failed ext base_dir indices rounds [] hg hclose hrouted rfl]
            simp
          | cons w writes =>
            cases w with
            | incomplete =>
              rw [ThrFn_loop_write_failed ext base_dir indices rounds
                (WriteOutcome.incomplete :: writes) hg hclose hrouted rfl]
              simp
            | complete =>
              rw [ThrFn_loop_wrote ext base_dir indices rounds writes hg hclose hrouted]
              have := GetNextRequest_pending hg
              exact ThrFn_loop_finishes ext base_dir indices rounds conn' writes (by omega)

/-- The function `HttpServer_ThrFn` comes to an end for every client. -/
theorem HttpServer_ThrFn_finishes (ext : Collaborators) (hst : HttpServerTask) :
    (HttpServer_ThrFn ext hst).2.2.2 ≠ LoopEnd.unfinished := by
  have h := ThrFn_loop_finishes ext hst.base_dir hst.indices
    ((HttpConnection.mk hst.client_reads []).pending + 1)
    (HttpConnection.mk hst.client_reads []) hst.client_writes (Nat.lt_succ_self _)
  unfold HttpServer_ThrFn
  simp only
  split
  · exact h
  · exact h

theorem successiveRequests_succ (k : Nat) :
    ∀ conn : HttpConnection,
      successiveRequests (k + 1) conn =
        ((successiveRequests k conn).1 ++ [(successiveRequests k conn).2.GetNextRequest.1],
          (successiveRequests k conn).2.GetNextRequest.2) := by
  induction k with
  | zero => intro conn; rfl
  | succ k ih =>
    intro conn
    conv_lhs => rw [successiveRequests]
    simp only [ih conn.GetNextRequest.2]
    rfl

theorem successiveRequests_length :
    ∀ (k : Nat) (conn : HttpConnection), (successiveRequests k conn).1.length = k
  | 0, _ => rfl
  | k + 1, conn => by
    rw [successiveRequests]
    simp only [List.length_cons, successiveRequests_length k]

/-- The reading of one more request after a number of requests. -/
theorem successiveRequests_split {k : Nat} {conn conn' : HttpConnection}
    {results : List (Option HttpRequest)} {last : Option HttpRequest}
    (hk : results.length = k)
    (h : successiveRequests (k + 1) conn = (results ++ [last], conn')) :
    (successiveRequests k conn).1 = results ∧
      (successiveRequests k conn).2.GetNextRequest = (last, conn') := by
  rw [successiveRequests_succ] at h
  injection h with h1 h2
  have hlen : (successiveRequests k conn).1.length = results.length := by
    rw [successiveRequests_length, hk]
  obtain ⟨h3, h4⟩ := List.append_inj h1 hlen
  injection h4 with h4
  exact ⟨h3, Prod.ext h4 h2⟩

/-- The rounds of the loop for requests that are read, routed and written. -/
theorem ThrFn_loop_requests (ext : Collaborators) (base_dir : List Char)
    (indices : List (List Char)) (rounds : Nat) (later : List WriteOutcome) :
    ∀ (requests : List HttpRequest) (responses : List HttpResponse) (conn : HttpConnection),
      (successiveRequests requests.length conn).1 = requests.map some →
      (∀ request ∈ requests,
        ¬ request.GetHeaderValue "connection".toList = "close".toList) →
      requests.map (fun request => ProcessRequest ext request base_dir indices) =
        responses.map some →
      HttpServer_ThrFn.loop ext base_dir indices (rounds + requests.length) conn
          (List.replicate requests.length WriteOutcome.complete ++ later) =
        (responses.map ServerEvent.wrote ++
            (HttpServer_ThrFn.loop ext base_dir indices rounds
              (successiveRequests requests.length conn).2 later).1,
          (HttpServer_ThrFn.loop ext base_dir indices rounds
            (successiveRequests requests.length conn).2 later).2)
  | [], responses, conn, _, _, hrouted => by
    cases responses with
    | nil => rfl
    | cons _ _ => simp at hrouted
  | request :: requests, responses, conn, hreads, hopen, hrouted => by
    cases responses with
    | nil => simp at hrouted
    | cons response responses =>
      simp only [List.map_cons, List.cons.injEq] at hrouted
      simp only [List.length_cons, successiveRequests, List.map_cons, List.cons.injEq] at hreads
      have hg : conn.GetNextRequest = (some request, conn.GetNextRequest.2) :=
        Prod.ext hreads.1 rfl
      have ih := ThrFn_loop_requests ext base_dir indices rounds later requests responses
        conn.GetNextRequest.2 hreads.2
        (fun r hr => hopen r (List.mem_cons_of_mem _ hr)) hrouted.2
      simp only [List.length_cons, List.replicate_succ, List.cons_append]
      rw [← Nat.add_assoc,
        ThrFn_loop_wrote ext base_dir indices _ _ hg
          (hopen request (List.mem_cons_self _ _)) hrouted.1, ih]
      simp only [successiveRequests, List.map_cons, List.cons_append]

theorem successiveRequests_pending :
    ∀ (requests : List HttpRequest) (conn : HttpConnection),
      (successiveRequests requests.length conn).1 = requests.map some →
      (successiveRequests requests.length conn).2.pending + 4 * requests.length ≤ conn.pending
  | [], _, _ => by simp [successiveRequests]
  | request :: requests, conn, h => by
    simp only [List.length_cons, successiveRequests, List.map_cons, List.cons.injEq] at h
    have hg : conn.GetNextRequest = (some request, conn.GetNextRequest.2) :=
      Prod.ext h.1 rfl
    have h1 := GetNextRequest_pending hg
    have h2 := successiveRequests_pending requests conn.GetNextRequest.2 h.2
    simp only [List.length_cons, successiveRequests]
    omega

/-- The run of `HttpServer_ThrFn` for a client whose first requests are
read, routed and written: the loop goes on after them with rounds left. -/
theorem HttpServer_ThrFn_requests (ext : Collaborators) (hst : HttpServerTask)
    (requests : List HttpRequest) (responses : List HttpResponse)
    (later : List WriteOutcome)
    (hreads : (successiveRequests requests.length
      (HttpConnection.mk hst.client_reads [])).1 = requests.map some)
    (hopen : ∀ request ∈ requests,
      ¬ request.GetHeaderValue "connection".toList = "close".toList)
    (hrouted : requests.map (fun request =>
      ProcessRequest ext request hst.base_dir hst.indices) = responses.map some)
    (hwrites : hst.client_writes =
      List.replicate requests.length WriteOutcome.complete ++ later) :
    ∃ rounds,
      HttpServer_ThrFn.loop ext hst.base_dir hst.indices
          ((HttpConnection.mk hst.client_reads []).pending + 1)
          (HttpConnection.mk hst.client_reads []) hst.client_writes =
        (responses.map ServerEvent.wrote ++
            (HttpServer_ThrFn.loop ext hst.base_dir hst.indices (rounds + 1)
              (successiveRequests requests.length
                (HttpConnection.mk hst.client_reads [])).2 later).1,
          (HttpServer_ThrFn.loop ext hst.base_dir hst.indices (rounds + 1)
            (successiveRequests requests.length
              (HttpConnection.mk hst.client_reads [])).2 later).2) := by
  have hp := successiveRequests_pending requests _ hreads
  refine ⟨(HttpConnection.mk hst.client_reads []).pending - requests.length, ?_⟩
  have hr : (HttpConnection.mk hst.client_reads []).pending + 1 =
      ((HttpConnection.mk hst.client_reads []).pending - requests.length + 1) +
        requests.length := by omega
  rw [hr, hwrites]
  exact ThrFn_loop_requests ext hst.base_dir hst.indices _ later requests responses _
    hreads hopen hrouted

theorem count_closed_wrote (responses : List HttpResponse) :
    (responses.map ServerEvent.wrote).count ServerEvent.closed = 0 := by
  apply List.count_eq_zero_of_not_mem
  intro h
  obtain ⟨_, _, h⟩ := List.mem_map.1 h
  cases h

/-- C16: when the worker reads a request whose `connection` header is
`close`, after requests that it has answered, the loop ends there and the
connection is closed: what the worker does on the socket is the writing of
the responses to the earlier requests, in their order, and then the close;
no response is written for the last request, and nothing more is read. -/
theorem HttpServer_ThrFn_connection_close (ext : Collaborators) (hst : HttpServerTask)
    (requests : List HttpRequest) (responses : List HttpResponse) (last : HttpRequest)
    (conn : HttpConnection) (later : List WriteOutcome)
    (hreads : successiveRequests (requests.length + 1)
      (HttpConnection.mk hst.client_reads []) = (requests.map some ++ [some last], conn))
    (hopen : ∀ request ∈ requests,
      ¬ request.GetHeaderValue "connection".toList = "close".toList)
    (hrouted : requests.map (fun request =>
      ProcessRequest ext request hst.base_dir hst.indices) = responses.map some)
    (hwrites : hst.client_writes =
      List.replicate requests.length WriteOutcome.complete ++ later)
    (hclose : last.GetHeaderValue "connection".toList = "close".toList) :
    HttpServer_ThrFn ext hst =
      (responses.map ServerEvent.wrote ++ [ServerEvent.closed], conn, later,
        LoopEnd.ended) := by
  obtain ⟨h1, h2⟩ := successiveRequests_split (by rw [List.length_map]) hreads
  obtain ⟨rounds, hrun⟩ :=
    HttpServer_ThrFn_requests ext hst requests responses later h1 hopen hrouted hwrites
  rw [ThrFn_loop_close ext hst.base_dir hst.indices rounds later h2 hclose] at hrun
  unfold HttpServer_ThrFn
  simp only [hrun, List.append_nil]

set_option maxRecDepth 20000 in
/-- Witness of C16: two requests for a file and then a request with
`Connection: close` give two responses and the close. -/
theorem HttpServer_ThrFn_connection_close_witness :
    HttpServer_ThrFn exampleCollaborators exampleCloseTask =
      ([exampleHelloResponse, exampleHelloResponse].map ServerEvent.wrote ++
          [ServerEvent.closed],
        HttpConnection.mk [] [], [WriteOutcome.complete], LoopEnd.ended) :=
  HttpServer_ThrFn_connection_close exampleCollaborators exampleCloseTask
    [exampleHelloRequest, exampleHelloRequest] [exampleHelloResponse, exampleHelloResponse]
    exampleCloseRequest (HttpConnection.mk [] []) [WriteOutcome.complete]
    (by decide) (by decide) (by decide) (by decide) (by decide)

/-- The run of the worker for a client that delivers a number of requests
without `connection: close`, each of which is routed to a response: the worker
writes the responses in the order of the requests as long as the writes
succeed. If all succeed and the next `GetNextRequest` fails, it has written
as many responses as there were requests and then closes the connection,
once. If the write of a response fails, the loop ends there: the connection
is closed, and no further request has been read. -/
theorem HttpServer_ThrFn_serves (ext : Collaborators) (hst : HttpServerTask)
    (requests : List HttpRequest) (responses : List HttpResponse)
    (later : List WriteOutcome)
    (hopen : ∀ request ∈ requests,
      ¬ request.GetHeaderValue "connection".toList = "close".toList)
    (hrouted : requests.map (fun request =>
      ProcessRequest ext request hst.base_dir hst.indices) = responses.map some)
    (hwrites : hst.client_writes =
      List.replicate requests.length WriteOutcome.complete ++ later) :
    responses.length = requests.length ∧
    (∀ conn : HttpConnection,
      successiveRequests (requests.length + 1) (HttpConnection.mk hst.client_reads []) =
        (requests.map some ++ [none], conn) →
      HttpServer_ThrFn ext hst =
        (responses.map ServerEvent.wrote ++ [ServerEvent.closed], conn, later,
          LoopEnd.ended) ∧
      (HttpServer_ThrFn ext hst).1.count ServerEvent.closed = 1) ∧
    (∀ (conn : HttpConnection) (request : HttpRequest) (response : HttpResponse),
      successiveRequests (requests.length + 1) (HttpConnection.mk hst.client_reads []) =
        (requests.map some ++ [some request], conn) →
      ¬ request.GetHeaderValue "connection".toList = "close".toList →
      ProcessRequest ext request hst.base_dir hst.indices = some response →
      (WriteResponse response later).1 = false →
      HttpServer_ThrFn ext hst =
        (responses.map ServerEvent.wrote ++
            [ServerEvent.writeFailed response, ServerEvent.closed],
          conn, (WriteResponse response later).2, LoopEnd.ended)) := by
  refine ⟨?_, fun conn hreads => ?_, fun conn request response hreads hreq hresp hwrite => ?_⟩
  · have := congrArg List.length hrouted
    simpa using this.symm
  · obtain ⟨h1, h2⟩ := successiveRequests_split (by rw [List.length_map]) hreads
    obtain ⟨rounds, hrun⟩ :=
      HttpServer_ThrFn_requests ext hst requests responses later h1 hopen hrouted hwrites
    rw [ThrFn_loop_fail ext hst.base_dir hst.indices rounds later h2] at hrun
    have hthr : HttpServer_ThrFn ext hst =
        (responses.map ServerEvent.wrote ++ [ServerEvent.closed], conn, later,
          LoopEnd.ended) := by
      unfold HttpServer_ThrFn
      simp only [hrun, List.append_nil]
    refine ⟨hthr, ?_⟩
    rw [hthr]
    simp only [List.count_append, count_closed_wrote]
    rfl
  · obtain ⟨h1, h2⟩ := successiveRequests_split (by rw [List.length_map]) hreads
    obtain ⟨rounds, hrun⟩ :=
      HttpServer_ThrFn_requests ext hst requests responses later h1 hopen hrouted hwrites
    rw [ThrFn_loop_write_failed ext hst.base_dir hst.indices rounds later h2 hreq hresp hwrite]
      at hrun
    unfold HttpServer_ThrFn
    simp only [hrun, List.append_assoc, List.singleton_append]

set_option maxRecDepth 20000 in
/-- Two requests for a file and then the end of the input give two responses
and the close; and a write that fails on the second of three requests ends
the loop with the third request still in the buffer. -/
theorem HttpServer_ThrFn_serves_witness :
    HttpServer_ThrFn exampleCollaborators exampleEofTask =
      ([exampleHelloResponse, exampleHelloResponse].map ServerEvent.wrote ++
          [ServerEvent.closed],
        HttpConnection.mk [] [], [], LoopEnd.ended) ∧
    HttpServer_ThrFn exampleCollaborators exampleWriteFailureTask =
      ([exampleHelloResponse].map ServerEvent.wrote ++
          [ServerEvent.writeFailed exampleHelloResponse, ServerEvent.closed],
        HttpConnection.mk [] "GET /static/hello.txt HTTP/1.1\r\n\r\n".toList,
        [WriteOutcome.complete], LoopEnd.ended) :=
  ⟨((HttpServer_ThrFn_serves exampleCollaborators exampleEofTask
      [exampleHelloRequest, exampleHelloRequest]
      [exampleHelloResponse, exampleHelloResponse] []
      (by decide) (by decide) (by decide)).2.1 (HttpConnection.mk [] []) (by decide)).1,
    (HttpServer_ThrFn_serves exampleCollaborators exampleWriteFailureTask
      [exampleHelloRequest] [exampleHelloResponse]
      [WriteOutcome.incomplete, WriteOutcome.complete]
      (by decide) (by decide) (by decide)).2.2
      (HttpConnection.mk [] "GET /static/hello.txt HTTP/1.1\r\n\r\n".toList)
      exampleHelloRequest exampleHelloResponse (by decide) (by decide) (by decide)
      (by decide)⟩

theorem rfindChar_eq_none {c : Char} : ∀ {s : List Char}, rfindChar c s = none ↔ c ∉ s
  | [] => by simp [rfindChar]
  | d :: rest => by
    unfold rfindChar
    cases h : rfindChar c rest with
    | none =>
      have hrest := rfindChar_eq_none.1 h
      by_cases hd : d = c
      · simp [hd]
      · simp only [if_neg hd, List.mem_cons, not_or, true_iff]
        exact ⟨fun e => hd e.symm, hrest⟩
    | some pos =>
      have hrest : ¬ c ∉ rest := fun hn => by
        rw [rfindChar_eq_none.2 hn] at h; cases h
      simp only [List.mem_cons, not_or, false_iff, not_and, reduceCtorEq]
      exact fun _ => hrest

theorem rfindChar_append {c : Char} {suffix : List Char} (hsuffix : c ∉ suffix) :
    ∀ stem : List Char, rfindChar c (stem ++ c :: suffix) = some stem.length
  | [] => by
    rw [List.nil_append, rfindChar, rfindChar_eq_none.2 hsuffix]
    simp
  | d :: stem => by
    rw [List.cons_append, rfindChar, rfindChar_append hsuffix stem]
    rfl

theorem file_name_eq (path : List Char) :
    (if path.length > 8 then path.drop 8 else []) = path.drop 8 := by
  by_cases h : path.length > 8
  · rw [if_pos h]
  · rw [if_neg h]
    exact (List.drop_eq_nil_of_le (by omega)).symm

theorem ProcessRequest_static (ext : Collaborators) (req : HttpRequest)
    (base_dir : List Char) (indices : List (List Char))
    (hstatic : req.uri_.take 8 = "/static/".toList) :
    ProcessRequest ext req base_dir indices =
      some (ProcessFileRequest ext req.uri_ base_dir) := by
  unfold ProcessRequest
  rw [if_pos hstatic]

/-- C18: for a request whose path begins with `/static/` and whose file
cannot be read, the response has the code 404 and its body contains the
escaped name of the file, which is the parsed path after its first eight
characters. -/
theorem ProcessRequest_static_not_found (ext : Collaborators) (req : HttpRequest)
    (base_dir : List Char) (indices : List (List Char))
    (hstatic : req.uri_.take 8 = "/static/".toList)
    (hmissing : ext.ReadFile base_dir ((ext.path req.uri_).drop 8) = none) :
    ∃ response, ProcessRequest ext req base_dir indices = some response ∧
      response.response_code_ = 404 ∧
      ext.EscapeHtml ((ext.path req.uri_).drop 8) <:+: response.body_ := by
  refine ⟨_, ProcessRequest_static ext req base_dir indices hstatic, ?_, ?_⟩
  · unfold ProcessFileRequest
    simp only [file_name_eq, hmissing]
    rfl
  · unfold ProcessFileRequest
    simp only [file_name_eq, hmissing]
    exact ⟨"<html><body>Couldn't find file \"".toList, "\"</body></html>\n".toList, rfl⟩

/-- Witness of C18: the file `<b>.txt` does not exist, and the page that
says so names it in escaped form. -/
theorem ProcessRequest_static_not_found_witness :
    ProcessRequest exampleCollaborators
        (HttpRequest.mk "/static/<b>.txt".toList []) [] [] =
      some (HttpResponse.mk "HTTP/1.1".toList 404 "Not Found".toList []
        "<html><body>Couldn't find file \"&lt;b>.txt\"</body></html>\n".toList) ∧
    ∃ response, ProcessRequest exampleCollaborators
        (HttpRequest.mk "/static/<b>.txt".toList []) [] [] = some response ∧
      response.response_code_ = 404 ∧
      exampleCollaborators.EscapeHtml
        ((exampleCollaborators.path "/static/<b>.txt".toList).drop 8) <:+: response.body_ :=
  ⟨by decide,
    ProcessRequest_static_not_found exampleCollaborators
      (HttpRequest.mk "/static/<b>.txt".toList []) [] [] (by decide) (by decide)⟩

/-- C19: for a request whose path begins with `/static/` and whose file is
read, the response has the code 200, the content of the file as body and the
content type of the file name. The content type of a name is the entry of
the table for its text from the last `.` on, and `text/plain` when the name
has no `.` or the table has no such entry; the table has the ten suffixes
`.html`, `.htm`, `.jpeg`, `.jpg`, `.png`, `.txt`, `.js`, `.css`, `.xml` and
`.gif`. -/
theorem ProcessRequest_static_found (ext : Collaborators) (req : HttpRequest)
    (base_dir : List Char) (indices : List (List Char)) (file_content : List Char)
    (hstatic : req.uri_.take 8 = "/static/".toList)
    (hfound : ext.ReadFile base_dir ((ext.path req.uri_).drop 8) = some file_content) :
    (∃ response, ProcessRequest ext req base_dir indices = some response ∧
      response.response_code_ = 200 ∧ response.body_ = file_content ∧
      response.content_type_ = GetContentType ((ext.path req.uri_).drop 8)) ∧
    (∀ file_name : List Char, '.' ∉ file_name →
      GetContentType file_name = "text/plain".toList) ∧
    (∀ stem suffix : List Char, '.' ∉ suffix →
      GetContentType (stem ++ '.' :: suffix) =
        match content_types.find? (fun entry => entry.1 = '.' :: suffix) with
        | some entry => entry.2
        | none => "text/plain".toList) ∧
    content_types.map Prod.fst =
      [".html".toList, ".htm".toList, ".jpeg".toList, ".jpg".toList, ".png".toList,
        ".txt".toList, ".js".toList, ".css".toList, ".xml".toList, ".gif".toList] := by
  refine ⟨⟨_, ProcessRequest_static ext req base_dir indices hstatic, ?_, ?_, ?_⟩, ?_, ?_,
    by decide⟩
  · unfold ProcessFileRequest
    simp only [file_name_eq, hfound]
    rfl
  · unfold ProcessFileRequest
    simp only [file_name_eq, hfound]
    rfl
  · unfold ProcessFileRequest
    simp only [file_name_eq, hfound]
    rfl
  · intro file_name h
    unfold GetContentType
    rw [rfindChar_eq_none.2 h]
  · intro stem suffix h
    unfold GetContentType
    rw [rfindChar_append h]
    simp only [List.drop_left]

/-- Witness of C19: the file `hello.txt` is served as `text/plain`, and a
name ending in `.html` has the type `text/html`. -/
theorem ProcessRequest_static_found_witness :
    ProcessRequest exampleCollaborators
        (HttpRequest.mk "/static/hello.txt".toList []) [] [] =
      some (HttpResponse.mk "HTTP/1.1".toList 200 "OK".toList "text/plain".toList
        "hi".toList) ∧
    GetContentType "a.b/index.html".toList = "text/html".toList ∧
    GetContentType "archive.tar.gz".toList = "text/plain".toList ∧
    ∃ response, ProcessRequest exampleCollaborators
        (HttpRequest.mk "/static/hello.txt".toList []) [] [] = some response ∧
      response.response_code_ = 200 ∧ response.body_ = "hi".toList ∧
      response.content_type_ =
        GetContentType ((exampleCollaborators.path "/static/hello.txt".toList).drop 8) :=
  ⟨by decide, by decide, by decide,
    (ProcessRequest_static_found exampleCollaborators
      (HttpRequest.mk "/static/hello.txt".toList []) [] [] "hi".toList
      (by decide) (by decide)).1⟩

theorem splitCompress_nil (delims : List Char) : splitCompress delims [] = [[]] := rfl

theorem splitCompress_delim_end {delims : List Char} {c : Char}
    (hc : delims.contains c = true) : splitCompress delims [c] = [[], []] := by
  simp only [splitCompress, hc, if_true]

theorem splitCompress_delim_delim {delims : List Char} {c d : Char}
    (hc : delims.contains c = true) (hd : delims.contains d = true) (rest : List Char) :
    splitCompress delims (c :: d :: rest) = splitCompress delims (d :: rest) := by
  rw [splitCompress, if_pos hc]
  simp only [hd, if_true]

theorem splitCompress_delim_other {delims : List Char} {c d : Char}
    (hc : delims.contains c = true) (hd : ¬ delims.contains d = true) (rest : List Char) :
    splitCompress delims (c :: d :: rest) = [] :: splitCompress delims (d :: rest) := by
  rw [splitCompress, if_pos hc]
  simp only [hd, if_false, Bool.false_eq_true]

theorem splitCompress_ne_nil (delims : List Char) : ∀ s : List Char, splitCompress delims s ≠ []
  | [] => by simp [splitCompress_nil]
  | [c] => by
    by_cases hc : delims.contains c = true
    · rw [splitCompress_delim_end hc]; simp
    · rw [splitCompress, if_neg hc]
      split <;> simp
  | c :: d :: rest => by
    by_cases hc : delims.contains c = true
    · by_cases hd : delims.contains d = true
      · rw [splitCompress_delim_delim hc hd]
        exact splitCompress_ne_nil delims (d :: rest)
      · rw [splitCompress_delim_other hc hd]; simp
    · rw [splitCompress, if_neg hc]
      split <;> simp

theorem splitCompress_other {delims : List Char} {c : Char}
    (hc : ¬ delims.contains c = true) (rest : List Char) :
    ∃ token tokens, splitCompress delims rest = token :: tokens ∧
      splitCompress delims (c :: rest) = (c :: token) :: tokens := by
  cases hs : splitCompress delims rest with
  | nil => exact absurd hs (splitCompress_ne_nil _ _)
  | cons token tokens =>
    refine ⟨token, tokens, rfl, ?_⟩
    cases rest with
    | nil => rw [splitCompress, if_neg hc, hs]
    | cons d rest => rw [splitCompress, if_neg hc, hs]

/-- The split with compression and the split at every separator have the
same first token, and the same later tokens apart from empty ones. -/
theorem splitCompress_splitOnP (delims : List Char) :
    ∀ s : List Char, ∃ token tokens tokens',
      splitCompress delims s = token :: tokens ∧
      s.splitOnP (fun c => delims.contains c) = token :: tokens' ∧
      tokens.filter (fun piece => !piece.isEmpty) = tokens'.filter (fun piece => !piece.isEmpty)
  | [] => ⟨[], [], [], rfl, rfl, rfl⟩
  | [c] => by
    by_cases hc : delims.contains c = true
    · refine ⟨[], [[]], [[]], splitCompress_delim_end hc, ?_, rfl⟩
      rw [List.splitOnP_cons, if_pos hc, List.splitOnP_nil]
    · obtain ⟨token, tokens, h1, h2⟩ := splitCompress_other hc []
      rw [splitCompress_nil] at h1
      injection h1 with h1 h1'
      subst h1 h1'
      refine ⟨[c], [], [], h2, ?_, rfl⟩
      rw [List.splitOnP_cons, if_neg hc, List.splitOnP_nil]
      rfl
  | c :: d :: rest => by
    obtain ⟨token, tokens, tokens', h1, h2, h3⟩ := splitCompress_splitOnP delims (d :: rest)
    by_cases hc : delims.contains c = true
    · by_cases hd : delims.contains d = true
      · have htoken : token = [] := by
          rw [List.splitOnP_cons, if_pos hd] at h2
          injection h2 with h2 _
          exact h2.symm
        subst htoken
        refine ⟨[], tokens, [] :: tokens', ?_, ?_, ?_⟩
        · rw [splitCompress_delim_delim hc hd, h1]
        · rw [List.splitOnP_cons, if_pos hc, h2]
        · simpa using h3
      · refine ⟨[], token :: tokens, token :: tokens', ?_, ?_, ?_⟩
        · rw [splitCompress_delim_other hc hd, h1]
        · rw [List.splitOnP_cons, if_pos hc, h2]
        · simp only [List.filter_cons, h3]
    · obtain ⟨token0, tokens0, h4, h5⟩ := splitCompress_other hc (d :: rest)
      rw [h1] at h4
      injection h4 with h4 h4'
      subst h4 h4'
      refine ⟨c :: token, tokens, tokens', h5, ?_, h3⟩
      rw [List.splitOnP_cons, if_neg hc, h2]
      rfl

theorem splitCompress_tail_nonempty (delims : List Char) :
    ∀ s : List Char, (∀ c, s.getLast? = some c → ¬ delims.contains c = true) →
      ∀ piece ∈ (splitCompress delims s).tail, piece ≠ []
  | [], _ => by simp [splitCompress_nil]
  | [c], h => by
    have hc : ¬ delims.contains c = true := h c rfl
    obtain ⟨token, tokens, h1, h2⟩ := splitCompress_other hc []
    rw [splitCompress_nil] at h1
    injection h1 with h1 h1'
    subst h1 h1'
    rw [h2]
    simp
  | c :: d :: rest, h => by
    have hlast : ∀ x, (d :: rest).getLast? = some x → ¬ delims.contains x = true := by
      intro x hx
      exact h x (by rw [List.getLast?_cons_cons]; exact hx)
    have ih := splitCompress_tail_nonempty delims (d :: rest) hlast
    by_cases hc : delims.contains c = true
    · by_cases hd : delims.contains d = true
      · rw [splitCompress_delim_delim hc hd]
        exact ih
      · rw [splitCompress_delim_other hc hd, List.tail_cons]
        obtain ⟨token, tokens, _, h2⟩ := splitCompress_other hd rest
        rw [h2] at ih ⊢
        intro piece hpiece
        rcases List.mem_cons.1 hpiece with rfl | hpiece
        · exact List.cons_ne_nil _ _
        · exact ih piece hpiece
    · obtain ⟨token, tokens, h1, h2⟩ := splitCompress_other hc (d :: rest)
      rw [h2, List.tail_cons]
      rw [h1, List.tail_cons] at ih
      exact ih

theorem splitCompress_eq_maximal (delims : List Char) {s : List Char} {first : Char}
    (hhead : s.head? = some first) (hfirst : ¬ delims.contains first = true)
    (hlast : ∀ c, s.getLast? = some c → ¬ delims.contains c = true) :
    splitCompress delims s = maximalFreeSubstrings (fun c => delims.contains c) s := by
  obtain ⟨token, tokens, tokens', h1, h2, h3⟩ := splitCompress_splitOnP delims s
  have htail := splitCompress_tail_nonempty delims s hlast
  rw [h1] at htail
  have htoken : token ≠ [] := by
    cases s with
    | nil => cases hhead
    | cons c rest =>
      simp only [List.head?_cons, Option.some.injEq] at hhead
      subst hhead
      rw [List.splitOnP_cons, if_neg hfirst] at h2
      cases hr : List.splitOnP (fun c => delims.contains c) rest with
      | nil => exact absurd hr (List.splitOnP_ne_nil _ _)
      | cons t ts =>
        rw [hr] at h2
        simp only [List.modifyHead_cons, List.cons.injEq] at h2
        rw [← h2.1]
        exact List.cons_ne_nil _ _
  unfold maximalFreeSubstrings
  rw [h1, h2, List.filter_cons, ← h3]
  have hf : tokens.filter (fun piece => !piece.isEmpty) = tokens := by
    rw [List.filter_eq_self]
    intro piece hpiece
    have := htail piece hpiece
    cases piece with
    | nil => exact absurd rfl this
    | cons _ _ => rfl
  rw [hf]
  cases token with
  | nil => exact absurd rfl htoken
  | cons _ _ => rfl

theorem toLowerChar_isSpace (c : Char) : isSpace (toLowerChar c) = isSpace c := by
  unfold toLowerChar
  split
  · rename_i h
    have h1 : 65 ≤ c.toNat := h.1
    have h2 : c.toNat ≤ 90 := h.2
    have hc : c = Char.ofNat c.toNat := (Char.ofNat_toNat c).symm
    generalize c.toNat = n at h1 h2 hc
    subst hc
    interval_cases n <;> decide
  · rfl

theorem trim_head (s : List Char) (c : Char) (h : (trim s).head? = some c) :
    isSpace c = false := by
  unfold trim at h
  rw [List.head?_reverse] at h
  have hsuffix : (s.dropWhile isSpace).reverse.dropWhile isSpace <:+
      (s.dropWhile isSpace).reverse := List.dropWhile_suffix _
  obtain ⟨front, hfront⟩ := hsuffix
  have hne : (s.dropWhile isSpace).reverse.dropWhile isSpace ≠ [] := by
    intro hnil; rw [hnil] at h; cases h
  have hlast : ((s.dropWhile isSpace).reverse).getLast? = some c := by
    rw [← hfront, List.getLast?_append_of_ne_nil _ hne]
    exact h
  rw [List.getLast?_reverse] at hlast
  have hne' : s.dropWhile isSpace ≠ [] := by
    intro hnil; rw [hnil] at hlast; cases hlast
  have := List.head_dropWhile_not isSpace s hne'
  rw [List.head?_eq_head hne'] at hlast
  injection hlast with hlast
  rw [hlast] at this
  simpa using this

theorem trim_getLast (s : List Char) (c : Char) (h : (trim s).getLast? = some c) :
    isSpace c = false := by
  unfold trim at h
  rw [List.getLast?_reverse] at h
  have hne : (s.dropWhile isSpace).reverse.dropWhile isSpace ≠ [] := by
    intro hnil; rw [hnil] at h; cases h
  have := List.head_dropWhile_not isSpace _ hne
  rw [List.head?_eq_head hne] at h
  injection h with h
  rw [h] at this
  simpa using this

theorem not_space_of_not_isSpace {c : Char} (h : isSpace c = false) :
    ¬ [' '].contains c = true := by
  simp only [List.contains_cons, List.contains_nil, Bool.or_false, beq_iff_eq]
  rintro rfl
  exact absurd h (by decide)

/-- C20 as stated fails: for an empty value of `terms` the term list is the
one empty string, not the empty list of the substrings free of white space;
and a tab inside the value does not separate two terms. -/
theorem query_terms_not_whitespace_words :
    (ProcessQueryRequest.query_terms []).2 = [[]] ∧
    maximalFreeSubstrings isSpace (to_lower []) = [] ∧
    (ProcessQueryRequest.query_terms "A\tb  c".toList).2 = ["a\tb".toList, "c".toList] ∧
    maximalFreeSubstrings isSpace (to_lower "A\tb  c".toList) =
      ["a".toList, "b".toList, "c".toList] := by
  decide

/-- C20, amended: the term list passed to `ProcessQuery` is the value of the
`terms` parameter, trimmed of white space and put in lower case, split at
space characters with adjacent spaces counting once. When that text is not
empty the list is, in order, the list of its maximal substrings free of
spaces; when it is empty the list holds the empty string alone. -/
theorem query_terms_space_words (terms : List Char) :
    (ProcessQueryRequest.query_terms terms).1 = to_lower (trim terms) ∧
    (to_lower (trim terms) = [] → (ProcessQueryRequest.query_terms terms).2 = [[]]) ∧
    (to_lower (trim terms) ≠ [] →
      (ProcessQueryRequest.query_terms terms).2 =
        maximalFreeSubstrings (fun c => c == ' ') (to_lower (trim terms))) := by
  refine ⟨rfl, fun h => ?_, fun h => ?_⟩
  · unfold ProcessQueryRequest.query_terms
    simp only [h]
    rfl
  · unfold ProcessQueryRequest.query_terms
    simp only
    have hfun : (fun c : Char => c == ' ') = (fun c => [' '].contains c) := by
      funext c
      by_cases hc : c = ' ' <;> simp [List.contains_cons, hc]
    rw [hfun]
    cases hhead : (to_lower (trim terms)).head? with
    | none =>
      rw [List.head?_eq_none_iff] at hhead
      exact absurd hhead h
    | some first =>
      apply splitCompress_eq_maximal [' '] hhead
      · unfold to_lower at hhead
        rw [List.head?_map] at hhead
        cases ht : (trim terms).head? with
        | none => rw [ht] at hhead; cases hhead
        | some c =>
          rw [ht] at hhead
          simp only [Option.map_some', Option.some.injEq] at hhead
          apply not_space_of_not_isSpace
          rw [← hhead, toLowerChar_isSpace]
          exact trim_head terms c ht
      · intro last hlast
        unfold to_lower at hlast
        rw [List.getLast?_map] at hlast
        cases ht : (trim terms).getLast? with
        | none => rw [ht] at hlast; cases hlast
        | some c =>
          rw [ht] at hlast
          simp only [Option.map_some', Option.some.injEq] at hlast
          apply not_space_of_not_isSpace
          rw [← hlast, toLowerChar_isSpace]
          exact trim_getLast terms c ht

/-- Witness of C20: a value with capitals, blanks at both ends and two
spaces in the middle. -/
theorem query_terms_space_words_witness :
    (ProcessQueryRequest.query_terms "  Hello  big World ".toList).2 =
      ["hello".toList, "big".toList, "world".toList] ∧
    (ProcessQueryRequest.query_terms "  Hello  big World ".toList).2 =
      maximalFreeSubstrings (fun c => c == ' ') (to_lower (trim "  Hello  big World ".toList)) ∧
    (ProcessQueryRequest.query_terms "   ".toList).2 = [[]] :=
  ⟨by decide,
    (query_terms_space_words "  Hello  big World ".toList).2.2 (by decide),
    (query_terms_space_words "   ".toList).2.1 (by decide)⟩

end hw4

/-! # Theorems about the query page -/

namespace hw4

theorem AppendToBody_AppendToBody (response : HttpResponse) (a b : List Char) :
    (response.AppendToBody a).AppendToBody b = response.AppendToBody (a ++ b) := by
  simp [HttpResponse.AppendToBody, List.append_assoc]

theorem AppendSearchResults_loop_eq (EscapeHtml : List Char → List Char) :
    ∀ (results : List hw3.QueryResult) (response : HttpResponse),
      AppendSearchResults.loop EscapeHtml results response =
        match resultEntries EscapeHtml results with
        | some entries => some (response.AppendToBody entries)
        | none => none
  | [], response => by
    simp [AppendSearchResults.loop, resultEntries, HttpResponse.AppendToBody]
  | result :: rest, response => by
    unfold AppendSearchResults.loop resultEntries
    by_cases hhttp : result.document_name.take 7 = "http://".toList
    · have hentry : resultEntry EscapeHtml result = some
          ("<li>\n<a href=\"".toList ++ result.document_name ++ "\">".toList ++
            EscapeHtml result.document_name ++ "</a> [".toList ++
            to_string_int result.rank ++ "]<br>\n</li>\n".toList) := by
        unfold resultEntry; rw [if_pos hhttp]
      rw [if_neg (not_not.2 hhttp), hentry, AppendSearchResults_loop_eq EscapeHtml rest]
      cases resultEntries EscapeHtml rest with
      | none => rfl
      | some entries =>
        simp only [AppendToBody_AppendToBody, List.append_nil, List.append_assoc]
    · rw [if_pos hhttp]
      by_cases hshort : result.document_name.length < 12
      · have hentry : resultEntry EscapeHtml result = none := by
          unfold resultEntry; rw [if_neg hhttp, if_pos hshort]
        rw [if_pos hshort, hentry]
      · have hentry : resultEntry EscapeHtml result = some
            ("<li>\n<a href=\"".toList ++ "/static/".toList ++ result.document_name.drop 12 ++
              "\">".toList ++ EscapeHtml (result.document_name.drop 12) ++ "</a> [".toList ++
              to_string_int result.rank ++ "]<br>\n</li>\n".toList) := by
          unfold resultEntry; rw [if_neg hhttp, if_neg hshort]
        rw [if_neg hshort, hentry, AppendSearchResults_loop_eq EscapeHtml rest]
        cases resultEntries EscapeHtml rest with
        | none => rfl
        | some entries =>
          simp only [AppendToBody_AppendToBody, List.append_assoc]

/-- What `AppendSearchResults` appends to the body of the response. -/
theorem AppendSearchResults_eq (EscapeHtml : List Char → List Char) (response : HttpResponse)
    (terms : List Char) (results : List hw3.QueryResult) :
    AppendSearchResults EscapeHtml response terms results =
      if results = [] then
        some (response.AppendToBody ("<p><br>\r\nNo results found for <b>".toList ++
          EscapeHtml terms ++ "</b><p>\r\n\r\n".toList))
      else
        match resultEntries EscapeHtml results with
        | some entries =>
          some (response.AppendToBody
            (countLine EscapeHtml terms results.length ++ entries ++ "</ul>\r\n".toList))
        | none => none := by
  unfold AppendSearchResults
  cases results with
  | nil => rfl
  | cons result rest =>
    rw [if_neg (show ¬ ((result :: rest).isEmpty = true) by simp),
      if_neg (show ¬ (result :: rest = []) by simp)]
    simp only [AppendSearchResults_loop_eq]
    cases resultEntries EscapeHtml (result :: rest) with
    | none => rfl
    | some entries =>
      simp only [AppendToBody_AppendToBody, countLine, List.append_assoc]

theorem AppendSearchResults_section {EscapeHtml : List Char → List Char}
    {response response' : HttpResponse} {terms : List Char} {results : List hw3.QueryResult}
    (h : AppendSearchResults EscapeHtml response terms results = some response') :
    ∃ section_, section_ ≠ [] ∧ response' = response.AppendToBody section_ := by
  rw [AppendSearchResults_eq] at h
  by_cases hres : results = []
  · rw [if_pos hres] at h
    injection h with h
    exact ⟨_, by simp, h.symm⟩
  · rw [if_neg hres] at h
    cases hent : resultEntries EscapeHtml results with
    | none => rw [hent] at h; cases h
    | some entries =>
      rw [hent] at h
      injection h with h
      exact ⟨_, by simp [countLine], h.symm⟩

end hw4

namespace hw4

theorem ProcessQueryRequest_landing {uri : List Char}
    (h : find "query?terms=".toList uri = none) (ext : Collaborators)
    (indices : List (List Char)) :
    ProcessQueryRequest ext uri indices = some (queryResponse (kThreegleStr ++ kClosing)) := by
  unfold ProcessQueryRequest
  simp only [h, Option.isSome_none, Bool.false_eq_true, if_false]
  rfl

theorem ProcessQueryRequest_terms {uri : List Char} {pos : Nat}
    (h : find "query?terms=".toList uri = some pos) (ext : Collaborators)
    (indices : List (List Char)) :
    ProcessQueryRequest ext uri indices =
      match hw3.QueryProcessor.new ext.FileIndexReader indices false with
      | none => none
      | some query_processor =>
        match query_processor.ProcessQuery ext.lt
          (ProcessQueryRequest.query_terms (argsLookup (ext.args uri) "terms".toList)).2 with
        | none => none
        | some results =>
          match AppendSearchResults ext.EscapeHtml (HttpResponse.new.AppendToBody kThreegleStr)
            (ProcessQueryRequest.query_terms (argsLookup (ext.args uri) "terms".toList)).1
            results with
          | none => none
          | some ret => some (queryResponse (ret.body_ ++ kClosing)) := by
  unfold ProcessQueryRequest
  simp only [h, Option.isSome_some, if_true]
  cases hw3.QueryProcessor.new ext.FileIndexReader indices false with
  | none => rfl
  | some query_processor =>
    simp only
    cases query_processor.ProcessQuery ext.lt
      (ProcessQueryRequest.query_terms (argsLookup (ext.args uri) "terms".toList)).2 with
    | none => rfl
    | some results =>
      simp only
      cases hret : AppendSearchResults ext.EscapeHtml (HttpResponse.new.AppendToBody kThreegleStr)
          (ProcessQueryRequest.query_terms (argsLookup (ext.args uri) "terms".toList)).1
          results with
      | none => rfl
      | some ret =>
        obtain ⟨section_, -, hsec⟩ := AppendSearchResults_section hret
        subst hsec
        rfl

/-- Every response of the query route, with what led to it. -/
theorem ProcessQueryRequest_some {ext : Collaborators} {uri : List Char}
    {indices : List (List Char)} {response : HttpResponse}
    (h : ProcessQueryRequest ext uri indices = some response) :
    (¬ "query?terms=".toList <:+: uri ∧
      response = queryResponse (kThreegleStr ++ kClosing)) ∨
    ("query?terms=".toList <:+: uri ∧
      ∃ (query_processor : hw3.QueryProcessor) (results : List hw3.QueryResult)
        (section_ : List Char),
        hw3.QueryProcessor.new ext.FileIndexReader indices false = some query_processor ∧
        query_processor.ProcessQuery ext.lt
          (ProcessQueryRequest.query_terms (argsLookup (ext.args uri) "terms".toList)).2 =
          some results ∧
        AppendSearchResults ext.EscapeHtml (HttpResponse.new.AppendToBody kThreegleStr)
          (ProcessQueryRequest.query_terms (argsLookup (ext.args uri) "terms".toList)).1
          results = some ((HttpResponse.new.AppendToBody kThreegleStr).AppendToBody section_) ∧
        section_ ≠ [] ∧
        response = queryResponse (kThreegleStr ++ section_ ++ kClosing)) := by
  cases hf : find "query?terms=".toList uri with
  | none =>
    rw [ProcessQueryRequest_landing hf] at h
    injection h with h
    exact Or.inl ⟨find_eq_none hf, h.symm⟩
  | some pos =>
    rw [ProcessQueryRequest_terms hf] at h
    refine Or.inr ⟨infix_of_find_some hf, ?_⟩
    cases hqp : hw3.QueryProcessor.new ext.FileIndexReader indices false with
    | none => rw [hqp] at h; cases h
    | some query_processor =>
      rw [hqp] at h
      simp only at h
      cases hres : query_processor.ProcessQuery ext.lt
          (ProcessQueryRequest.query_terms (argsLookup (ext.args uri) "terms".toList)).2 with
      | none => rw [hres] at h; cases h
      | some results =>
        rw [hres] at h
        simp only at h
        cases hret : AppendSearchResults ext.EscapeHtml
            (HttpResponse.new.AppendToBody kThreegleStr)
            (ProcessQueryRequest.query_terms (argsLookup (ext.args uri) "terms".toList)).1
            results with
        | none => rw [hret] at h; cases h
        | some ret =>
          rw [hret] at h
          injection h with h
          obtain ⟨section_, hne, hsec⟩ := AppendSearchResults_section hret
          refine ⟨query_processor, results, section_, rfl, hres, ?_, hne, ?_⟩
          · rw [← hsec]; exact hret
          · rw [← h, hsec]
            rfl

theorem ProcessRequest_query (ext : Collaborators) (req : HttpRequest)
    (base_dir : List Char) (indices : List (List Char))
    (hquery : req.uri_.take 8 ≠ "/static/".toList) :
    ProcessRequest ext req base_dir indices = ProcessQueryRequest ext req.uri_ indices := by
  unfold ProcessRequest
  rw [if_neg hquery]

set_option maxRecDepth 20000 in
/-- C21 as stated fails: the URI `/search?terms=t1` carries the parameter
`terms`, and the body is the landing page only, since the URI does not
contain the text `query?terms=`. -/
theorem ProcessRequest_terms_without_query :
    argsLookup (exampleCollaborators.args "/search?terms=t1".toList) "terms".toList =
      "t1".toList ∧
    ProcessRequest exampleCollaborators (HttpRequest.mk "/search?terms=t1".toList []) []
        ["idx".toList] =
      some (queryResponse (kThreegleStr ++ kClosing)) := by
  decide

/-- C21, amended: for a request whose path does not begin with `/static/`,
every response that the route returns has a body that begins with the
landing content and ends with the closing markup. When the URI does not
contain the text `query?terms=` (whatever parameters it carries) the
response is returned and its body is the landing content and the closing
markup only; when it contains that text, `ProcessQuery` has been called with
the term list of the `terms` parameter and the body holds a result section
between the two. -/
theorem ProcessRequest_query_page (ext : Collaborators) (req : HttpRequest)
    (base_dir : List Char) (indices : List (List Char))
    (hquery : req.uri_.take 8 ≠ "/static/".toList) :
    (∀ response, ProcessRequest ext req base_dir indices = some response →
      kThreegleStr <+: response.body_ ∧ kClosing <:+ response.body_) ∧
    (¬ "query?terms=".toList <:+: req.uri_ →
      ProcessRequest ext req base_dir indices =
        some (queryResponse (kThreegleStr ++ kClosing))) ∧
    ("query?terms=".toList <:+: req.uri_ →
      ∀ response, ProcessRequest ext req base_dir indices = some response →
        ∃ (query_processor : hw3.QueryProcessor) (results : List hw3.QueryResult)
          (section_ : List Char),
          hw3.QueryProcessor.new ext.FileIndexReader indices false = some query_processor ∧
          query_processor.ProcessQuery ext.lt
            (ProcessQueryRequest.query_terms
              (argsLookup (ext.args req.uri_) "terms".toList)).2 = some results ∧
          AppendSearchResults ext.EscapeHtml (HttpResponse.new.AppendToBody kThreegleStr)
            (ProcessQueryRequest.query_terms
              (argsLookup (ext.args req.uri_) "terms".toList)).1 results =
            some ((HttpResponse.new.AppendToBody kThreegleStr).AppendToBody section_) ∧
          section_ ≠ [] ∧
          response.body_ = kThreegleStr ++ section_ ++ kClosing) := by
  rw [ProcessRequest_query ext req base_dir indices hquery]
  refine ⟨fun response h => ?_, fun hno => ?_, fun hyes response h => ?_⟩
  · rcases ProcessQueryRequest_some h with ⟨_, rfl⟩ | ⟨_, _, _, section_, _, _, _, _, rfl⟩
    · exact ⟨⟨kClosing, rfl⟩, ⟨kThreegleStr, rfl⟩⟩
    · exact ⟨⟨section_ ++ kClosing, by simp [queryResponse]⟩,
        ⟨kThreegleStr ++ section_, by simp [queryResponse]⟩⟩
  · cases hf : find "query?terms=".toList req.uri_ with
    | none => exact ProcessQueryRequest_landing hf ext indices
    | some pos => exact absurd (infix_of_find_some hf) hno
  · rcases ProcessQueryRequest_some h with ⟨hno, _⟩ | ⟨_, qp, results, section_, h1, h2, h3, h4, h5⟩
    · exact absurd hyes hno
    · exact ⟨qp, results, section_, h1, h2, h3, h4, by rw [h5]; rfl⟩

set_option maxRecDepth 20000 in
/-- Witness of C21: the path `/` gives the landing page and the closing
markup; the path `/query?terms=t2` gives them with a result section. -/
theorem ProcessRequest_query_page_witness :
    ProcessRequest exampleDocsCollaborators (HttpRequest.mk "/".toList []) []
        ["idx".toList] =
      some (queryResponse (kThreegleStr ++ kClosing)) ∧
    ProcessRequest exampleDocsCollaborators (HttpRequest.mk "/query?terms=t2".toList []) []
        ["idx".toList] =
      some (queryResponse (kThreegleStr ++
        ("<p><br>\r\n1 result found for <b>t2</b><p>\r\n\r\n<ul>\r\n".toList ++
          "<li>\n<a href=\"http://b.org/\">http://b.org/</a> [2]<br>\n</li>\n".toList ++
          "</ul>\r\n".toList) ++ kClosing)) :=
  ⟨(ProcessRequest_query_page exampleDocsCollaborators (HttpRequest.mk "/".toList []) []
      ["idx".toList] (by decide)).2.1 (by decide),
    by decide⟩

set_option maxRecDepth 20000 in
/-- C22 on a name of fewer than 12 characters: the results `a.txt` and
`http://b.org/` give no rendering at all, since `substr(12)` throws for
`a.txt`; with the name `../projdocs/a.txt` the two entries are written, the
first with the link `/static/a.txt`. -/
theorem AppendSearchResults_short_name :
    AppendSearchResults exampleCollaborators.EscapeHtml HttpResponse.new "t".toList
        [⟨"a.txt".toList, 3⟩, ⟨"http://b.org/".toList, 1⟩] = none ∧
    AppendSearchResults exampleCollaborators.EscapeHtml HttpResponse.new "t".toList
        [⟨"../projdocs/a.txt".toList, 3⟩, ⟨"http://b.org/".toList, 1⟩] =
      some (HttpResponse.new.AppendToBody
        ("<p><br>\r\n2 results found for <b>t</b><p>\r\n\r\n<ul>\r\n".toList ++
          "<li>\n<a href=\"/static/a.txt\">a.txt</a> [3]<br>\n</li>\n".toList ++
          "<li>\n<a href=\"http://b.org/\">http://b.org/</a> [1]<br>\n</li>\n".toList ++
          "</ul>\r\n".toList)) ∧
    AppendSearchResults exampleCollaborators.EscapeHtml HttpResponse.new "t".toList [] =
      some (HttpResponse.new.AppendToBody
        "<p><br>\r\nNo results found for <b>t</b><p>\r\n\r\n".toList) := by
  decide

set_option maxRecDepth 20000 in
/-- C23 on an index whose documents are named `A` and `B`: the query `t1`
matches them, `substr(12)` throws for the name, and the route returns no
response; with names under `../projdocs/` the response has the code 200. -/
theorem ProcessQueryRequest_short_name :
    ProcessQueryRequest exampleCollaborators "/query?terms=t1".toList ["idx".toList] = none ∧
    (ProcessQueryRequest exampleDocsCollaborators "/query?terms=t1".toList
      ["idx".toList]).map (fun response => response.response_code_) = some 200 := by
  decide

/-- C24: every response that `ProcessRequest` returns has the code 200 or
404, and the code 404 comes from the static route for a file that is not
read. -/
theorem ProcessRequest_code (ext : Collaborators) (req : HttpRequest)
    (base_dir : List Char) (indices : List (List Char)) (response : HttpResponse)
    (h : ProcessRequest ext req base_dir indices = some response) :
    response.response_code_ = 200 ∨
      (response.response_code_ = 404 ∧ req.uri_.take 8 = "/static/".toList ∧
        ext.ReadFile base_dir ((ext.path req.uri_).drop 8) = none) := by
  by_cases hstatic : req.uri_.take 8 = "/static/".toList
  · rw [ProcessRequest_static ext req base_dir indices hstatic] at h
    injection h with h
    subst h
    unfold ProcessFileRequest
    simp only [file_name_eq]
    cases hread : ext.ReadFile base_dir ((ext.path req.uri_).drop 8) with
    | none => exact Or.inr ⟨rfl, hstatic, rfl⟩
    | some content => exact Or.inl rfl
  · rw [ProcessRequest_query ext req base_dir indices hstatic] at h
    rcases ProcessQueryRequest_some h with ⟨_, rfl⟩ | ⟨_, _, _, _, _, _, _, _, rfl⟩
    · exact Or.inl rfl
    · exact Or.inl rfl

set_option maxRecDepth 20000 in
/-- Witness of C24: the landing page has the code 200 and a missing file the
code 404. -/
theorem ProcessRequest_code_witness :
    (queryResponse (kThreegleStr ++ kClosing)).response_code_ = 200 ∨
      ((queryResponse (kThreegleStr ++ kClosing)).response_code_ = 404 ∧
        "/".toList.take 8 = "/static/".toList ∧
        exampleCollaborators.ReadFile [] ((exampleCollaborators.path "/".toList).drop 8) =
          none) :=
  ProcessRequest_code exampleCollaborators (HttpRequest.mk "/".toList []) [] []
    (queryResponse (kThreegleStr ++ kClosing)) (by decide)

end hw4

namespace hw3

/-- C25: `ProcessQuery` on an empty term list ends in the failed
`Verify333` (it returns nothing), and on a term list that is not empty it
returns a list of results, which can be empty. -/
theorem ProcessQuery_precondition (lt : QueryResult → QueryResult → Bool)
    (self : QueryProcessor) (query : List (List Char)) :
    self.ProcessQuery lt [] = none ∧
    (query ≠ [] → ∃ results, self.ProcessQuery lt query = some results) :=
  ⟨rfl, fun h => ⟨_, ProcessQuery_eq lt self h⟩⟩

/-- Witness of C25: a term that the shard does not know gives the empty
list of results. -/
theorem ProcessQuery_precondition_witness :
    QueryProcessor.ProcessQuery QueryResult.lt
      (QueryProcessor.mk [(exampleIndex, exampleDocs)]) [['z']] = some [] ∧
    ∃ results, QueryProcessor.ProcessQuery QueryResult.lt
      (QueryProcessor.mk [(exampleIndex, exampleDocs)]) [['z']] = some results :=
  ⟨by decide,
    (ProcessQuery_precondition QueryResult.lt (QueryProcessor.mk [(exampleIndex, exampleDocs)])
      [['z']]).2 (by decide)⟩

end hw3

/-! # Theorems about the listening socket and the determinism of queries -/

namespace hw4

theorem BindAndListen_loop_failed (sock_family_ : Int) (later : List addrinfo) :
    ∀ failed : List addrinfo, (∀ rp ∈ failed, ¬ rp.binds) →
      BindAndListen.loop sock_family_ (failed ++ later) =
        ((BindAndListen.loop sock_family_ later).1, (BindAndListen.loop sock_family_ later).2.1,
          (failed.map addrinfo.failedCalls).flatten ++
            (BindAndListen.loop sock_family_ later).2.2)
  | [], _ => rfl
  | rp :: failed, h => by
    have ih := BindAndListen_loop_failed sock_family_ later failed
      (fun r hr => h r (List.mem_cons_of_mem _ hr))
    have hrp := h rp (List.mem_cons_self _ _)
    rw [List.cons_append, BindAndListen.loop]
    by_cases h1 : rp.ret_fd = -1
    · simp only [h1, if_true, ih, List.map_cons, List.flatten_cons, addrinfo.failedCalls,
        List.nil_append]
    · by_cases h2 : rp.set_sockopt_res ≠ 0
      · simp only [h1, if_false, h2, if_true, ih, List.map_cons, List.flatten_cons,
          addrinfo.failedCalls, List.cons_append, List.nil_append, ne_eq, not_false_eq_true]
      · have h3 : ¬ rp.bind_res = 0 := fun hb => hrp ⟨h1, not_not.1 h2, hb⟩
        simp only [h1, if_false, h2, h3, ih, List.map_cons, List.flatten_cons,
          addrinfo.failedCalls, List.cons_append, List.nil_append]

theorem BindAndListen_loop_winner (sock_family_ : Int) {winner : addrinfo}
    (h : winner.binds) (rest : List addrinfo) :
    BindAndListen.loop sock_family_ (winner :: rest) =
      (winner.ret_fd, winner.ai_family, [SocketCall.socket winner.ret_fd]) := by
  rw [BindAndListen.loop]
  simp only [h.1, if_false, h.2.1, ne_eq, not_true_eq_false, h.2.2, if_true]

theorem BindAndListen_loop_none (sock_family_ : Int) (result : List addrinfo)
    (h : ∀ rp ∈ result, ¬ rp.binds) :
    BindAndListen.loop sock_family_ result =
      (-1, sock_family_, (result.map addrinfo.failedCalls).flatten) := by
  have := BindAndListen_loop_failed sock_family_ [] result h
  simpa [BindAndListen.loop] using this

theorem openSockets_append (calls more : List SocketCall) :
    openSockets (calls ++ more) =
      more.foldl (fun opened call =>
        match call with
        | SocketCall.socket fd => fd :: opened
        | SocketCall.close fd => opened.erase fd) (openSockets calls) := by
  unfold openSockets
  rw [List.foldl_append]

theorem openSockets_failed :
    ∀ (failed : List addrinfo) (calls : List SocketCall), openSockets calls = [] →
      openSockets (calls ++ (failed.map addrinfo.failedCalls).flatten) = []
  | [], calls, h => by simpa using h
  | rp :: failed, calls, h => by
    rw [List.map_cons, List.flatten_cons, ← List.append_assoc]
    apply openSockets_failed failed
    rw [openSockets_append, h]
    unfold addrinfo.failedCalls
    by_cases h1 : rp.ret_fd = -1
    · rw [if_pos h1]; rfl
    · rw [if_neg h1]
      simp

/-- The candidates all fail, or there is a first one that binds. -/
theorem candidates_cases (result : List addrinfo) :
    (∀ rp ∈ result, ¬ rp.binds) ∨
    ∃ failed winner rest, result = failed ++ winner :: rest ∧
      (∀ rp ∈ failed, ¬ rp.binds) ∧ winner.binds := by
  induction result with
  | nil => exact Or.inl (fun _ h => absurd h (List.not_mem_nil _))
  | cons rp result ih =>
    by_cases hrp : rp.binds
    · exact Or.inr ⟨[], rp, result, rfl, fun _ h => absurd h (List.not_mem_nil _), hrp⟩
    · rcases ih with hall | ⟨failed, winner, rest, hres, hfailed, hwin⟩
      · left
        intro r hr
        rcases List.mem_cons.1 hr with rfl | hr
        · exact hrp
        · exact hall r hr
      · refine Or.inr ⟨rp :: failed, winner, rest, by rw [hres]; rfl, ?_, hwin⟩
        intro r hr
        rcases List.mem_cons.1 hr with rfl | hr
        · exact hrp
        · exact hfailed r hr

theorem BindAndListen_run {self : ServerSocket} {ai_family : Int}
    (hfamily : ai_family = AF_INET ∨ ai_family = AF_INET6 ∨ ai_family = AF_UNSPEC)
    (result : List addrinfo) (listen_res : Int) :
    self.BindAndListen ai_family 0 result listen_res =
      if (BindAndListen.loop self.sock_family_ result).1 = -1 then
        (none, { self with sock_family_ := (BindAndListen.loop self.sock_family_ result).2.1 },
          (BindAndListen.loop self.sock_family_ result).2.2)
      else if listen_res ≠ 0 then
        (none, { self with sock_family_ := (BindAndListen.loop self.sock_family_ result).2.1 },
          (BindAndListen.loop self.sock_family_ result).2.2 ++
            [SocketCall.close (BindAndListen.loop self.sock_family_ result).1])
      else
        (some (BindAndListen.loop self.sock_family_ result).1,
          { self with
            sock_family_ := (BindAndListen.loop self.sock_family_ result).2.1
            listen_sock_fd_ := (BindAndListen.loop self.sock_family_ result).1 },
          (BindAndListen.loop self.sock_family_ result).2.2) := by
  unfold ServerSocket.BindAndListen
  have h1 : ¬ (ai_family ≠ AF_INET ∧ ai_family ≠ AF_INET6 ∧ ai_family ≠ AF_UNSPEC) := by
    rintro ⟨a, b, c⟩
    rcases hfamily with h | h | h
    · exact a h
    · exact b h
    · exact c h
  rw [if_neg h1, if_neg (by simp)]

/-- C26: `BindAndListen` fails without a call for a family other than v4,
v6 and unspecified. Otherwise, when `getaddrinfo` succeeds, it tries the
candidates in their order: the candidates before the first one that binds
have their socket closed right after their failure, that first one gives the
listening socket, and no later candidate is tried; the method returns its
descriptor when `listen` succeeds, and closes it and fails when `listen`
fails. When no candidate binds it fails. After every failure no socket is
left open. -/
theorem BindAndListen_first_candidate (self : ServerSocket) (ai_family : Int)
    (result : List addrinfo) (listen_res : Int) :
    ((ai_family ≠ AF_INET ∧ ai_family ≠ AF_INET6 ∧ ai_family ≠ AF_UNSPEC) →
      ∀ get_addr_info_res,
        self.BindAndListen ai_family get_addr_info_res result listen_res = (none, self, [])) ∧
    ((ai_family = AF_INET ∨ ai_family = AF_INET6 ∨ ai_family = AF_UNSPEC) →
      (∀ failed winner rest, result = failed ++ winner :: rest →
        (∀ rp ∈ failed, ¬ rp.binds) → winner.binds →
        (listen_res = 0 →
          self.BindAndListen ai_family 0 result listen_res =
            (some winner.ret_fd,
              { self with sock_family_ := winner.ai_family, listen_sock_fd_ := winner.ret_fd },
              (failed.map addrinfo.failedCalls).flatten ++
                [SocketCall.socket winner.ret_fd])) ∧
        (listen_res ≠ 0 →
          self.BindAndListen ai_family 0 result listen_res =
            (none, { self with sock_family_ := winner.ai_family },
              (failed.map addrinfo.failedCalls).flatten ++
                [SocketCall.socket winner.ret_fd, SocketCall.close winner.ret_fd]))) ∧
      ((∀ rp ∈ result, ¬ rp.binds) →
        self.BindAndListen ai_family 0 result listen_res =
          (none, self, (result.map addrinfo.failedCalls).flatten))) ∧
    (∀ get_addr_info_res,
      (self.BindAndListen ai_family get_addr_info_res result listen_res).1 = none →
      openSockets (self.BindAndListen ai_family get_addr_info_res result listen_res).2.2 =
        []) := by
  have hwin : ∀ failed winner rest, result = failed ++ winner :: rest →
      (∀ rp ∈ failed, ¬ rp.binds) → winner.binds →
      BindAndListen.loop self.sock_family_ result =
        (winner.ret_fd, winner.ai_family,
          (failed.map addrinfo.failedCalls).flatten ++ [SocketCall.socket winner.ret_fd]) := by
    intro failed winner rest hres hfailed hw
    rw [hres, BindAndListen_loop_failed _ _ failed hfailed, BindAndListen_loop_winner _ hw]
  refine ⟨fun hbad get_addr_info_res => ?_, fun hfamily => ⟨?_, ?_⟩, fun get_addr_info_res => ?_⟩
  · unfold ServerSocket.BindAndListen
    rw [if_pos hbad]
  · intro failed winner rest hres hfailed hw
    have hrun := hwin failed winner rest hres hfailed hw
    rw [BindAndListen_run hfamily, hrun]
    refine ⟨fun hl => ?_, fun hl => ?_⟩
    · simp only [if_neg hw.1, hl, ne_eq, not_true_eq_false, if_false]
    · simp only [if_neg hw.1, hl, ne_eq, not_false_eq_true, if_true, List.append_assoc,
        List.singleton_append]
  · intro hnone
    rw [BindAndListen_run hfamily, BindAndListen_loop_none _ _ hnone]
    simp only [if_true]
  · intro hfail
    by_cases hbad : ai_family ≠ AF_INET ∧ ai_family ≠ AF_INET6 ∧ ai_family ≠ AF_UNSPEC
    · unfold ServerSocket.BindAndListen
      rw [if_pos hbad]
      rfl
    · by_cases hres : get_addr_info_res ≠ 0
      · unfold ServerSocket.BindAndListen
        rw [if_neg hbad, if_pos hres]
        rfl
      · have hfamily : ai_family = AF_INET ∨ ai_family = AF_INET6 ∨ ai_family = AF_UNSPEC := by
          by_contra hc
          exact hbad ⟨fun h => hc (Or.inl h), fun h => hc (Or.inr (Or.inl h)),
            fun h => hc (Or.inr (Or.inr h))⟩
        have hzero : get_addr_info_res = 0 := not_not.1 hres
        subst hzero
        rcases candidates_cases result with hnone | ⟨failed, winner, rest, hr, hfailed, hw⟩
        · rw [BindAndListen_run hfamily, BindAndListen_loop_none _ _ hnone]
          simp only [if_true]
          simpa using openSockets_failed result [] rfl
        · have hrun := hwin failed winner rest hr hfailed hw
          rw [BindAndListen_run hfamily, hrun] at hfail ⊢
          by_cases hl : listen_res = 0
          · simp [if_neg hw.1, hl] at hfail
          · simp only [if_neg hw.1, hl, ne_eq, not_false_eq_true, if_true]
            have hf : openSockets (failed.map addrinfo.failedCalls).flatten = [] := by
              simpa using openSockets_failed failed [] rfl
            rw [openSockets_append, openSockets_append, hf]
            simp

/-- Witness of C26: of four candidates the first two fail and the third
binds; its descriptor 5 is the listening socket, the descriptor 4 of the
second has been closed, and the fourth is not tried. -/
theorem BindAndListen_first_candidate_witness :
    (ServerSocket.mk 8080 (-1) 0).BindAndListen AF_INET6 0 exampleCandidates 0 =
      (some 5, ServerSocket.mk 8080 5 2,
        [SocketCall.socket 4, SocketCall.close 4, SocketCall.socket 5]) ∧
    (ServerSocket.mk 8080 (-1) 0).BindAndListen AF_INET6 0 exampleCandidates (-1) =
      (none, ServerSocket.mk 8080 (-1) 2,
        [SocketCall.socket 4, SocketCall.close 4, SocketCall.socket 5,
          SocketCall.close 5]) ∧
    (ServerSocket.mk 8080 (-1) 0).BindAndListen 1 0 exampleCandidates 0 =
      (none, ServerSocket.mk 8080 (-1) 0, []) :=
  ⟨(((BindAndListen_first_candidate (ServerSocket.mk 8080 (-1) 0) AF_INET6 exampleCandidates
      0).2.1 (by decide)).1 [addrinfo.mk 10 (-1) 0 0, addrinfo.mk 10 4 0 (-1)]
      (addrinfo.mk 2 5 0 0) [addrinfo.mk 2 6 0 0] rfl (by decide) (by decide)).1 rfl,
    by decide,
    (BindAndListen_first_candidate (ServerSocket.mk 8080 (-1) 0) 1 exampleCandidates 0).1
      (by decide) 0⟩

end hw4

namespace hw4

theorem Accept_loop_retries (later : List AcceptOutcome) :
    ∀ retries : List AcceptOutcome, (∀ call ∈ retries, call.retry) →
      Accept.loop (retries ++ later) = Accept.loop later
  | [], _ => rfl
  | call :: retries, h => by
    have hcall := h call (List.mem_cons_self _ _)
    rw [List.cons_append, Accept.loop, if_neg (not_le.2 hcall.1), if_pos hcall.2]
    exact Accept_loop_retries later retries (fun r hr => h r (List.mem_cons_of_mem _ hr))

theorem GetSocketInfo_some {server_addr : sockaddr} (h : server_addr.supported)
    (getnameinfo : Option (List Char)) :
    GetSocketInfo (some server_addr) getnameinfo =
      some (server_addr.ip, nameOrUnknown getnameinfo) := by
  unfold GetSocketInfo
  simp only
  rw [if_pos (show server_addr.sa_family = AF_INET ∨ server_addr.sa_family = AF_INET6 from h)]
  cases getnameinfo <;> rfl

theorem GetSocketInfo_none {getsockname : Option sockaddr}
    (h : ¬ ∃ server_addr, getsockname = some server_addr ∧ server_addr.supported)
    (getnameinfo : Option (List Char)) :
    GetSocketInfo getsockname getnameinfo = none := by
  unfold GetSocketInfo
  cases getsockname with
  | none => rfl
  | some server_addr =>
    simp only
    rw [if_neg (show ¬ (server_addr.sa_family = AF_INET ∨ server_addr.sa_family = AF_INET6)
      from fun hs => h ⟨server_addr, rfl, hs⟩)]

/-- Counterexample of C27: `accept` succeeds with the descriptor 7 for a v4
peer, and `getsockname` fails for the accepted socket: `Accept` closes the
socket and returns failure, and no peer address and port. -/
theorem Accept_fails_after_accept :
    0 ≤ exampleNoSockname.client_fd ∧ exampleNoSockname.client_addr.supported ∧
    ServerSocket.Accept [exampleNoSockname] = some (none, [SocketCall.close 7], []) := by
  decide

/-- C27, amended: `Accept` calls `accept` again as long as the call fails
with `EINTR` or `EAGAIN`, and does not return while all calls do. At the
first call of another outcome: a failure makes it return failure; a success
makes it return the descriptor with the address and the port of the peer,
when the family of the peer is v4 or v6 and `getsockname` gives a local
address of family v4 or v6, where the name of the peer and the name of the
local address are `<unknown>` when their lookup fails; any other success
makes it close the accepted socket and return failure. -/
theorem Accept_retries_then_decides (retries : List AcceptOutcome) (call : AcceptOutcome)
    (rest : List AcceptOutcome) (hretries : ∀ r ∈ retries, r.retry) :
    ServerSocket.Accept retries = none ∧
    (call.client_fd < 0 → call.errno ≠ EAGAIN → call.errno ≠ EINTR →
      ServerSocket.Accept (retries ++ call :: rest) = some (none, [], rest)) ∧
    (0 ≤ call.client_fd → call.client_addr.supported →
      ∀ server_addr, call.server_addr = some server_addr → server_addr.supported →
      ServerSocket.Accept (retries ++ call :: rest) =
        some (some (Accepted.mk call.client_fd call.client_addr.ip call.client_addr.port
          (nameOrUnknown call.client_hostname) server_addr.ip
          (nameOrUnknown call.server_hostname)), [], rest)) ∧
    (0 ≤ call.client_fd →
      ¬ (call.client_addr.supported ∧
        ∃ server_addr, call.server_addr = some server_addr ∧ server_addr.supported) →
      ServerSocket.Accept (retries ++ call :: rest) =
        some (none, [SocketCall.close call.client_fd], rest)) := by
  refine ⟨?_, ?_, ?_, ?_⟩
  · have h := Accept_loop_retries [] retries hretries
    rw [List.append_nil] at h
    unfold ServerSocket.Accept
    rw [h]
    rfl
  · intro hfd h1 h2
    unfold ServerSocket.Accept
    rw [Accept_loop_retries _ retries hretries, Accept.loop, if_neg (not_le.2 hfd),
      if_neg (by rintro (h | h); exacts [h1 h, h2 h])]
  · intro hfd hpeer server_addr hserver hfamily
    unfold ServerSocket.Accept
    rw [Accept_loop_retries _ retries hretries, Accept.loop, if_pos hfd]
    simp only
    rw [if_pos (show call.client_addr.sa_family = AF_INET ∨
      call.client_addr.sa_family = AF_INET6 from hpeer), hserver, GetSocketInfo_some hfamily]
    cases call.client_hostname <;> rfl
  · intro hfd hno
    unfold ServerSocket.Accept
    rw [Accept_loop_retries _ retries hretries, Accept.loop, if_pos hfd]
    simp only
    by_cases hpeer : call.client_addr.supported
    · rw [if_pos (show call.client_addr.sa_family = AF_INET ∨
        call.client_addr.sa_family = AF_INET6 from hpeer),
        GetSocketInfo_none (fun hs => hno ⟨hpeer, hs⟩)]
    · rw [if_neg (show ¬ (call.client_addr.sa_family = AF_INET ∨
        call.client_addr.sa_family = AF_INET6) from hpeer)]

/-- Witness of C27: after an interrupted call, `accept` returns the
descriptor 7 for a v4 peer whose name lookup fails: `Accept` returns the
address and the port of the peer, with the name `<unknown>`. -/
theorem Accept_retries_then_decides_witness :
    (∀ r ∈ [exampleInterrupted], r.retry) ∧ exampleAccepted.client_addr.supported ∧
    ServerSocket.Accept ([exampleInterrupted] ++ exampleAccepted :: []) =
      some (some (Accepted.mk 7 "10.0.0.9".toList 4242 "<unknown>".toList "10.0.0.1".toList
        "server".toList), [], []) :=
  ⟨by decide, by decide,
    (Accept_retries_then_decides [exampleInterrupted] exampleAccepted [] (by decide)).2.2.1
      (by decide) (by decide) (sockaddr.mk 2 "10.0.0.1".toList 8080) rfl (by decide)⟩

end hw4

namespace hw3

theorem MultiTermIntersection_loop_congr (a b : IndexTableReader) :
    ∀ (rest : List (List Char)) (matching_docs : List DocIDElementHeader),
      (∀ term ∈ rest, (a.LookupWord term).map (fun reader => reader.GetDocIDList) =
        (b.LookupWord term).map (fun reader => reader.GetDocIDList)) →
      MultiTermIntersection.loop a rest matching_docs =
        MultiTermIntersection.loop b rest matching_docs
  | [], _, _ => rfl
  | term :: rest, matching_docs, h => by
    have hterm := h term (List.mem_cons_self _ _)
    have hrest := fun (m : List DocIDElementHeader) =>
      MultiTermIntersection_loop_congr a b rest m
        (fun t ht => h t (List.mem_cons_of_mem _ ht))
    unfold MultiTermIntersection.loop
    cases ha : a.LookupWord term with
    | none =>
      cases hb : b.LookupWord term with
      | none => rfl
      | some rb => rw [ha, hb] at hterm; cases hterm
    | some ra =>
      cases hb : b.LookupWord term with
      | none => rw [ha, hb] at hterm; cases hterm
      | some rb =>
        rw [ha, hb] at hterm
        simp only [Option.map_some', Option.some.injEq] at hterm
        simp only [hterm]
        rw [hrest]

theorem MultiTermIntersection_congr (a b : IndexTableReader) (query : List (List Char))
    (h : ∀ term ∈ query, (a.LookupWord term).map (fun reader => reader.GetDocIDList) =
      (b.LookupWord term).map (fun reader => reader.GetDocIDList)) :
    MultiTermIntersection query a = MultiTermIntersection query b := by
  cases query with
  | nil => rfl
  | cons first rest =>
    have hfirst := h first (List.mem_cons_self _ _)
    cases ha : a.LookupWord first with
    | none =>
      cases hb : b.LookupWord first with
      | none =>
        rw [MultiTermIntersection_cons_none ha, MultiTermIntersection_cons_none hb]
      | some rb => rw [ha, hb] at hfirst; cases hfirst
    | some ra =>
      cases hb : b.LookupWord first with
      | none => rw [ha, hb] at hfirst; cases hfirst
      | some rb =>
        rw [ha, hb] at hfirst
        simp only [Option.map_some', Option.some.injEq] at hfirst
        rw [MultiTermIntersection_cons_some ha, MultiTermIntersection_cons_some hb,
          postings_of_lookup ha, postings_of_lookup hb, hfirst]
        exact MultiTermIntersection_loop_congr a b rest _
          (fun t ht => h t (List.mem_cons_of_mem _ ht))

theorem AddMatchingDocuments_congr (a b : DocTableReader) :
    ∀ (matching_docs : List DocIDElementHeader) (results : List QueryResult),
      (∀ doc ∈ matching_docs, a.LookupDocID doc.doc_id = b.LookupDocID doc.doc_id) →
      AddMatchingDocuments matching_docs a results =
        AddMatchingDocuments matching_docs b results
  | [], _, _ => rfl
  | doc :: rest, results, h => by
    have hdoc := h doc (List.mem_cons_self _ _)
    have hrest := fun (r : List QueryResult) =>
      AddMatchingDocuments_congr a b rest r (fun d hd => h d (List.mem_cons_of_mem _ hd))
    unfold AddMatchingDocuments
    rw [hdoc]
    cases b.LookupDocID doc.doc_id with
    | none => exact hrest results
    | some document_name => exact hrest _

theorem ProcessQuery_loop_congr (query : List (List Char)) :
    ∀ (readers readers' : List (IndexTableReader × DocTableReader))
      (final_result : List QueryResult),
      List.Forall₂
        (fun a b =>
          (∀ term ∈ query, (a.1.LookupWord term).map (fun reader => reader.GetDocIDList) =
            (b.1.LookupWord term).map (fun reader => reader.GetDocIDList)) ∧
          (∀ doc ∈ MultiTermIntersection query a.1,
            a.2.LookupDocID doc.doc_id = b.2.LookupDocID doc.doc_id))
        readers readers' →
      ProcessQuery.loop query readers final_result =
        ProcessQuery.loop query readers' final_result
  | [], [], _, _ => rfl
  | [], _ :: _, _, h => by cases h
  | _ :: _, [], _, h => by cases h
  | (ia, da) :: readers, (ib, db) :: readers', final_result, h => by
    rw [List.forall₂_cons] at h
    obtain ⟨⟨hword, hdoc⟩, hrest⟩ := h
    unfold ProcessQuery.loop
    simp only
    simp only at hword hdoc
    rw [← MultiTermIntersection_congr ia ib query hword,
      AddMatchingDocuments_congr da db _ final_result hdoc]
    exact ProcessQuery_loop_congr query readers readers' _ hrest

/-- C28: the list that `ProcessQuery` returns depends on the readers only
through the lookups that it makes: `LookupWord` for the terms of the query
(with `GetDocIDList` on the reader returned) and `LookupDocID` for the
documents that match in the shard. Two processors whose readers, shard by
shard, answer these lookups identically return for the same terms the same
list, element for element and in the same order (and both abort on the empty
term list), whatever the readers answer to other lookups; so do readers that
answer every lookup identically. -/
theorem ProcessQuery_deterministic (lt : QueryResult → QueryResult → Bool)
    (self other : QueryProcessor) (query : List (List Char))
    (hsame : List.Forall₂
      (fun a b =>
        (∀ term ∈ query, (a.1.LookupWord term).map (fun reader => reader.GetDocIDList) =
          (b.1.LookupWord term).map (fun reader => reader.GetDocIDList)) ∧
        (∀ doc ∈ MultiTermIntersection query a.1,
          a.2.LookupDocID doc.doc_id = b.2.LookupDocID doc.doc_id))
      self.readers other.readers) :
    self.ProcessQuery lt query = other.ProcessQuery lt query := by
  unfold QueryProcessor.ProcessQuery
  rw [ProcessQuery_loop_congr query self.readers other.readers [] hsame]

/-- Witness of C28: for the terms `t1 t2`, whose only matching document is
document 2, a processor over `exampleIndex` and `exampleDocs` and one over
readers that differ from them on other terms and other documents both
return the document `B` with the rank 3. -/
theorem ProcessQuery_deterministic_witness :
    (exampleIndex.LookupWord "t".toList).isSome = true ∧
    (exampleOtherIndex.LookupWord "t".toList).isSome = false ∧
    exampleDocs.LookupDocID 1 ≠ exampleOtherDocs.LookupDocID 1 ∧
    (QueryProcessor.mk [(exampleIndex, exampleDocs)]).ProcessQuery QueryResult.lt
        ["t1".toList, "t2".toList] = some [⟨"B".toList, 3⟩] ∧
    (QueryProcessor.mk [(exampleIndex, exampleDocs)]).ProcessQuery QueryResult.lt
        ["t1".toList, "t2".toList] =
      (QueryProcessor.mk [(exampleOtherIndex, exampleOtherDocs)]).ProcessQuery QueryResult.lt
        ["t1".toList, "t2".toList] :=
  ⟨by decide, by decide, by decide, by decide,
    ProcessQuery_deterministic QueryResult.lt
      (QueryProcessor.mk [(exampleIndex, exampleDocs)])
      (QueryProcessor.mk [(exampleOtherIndex, exampleOtherDocs)])
      ["t1".toList, "t2".toList]
      (List.Forall₂.cons ⟨by decide, by decide⟩ List.Forall₂.nil)⟩

end hw3

/-! # Theorems about the linked list -/

namespace hw1

theorem firstAddr_append (xs ys : List (Nat × LLPayload_t)) (otherwise : Option Nat) :
    firstAddr (xs ++ ys) otherwise = firstAddr xs (firstAddr ys otherwise) := by
  cases xs with
  | nil => rfl
  | cons x xs => rfl

theorem lastAddr_append :
    ∀ (xs ys : List (Nat × LLPayload_t)) (otherwise : Option Nat),
      lastAddr (xs ++ ys) otherwise = lastAddr ys (lastAddr xs otherwise)
  | [], _, _ => rfl
  | (_, _) :: xs, ys, _ => by
    rw [List.cons_append, lastAddr, lastAddr, lastAddr_append xs ys]

theorem lastAddr_mem :
    ∀ (xs : List (Nat × LLPayload_t)) (otherwise : Option Nat), xs ≠ [] →
      ∃ l, lastAddr xs otherwise = some l ∧ l ∈ xs.map Prod.fst
  | [], _, h => absurd rfl h
  | [(a, _)], _, _ => ⟨a, rfl, by simp⟩
  | (a, _) :: (b, y) :: rest, _, _ => by
    obtain ⟨l, hl, hmem⟩ := lastAddr_mem ((b, y) :: rest) (some a) (List.cons_ne_nil _ _)
    exact ⟨l, by rw [lastAddr]; exact hl, List.mem_cons_of_mem _ hmem⟩

theorem IsSegment_append (nodes : Nat → Option LinkedListNode) :
    ∀ (xs ys : List (Nat × LLPayload_t)) (prev next : Option Nat),
      IsSegment nodes prev next (xs ++ ys) ↔
        IsSegment nodes prev (firstAddr ys next) xs ∧ IsSegment nodes (lastAddr xs prev) next ys
  | [], ys, prev, next => by simp [IsSegment, lastAddr]
  | (a, x) :: xs, ys, prev, next => by
    rw [List.cons_append, IsSegment, IsSegment, IsSegment_append nodes xs ys (some a) next,
      firstAddr_append, lastAddr, and_assoc]

theorem IsSegment_congr {nodes nodes' : Nat → Option LinkedListNode} :
    ∀ (cells : List (Nat × LLPayload_t)) (prev next : Option Nat),
      (∀ a ∈ cells.map Prod.fst, nodes' a = nodes a) →
      IsSegment nodes prev next cells → IsSegment nodes' prev next cells
  | [], _, _, _, _ => trivial
  | (a, x) :: cells, prev, next, hsame, h => by
    rw [IsSegment] at h ⊢
    refine ⟨by rw [hsame a (by simp)]; exact h.1, ?_⟩
    exact IsSegment_congr cells (some a) next
      (fun b hb => hsame b (List.mem_cons_of_mem _ hb)) h.2

theorem IsSegment_setPrev_first {nodes : Nat → Option LinkedListNode} {q : Nat}
    {y : LLPayload_t} {rest : List (Nat × LLPayload_t)} {prev next : Option Nat}
    (h : IsSegment nodes prev next ((q, y) :: rest)) (hq : q ∉ rest.map Prod.fst)
    (prev' : Option Nat) :
    ∃ node, nodes q = some node ∧
      IsSegment (fun a => if a = q then some { node with prev := prev' } else nodes a)
        prev' next ((q, y) :: rest) := by
  rw [IsSegment] at h
  refine ⟨_, h.1, ?_⟩
  rw [IsSegment]
  refine ⟨by simp, ?_⟩
  refine IsSegment_congr rest (some q) next (fun b hb => ?_) h.2
  have : b ≠ q := fun e => hq (e ▸ hb)
  simp [this]

theorem IsSegment_setNext_last {nodes : Nat → Option LinkedListNode} (next' : Option Nat) :
    ∀ (xs : List (Nat × LLPayload_t)) (prev next otherwise : Option Nat), xs ≠ [] →
      (xs.map Prod.fst).Nodup → IsSegment nodes prev next xs →
      ∃ l node, lastAddr xs otherwise = some l ∧ l ∈ xs.map Prod.fst ∧ nodes l = some node ∧
        IsSegment (fun a => if a = l then some { node with next := next' } else nodes a)
          prev next' xs
  | [], _, _, _, h, _, _ => absurd rfl h
  | [(a, x)], prev, next, _, _, _, h => by
    rw [IsSegment] at h
    refine ⟨a, _, rfl, by simp, h.1, ?_⟩
    rw [IsSegment]
    exact ⟨by simp [firstAddr], trivial⟩
  | (a, x) :: (b, y) :: rest, prev, next, _, _, hnodup, h => by
    rw [IsSegment] at h
    have hnodup' : (((b, y) :: rest).map Prod.fst).Nodup := (List.nodup_cons.1 hnodup).2
    obtain ⟨l, node, hl, hmem, hnode, hseg⟩ :=
      IsSegment_setNext_last next' ((b, y) :: rest) (some a) next (some a)
        (List.cons_ne_nil _ _) hnodup' h.2
    have hne : a ≠ l := fun e => (List.nodup_cons.1 hnodup).1 (e ▸ hmem)
    refine ⟨l, node, by rw [lastAddr]; exact hl, List.mem_cons_of_mem _ hmem, hnode, ?_⟩
    rw [IsSegment]
    refine ⟨?_, hseg⟩
    simp only [if_neg hne]
    exact h.1

theorem firstAddr_of_ne_nil {xs : List (Nat × LLPayload_t)} (h : xs ≠ [])
    (otherwise otherwise' : Option Nat) : firstAddr xs otherwise = firstAddr xs otherwise' := by
  cases xs with
  | nil => exact absurd rfl h
  | cons x xs => rfl

/-- The effect of `LLIterator_Remove` on a list that holds `before`, the
cell at the cursor and `after`; no node becomes live. -/
theorem LLIterator_Remove_represents (mem : Memory) (list : LinkedList) (iter : LLIterator)
    (before after : List (Nat × LLPayload_t)) (addr : Nat) (payload : LLPayload_t)
    (hlist : Represents mem list (before ++ (addr, payload) :: after))
    (hiter : iter.node = some addr) :
    ∃ mem' list',
      LLIterator_Remove mem list iter =
        some (decide (before ++ after ≠ []), mem', list',
          LLIterator.mk (cursorAfterRemove before after)) ∧
      Represents mem' list' (before ++ after) ∧
      list'.num_elements = list.num_elements - 1 ∧
      mem'.freed = mem.freed ++ [payload] ∧
      mem'.nodes addr = none ∧
      ∀ a, (mem'.nodes a).isSome = true → (mem.nodes a).isSome = true := by
  obtain ⟨hnum, hhead, htail, hnodup, hseg⟩ := hlist
  rw [IsSegment_append] at hseg
  obtain ⟨hbefore, hcur⟩ := hseg
  rw [IsSegment] at hcur
  obtain ⟨hnode, hafter⟩ := hcur
  rw [List.map_append, List.map_cons, List.nodup_append] at hnodup
  obtain ⟨hnb, hna, hdisj⟩ := hnodup
  have haddr_b : addr ∉ before.map Prod.fst := fun h => hdisj h (List.mem_cons_self _ _)
  have haddr_a : addr ∉ after.map Prod.fst := (List.nodup_cons.1 hna).1
  have hna' := (List.nodup_cons.1 hna).2
  have hdisj' : ∀ a ∈ before.map Prod.fst, a ∉ after.map Prod.fst :=
    fun a ha ha' => hdisj ha (List.mem_cons_of_mem _ ha')
  rw [List.length_append, List.length_cons] at hnum
  cases after with
  | nil =>
    by_cases hb : before = []
    · subst hb
      simp only [List.length_nil, Nat.zero_add, Nat.cast_one] at hnum
      simp only [lastAddr, firstAddr] at hnode
      refine ⟨(mem.payload_free_function payload).free addr, LinkedList.mk 0 none none, ?_, ?_,
        ?_, rfl, ?_⟩
      · simp [LLIterator_Remove, hiter, hnode, hnum, cursorAfterRemove, firstAddr, lastAddr]
      · refine ⟨rfl, rfl, rfl, List.nodup_nil, trivial⟩
      · rw [hnum]; rfl
      · refine ⟨by simp [Memory.free], fun a hlive => ?_⟩
        by_cases hat : a = addr
        · simp [Memory.free, hat] at hlive
        · simpa [Memory.free, Memory.payload_free_function, hat] using hlive
    · obtain ⟨l, lnode, hl, hlmem, hlnode, hsegl⟩ :=
        IsSegment_setNext_last none before none _ none hb hnb hbefore
      have hlen : 0 < before.length := List.length_pos.2 hb
      have hgt : 1 < list.num_elements := by rw [hnum]; simp only [List.length_nil]; omega
      have hne1 : list.num_elements ≠ 1 := by omega
      rw [hl] at hnode
      simp only [firstAddr] at hnode
      refine ⟨(Memory.mk (fun a => if a = l then some { lnode with next := none }
          else mem.nodes a) (mem.freed ++ [payload])).free addr,
        LinkedList.mk (list.num_elements - 1) list.head (some l), ?_, ?_, rfl, rfl, ?_⟩
      · simp [LLIterator_Remove, hiter, hnode, hne1, cursorAfterRemove, firstAddr, hl,
          Memory.setNext, Memory.payload_free_function, hlnode, hb, hgt]
      · rw [List.append_nil]
        refine ⟨?_, ?_, hl.symm, hnb, ?_⟩
        · show list.num_elements - 1 = _
          rw [hnum]; simp
        · show list.head = _
          rw [hhead, firstAddr_append]
          exact firstAddr_of_ne_nil hb _ _
        · refine IsSegment_congr before none none (fun a ha => ?_) hsegl
          have : a ≠ addr := fun e => haddr_b (e ▸ ha)
          simp [Memory.free, this]
      · refine ⟨by simp [Memory.free], fun a hlive => ?_⟩
        by_cases hat : a = addr
        · simp [Memory.free, hat] at hlive
        · by_cases hal : a = l
          · subst hal
            rw [hlnode]; rfl
          · simpa [Memory.free, Memory.payload_free_function, hat, hal] using hlive
  | cons c after' =>
    obtain ⟨q, y⟩ := c
    have hq_a : q ∉ after'.map Prod.fst := (List.nodup_cons.1 hna').1
    have hq_ne : q ≠ addr := fun e => haddr_a (by rw [e]; simp)
    simp only [firstAddr] at hnode
    by_cases hb : before = []
    · subst hb
      obtain ⟨qnode, hqnode, hsegq⟩ := IsSegment_setPrev_first hafter hq_a none
      have hgt : 1 < list.num_elements := by
        rw [hnum]; simp only [List.length_nil, List.length_cons]; omega
      have hne1 : list.num_elements ≠ 1 := by omega
      simp only [lastAddr] at hnode
      refine ⟨(Memory.mk (fun a => if a = q then some { qnode with prev := none }
          else mem.nodes a) (mem.freed ++ [payload])).free addr,
        LinkedList.mk (list.num_elements - 1) (some q) list.tail, ?_, ?_, rfl, rfl, ?_⟩
      · simp [LLIterator_Remove, hiter, hnode, hne1, cursorAfterRemove, firstAddr,
          Memory.setPrev, Memory.payload_free_function, hqnode, hgt]
      · refine ⟨?_, rfl, ?_, hna', ?_⟩
        · show list.num_elements - 1 = _
          rw [hnum]; simp
        · show list.tail = _
          rw [htail]
          rfl
        · refine IsSegment_congr _ none none (fun a ha => ?_) hsegq
          have : a ≠ addr := fun e => haddr_a (e ▸ ha)
          simp [Memory.free, this]
      · refine ⟨by simp [Memory.free], fun a hlive => ?_⟩
        by_cases hat : a = addr
        · simp [Memory.free, hat] at hlive
        · by_cases haq : a = q
          · subst haq
            rw [hqnode]; rfl
          · simpa [Memory.free, Memory.payload_free_function, hat, haq] using hlive
    · obtain ⟨l, lnode, hl, hlmem, hlnode, hsegl⟩ :=
        IsSegment_setNext_last (some q) before none _ none hb hnb hbefore
      rw [hl] at hnode
      obtain ⟨qnode, hqnode, hsegq⟩ := IsSegment_setPrev_first hafter hq_a (some l)
      have hgt : 1 < list.num_elements := by
        rw [hnum]; simp only [List.length_cons]; omega
      have hne1 : list.num_elements ≠ 1 := by omega
      have hl_ne : l ≠ addr := fun e => haddr_b (e ▸ hlmem)
      have hq_l : q ≠ l := fun e => hdisj' l hlmem (by rw [← e]; simp)
      refine ⟨(Memory.mk (fun a => if a = q then some { qnode with prev := some l }
          else if a = l then some { lnode with next := some q }
          else mem.nodes a) (mem.freed ++ [payload])).free addr,
        LinkedList.mk (list.num_elements - 1) list.head list.tail, ?_, ?_, rfl, rfl, ?_⟩
      · simp [LLIterator_Remove, hiter, hnode, hne1, cursorAfterRemove, firstAddr,
          Memory.setPrev, Memory.setNext, Memory.payload_free_function, hqnode, hlnode, hgt,
          hl_ne, hq_l, hq_ne, Ne.symm hl_ne, Ne.symm hq_l, Ne.symm hq_ne, hb]
      · refine ⟨?_, ?_, ?_, ?_, ?_⟩
        · show list.num_elements - 1 = _
          rw [hnum]; simp
          omega
        · show list.head = _
          rw [hhead, firstAddr_append, firstAddr_append]
          exact firstAddr_of_ne_nil hb _ _
        · show list.tail = _
          rw [htail, lastAddr_append, lastAddr_append]
          rfl
        · rw [List.map_append, List.nodup_append]
          exact ⟨hnb, hna', fun a ha ha' => hdisj' a ha ha'⟩
        · rw [IsSegment_append]
          refine ⟨?_, ?_⟩
          · refine IsSegment_congr before none _ (fun a ha => ?_) hsegl
            have h1 : a ≠ addr := fun e => haddr_b (e ▸ ha)
            have h2 : a ≠ q := fun e => hdisj' a ha (by rw [e]; simp)
            simp [Memory.free, h1, h2]
          · rw [hl]
            refine IsSegment_congr _ (some l) none (fun a ha => ?_) hsegq
            have h1 : a ≠ addr := fun e => haddr_a (e ▸ ha)
            by_cases h2 : a = q
            · simp [Memory.free, h2, hq_ne]
            · have h3 : a ≠ l := fun e => hdisj' l hlmem (e ▸ ha)
              simp [Memory.free, h1, h2, h3]
      · refine ⟨by simp [Memory.free], fun a hlive => ?_⟩
        by_cases hat : a = addr
        · simp [Memory.free, hat] at hlive
        · by_cases haq : a = q
          · subst haq
            rw [hqnode]; rfl
          · by_cases hal : a = l
            · subst hal
              rw [hlnode]; rfl
            · simpa [Memory.free, Memory.payload_free_function, hat, haq, hal] using hlive

/-- C30: when the list holds the cells `before`, the cell at the cursor and
the cells `after`, `LLIterator_Remove` returns, and afterwards the list
holds `before` followed by `after`, at the same addresses and with the same
payloads; the count is one less; the cursor is on the first cell of `after`,
or on the last cell of `before` when `after` is empty, or null when both are
empty; the value returned is true exactly when cells remain; the payload of
the removed cell has been handed to `payload_free_function` and its node
has been freed. -/
theorem LLIterator_Remove_cursor (mem : Memory) (list : LinkedList) (iter : LLIterator)
    (before after : List (Nat × LLPayload_t)) (addr : Nat) (payload : LLPayload_t)
    (hlist : Represents mem list (before ++ (addr, payload) :: after))
    (hiter : iter.node = some addr) :
    ∃ mem' list',
      LLIterator_Remove mem list iter =
        some (decide (before ++ after ≠ []), mem', list',
          LLIterator.mk (cursorAfterRemove before after)) ∧
      Represents mem' list' (before ++ after) ∧
      list'.num_elements = list.num_elements - 1 ∧
      mem'.freed = mem.freed ++ [payload] ∧
      mem'.nodes addr = none := by
  obtain ⟨mem', list', h1, h2, h3, h4, h5, _⟩ :=
    LLIterator_Remove_represents mem list iter before after addr payload hlist hiter
  exact ⟨mem', list', h1, h2, h3, h4, h5⟩

/-- Witness of C30: in the list of the payloads 10, 20, 30 the cursor is on
20; the removal returns true, leaves the list of 10 and 30 with the cursor on
30, and hands 20 to the function that frees payloads. -/
theorem LLIterator_Remove_cursor_witness :
    ∃ mem' list',
      LLIterator_Remove exampleMemory exampleList (LLIterator.mk (some 2)) =
        some (true, mem', list', LLIterator.mk (some 3)) ∧
      Represents mem' list' [(1, 10), (3, 30)] ∧
      list'.num_elements = 2 ∧
      mem'.freed = [20] ∧
      mem'.nodes 2 = none :=
  LLIterator_Remove_cursor exampleMemory exampleList (LLIterator.mk (some 2)) [(1, 10)]
    [(3, 30)] 2 20 (by decide) rfl

end hw1

/-! # Theorems about the query terms, the reads and the header names -/

namespace hw4

/-- C31: whatever the value of the parameter `terms` is (empty and blank
values included), the term list that `ProcessQueryRequest` builds from it is
not empty, and `ProcessQuery` on it passes its `Verify333` and returns a
list of results, for every query processor and every order of results. -/
theorem ProcessQueryRequest_terms_nonempty (terms : List Char) :
    (ProcessQueryRequest.query_terms terms).2 ≠ [] ∧
    (ProcessQueryRequest.query_terms []).2 = [[]] ∧
    (ProcessQueryRequest.query_terms "   ".toList).2 = [[]] ∧
    ∀ (query_processor : hw3.QueryProcessor) (lt : hw3.QueryResult → hw3.QueryResult → Bool),
      ∃ results,
        query_processor.ProcessQuery lt (ProcessQueryRequest.query_terms terms).2 =
          some results := by
  have hne : (ProcessQueryRequest.query_terms terms).2 ≠ [] := splitCompress_ne_nil _ _
  exact ⟨hne, by decide, by decide,
    fun query_processor lt => ⟨_, hw3.ProcessQuery_eq lt query_processor hne⟩⟩

theorem find_append_of_some {pattern : List Char} :
    ∀ {s : List Char} {pos : Nat} (more : List Char), find pattern s = some pos →
      find pattern (s ++ more) = some pos
  | [], pos, more, h => by
    rw [find_unfold] at h
    by_cases hp : pattern.isPrefixOf [] = true
    · rw [if_pos hp] at h
      have hnil : pattern = [] := by
        have := List.isPrefixOf_iff_prefix.1 hp
        exact List.prefix_nil.1 this
      subst hnil
      rw [find_unfold]
      simpa using h
    · rw [if_neg hp] at h; cases h
  | c :: cs, pos, more, h => by
    rw [find_unfold] at h
    rw [List.cons_append, find_unfold]
    by_cases hp : pattern.isPrefixOf (c :: cs) = true
    · rw [if_pos hp] at h
      have hp' : pattern.isPrefixOf (c :: (cs ++ more)) = true := by
        rw [List.isPrefixOf_iff_prefix] at hp ⊢
        exact hp.trans ⟨more, rfl⟩
      rw [if_pos hp']
      exact h
    · rw [if_neg hp] at h
      dsimp only at h
      cases hf : find pattern cs with
      | none => rw [hf] at h; cases h
      | some p =>
        rw [hf] at h
        have hnot : ¬ pattern.isPrefixOf (c :: (cs ++ more)) = true := by
          intro hp'
          rw [List.isPrefixOf_iff_prefix] at hp'
          obtain ⟨pre, post, hs, hlen, _⟩ := find_eq_some hf
          apply hp
          rw [List.isPrefixOf_iff_prefix]
          have h1 : pattern.length ≤ (c :: cs).length := by
            rw [hs]
            simp only [List.length_cons, List.length_append]
            omega
          have h2 : c :: cs <+: c :: (cs ++ more) := ⟨more, rfl⟩
          exact List.prefix_of_prefix_length_le hp' h2 h1
        rw [if_neg hnot]
        dsimp only
        rw [find_append_of_some more hf]
        exact h

theorem find_length_le {pattern s : List Char} {pos : Nat} (h : find pattern s = some pos) :
    pos + pattern.length ≤ s.length := by
  obtain ⟨pre, post, hs, hlen, _⟩ := find_eq_some h
  rw [hs]
  simp only [List.length_append]
  omega

/-- One call of the loop of `GetNextRequest` on chunks that are not empty is
determined by the bytes of the buffer followed by the bytes of the chunks. -/
theorem loop_ofChunks :
    ∀ (chunks : List (List Char)) (buffer : List Char), (∀ chunk ∈ chunks, chunk ≠ []) →
      match find kHeaderEnd (buffer ++ chunks.flatten) with
      | some pos =>
        ∃ (left : List (List Char)) (buffer' : List Char),
          GetNextRequest.loop (chunks.map ReadOutcome.data) buffer =
            (some ((buffer ++ chunks.flatten).take (pos + kHeaderEndLen)),
              HttpConnection.mk (left.map ReadOutcome.data) buffer') ∧
          (∀ chunk ∈ left, chunk ≠ []) ∧
          buffer' ++ left.flatten = (buffer ++ chunks.flatten).drop (pos + kHeaderEndLen)
      | none =>
        GetNextRequest.loop (chunks.map ReadOutcome.data) buffer =
          (none, HttpConnection.mk [] (buffer ++ chunks.flatten))
  | [], buffer, _ => by
    simp only [List.flatten_nil, List.append_nil, List.map_nil]
    cases hf : find kHeaderEnd buffer with
    | none => exact loop_of_find_none_nil hf
    | some pos =>
      exact ⟨[], _, loop_of_find_some hf [], fun _ h => absurd h (List.not_mem_nil _), by simp⟩
  | chunk :: chunks, buffer, hne => by
    cases hb : find kHeaderEnd buffer with
    | some pos =>
      rw [find_append_of_some _ hb]
      have hlen := find_length_le hb
      have hlen' : pos + kHeaderEndLen ≤ buffer.length := hlen
      refine ⟨chunk :: chunks, buffer.drop (pos + kHeaderEndLen), ?_, hne, ?_⟩
      · rw [loop_of_find_some hb, List.take_append_of_le_length hlen']
      · rw [List.drop_append_of_le_length hlen']
    | none =>
      have hchunk : chunk ≠ [] := hne chunk (List.mem_cons_self _ _)
      have hread : ¬ (ReadOutcome.data chunk).bytes_read ≤ 0 := by
        have := List.length_pos.2 hchunk
        simp only [ReadOutcome.bytes_read]
        omega
      have ih := loop_ofChunks chunks (buffer ++ chunk)
        (fun c hc => hne c (List.mem_cons_of_mem _ hc))
      rw [List.map_cons, loop_of_find_none_cons hb, if_neg hread]
      rw [List.flatten_cons, ← List.append_assoc]
      exact ih

theorem successiveRequests_nil_eq_stream :
    ∀ (k : Nat) (buffer : List Char),
      (successiveRequests k (HttpConnection.mk [] buffer)).1 = streamRequests k buffer
  | 0, _ => rfl
  | k + 1, buffer => by
    unfold successiveRequests streamRequests
    simp only
    cases hf : find kHeaderEnd buffer with
    | none =>
      have h : (HttpConnection.mk [] buffer).GetNextRequest =
          (none, HttpConnection.mk [] buffer) := by
        unfold HttpConnection.GetNextRequest
        rw [loop_of_find_none_nil hf]
      rw [h]
      simp only
      rw [successiveRequests_nil_eq_stream k buffer]
    | some pos =>
      have h := @GetNextRequest_of_loop (HttpConnection.mk [] buffer) _ _
        (loop_of_find_some hf [])
      rw [h]
      simp only
      rw [successiveRequests_nil_eq_stream k]

theorem successiveRequests_eq_stream :
    ∀ (k : Nat) (chunks : List (List Char)) (buffer : List Char),
      (∀ chunk ∈ chunks, chunk ≠ []) →
      (successiveRequests k (HttpConnection.mk (chunks.map ReadOutcome.data) buffer)).1 =
        streamRequests k (buffer ++ chunks.flatten)
  | 0, _, _, _ => rfl
  | k + 1, chunks, buffer, hne => by
    have hloop := loop_ofChunks chunks buffer hne
    unfold successiveRequests streamRequests
    simp only
    cases hf : find kHeaderEnd (buffer ++ chunks.flatten) with
    | none =>
      rw [hf] at hloop
      have h : (HttpConnection.mk (chunks.map ReadOutcome.data) buffer).GetNextRequest =
          (none, HttpConnection.mk [] (buffer ++ chunks.flatten)) := by
        unfold HttpConnection.GetNextRequest
        rw [hloop]
      rw [h]
      simp only
      rw [successiveRequests_nil_eq_stream]
    | some pos =>
      rw [hf] at hloop
      obtain ⟨left, buffer', hrun, hleft, hrest⟩ := hloop
      have h := @GetNextRequest_of_loop
        (HttpConnection.mk (chunks.map ReadOutcome.data) buffer) _ _ hrun
      rw [h]
      simp only
      rw [successiveRequests_eq_stream k left buffer' hleft, hrest]

/-- C33: two sequences of reads that are not empty and that deliver the
same bytes, each followed by end of file, give the same results for every
number of successive calls of `GetNextRequest` from an empty buffer: the
same requests, and failures from the same call on. The results are those
that the byte stream alone determines. The bound of 1024 bytes on a read is
not needed. -/
theorem GetNextRequest_reads_independent (chunks chunks' : List (List Char))
    (hne : ∀ chunk ∈ chunks, chunk ≠ []) (hne' : ∀ chunk ∈ chunks', chunk ≠ [])
    (hsame : chunks.flatten = chunks'.flatten) (k : Nat) :
    (successiveRequests k (HttpConnection.ofChunks chunks)).1 =
      (successiveRequests k (HttpConnection.ofChunks chunks')).1 ∧
    (successiveRequests k (HttpConnection.ofChunks chunks)).1 =
      streamRequests k chunks.flatten := by
  unfold HttpConnection.ofChunks
  rw [successiveRequests_eq_stream k chunks [] hne,
    successiveRequests_eq_stream k chunks' [] hne', List.nil_append, List.nil_append, hsame]
  exact ⟨rfl, rfl⟩

set_option maxRecDepth 20000 in
/-- Witness of C33: the bytes of two requests, delivered once with the first
terminator cut between two reads and once in three other reads, give the
requests `/x` and `/y` and then a failure. -/
theorem GetNextRequest_reads_independent_witness :
    (successiveRequests 3 (HttpConnection.ofChunks exampleCutChunks)).1 =
      [some (HttpRequest.mk "/x".toList []), some (HttpRequest.mk "/y".toList []), none] ∧
    (successiveRequests 3 (HttpConnection.ofChunks exampleCutChunks)).1 =
      (successiveRequests 3 (HttpConnection.ofChunks exampleOtherChunks)).1 :=
  ⟨by decide,
    (GetNextRequest_reads_independent exampleCutChunks exampleOtherChunks (by decide) (by decide)
      (by decide) 3).1⟩

set_option maxRecDepth 20000 in
/-- C38 on the line ` :v`: its first colon is neither the first nor the
last character, the name before it is one space, and the name stored after
the trim is empty. -/
theorem ParseRequest_empty_header_name :
    (ParseRequest "GET / HTTP/1.1\r\n :v\r\n\r\n".toList).headers_ = [([], ['v'])] ∧
    (ParseRequest "GET / HTTP/1.1\r\n:v\r\n\r\n".toList).headers_ = [] := by
  decide

end hw4

/-! # Theorems about the shell and the order of the terms -/

namespace hw3

set_option maxRecDepth 20000 in
/-- C32 on an empty line and on a line of blanks: `ParseQuery` gives the
empty term list for them, and `ProcessQuery` ends the process in its
`Verify333`: after the input `T1` and an empty line the shell prints the
result of `t1` and ends in the abort, without reading the line `t2` that
follows; a line that is not blank passes. -/
theorem RunInteractiveShell_blank_line :
    ParseQuery [] = [] ∧ ParseQuery "  \t ".toList = [] ∧
    ParseQuery " t1  T2 ".toList = ["t1".toList, "T2".toList] ∧
    RunInteractiveShell QueryResult.lt (QueryProcessor.mk [(exampleIndex, exampleDocs)]) 5
        (istream.mk "T1\n\nt2\n".toList false false) =
      (["Enter query:".toList, " A (3)".toList, " B (1)".toList, "Enter query:".toList],
        ShellEnd.aborted) ∧
    RunInteractiveShell QueryResult.lt (QueryProcessor.mk [(exampleIndex, exampleDocs)]) 5
        (istream.mk "   ".toList false false) =
      (["Enter query:".toList], ShellEnd.aborted) ∧
    RunInteractiveShell QueryResult.lt (QueryProcessor.mk [(exampleIndex, exampleDocs)]) 5
        (istream.mk "T1\nt2\n".toList false false) =
      (["Enter query:".toList, " A (3)".toList, " B (1)".toList, "Enter query:".toList,
        " B (2)".toList, "Enter query:".toList], ShellEnd.returned) := by
  decide

theorem loop_isInt32 (r : IndexTableReader) (t : List Char) (rest : List (List Char))
    (m : List DocIDElementHeader)
    (hfound : ∀ u ∈ t :: rest, (r.LookupWord u).isSome = true)
    (hnodup : ∀ u ∈ t :: rest, (docIds (r.postings u)).Nodup) :
    ∀ e ∈ MultiTermIntersection.loop r (t :: rest) m, isInt32 e.num_positions := by
  intro e he
  have ht := hfound t (List.mem_cons_self _ _)
  cases hl : r.LookupWord t with
  | none => rw [hl] at ht; cases ht
  | some ct =>
    rw [loop_cons_some hl] at he
    by_cases hemp : (Intersection (r.postings t) m).isEmpty = true
    · rw [if_pos hemp] at he
      exact isInt32_of_mem_Intersection he
    · rw [if_neg hemp] at he
      have hnd : (docIds (Intersection (r.postings t) m)).Nodup := by
        rw [docIds_Intersection]
        exact (hnodup t (List.mem_cons_self _ _)).filter _
      obtain ⟨_, _, hval⟩ := loop_all_terms r rest (Intersection (r.postings t) m)
        (fun u hu => hfound u (List.mem_cons_of_mem _ hu))
        (fun u hu => hnodup u (List.mem_cons_of_mem _ hu)) hnd
      obtain ⟨_, _, _, _, hint⟩ := hval e he
      exact hint (fun x hx => isInt32_of_mem_Intersection hx)

/-- For two terms or more that the shard all knows, with posting lists that
repeat no doc id: the entries of `MultiTermIntersection` are the documents
of all posting lists, each once, with the `int32_t` sum of their
frequencies. -/
theorem mem_MultiTermIntersection (r : IndexTableReader) (first second : List Char)
    (rest : List (List Char))
    (hfound : ∀ u ∈ first :: second :: rest, (r.LookupWord u).isSome = true)
    (hnodup : ∀ u ∈ first :: second :: rest, (docIds (r.postings u)).Nodup) :
    (MultiTermIntersection (first :: second :: rest) r).Nodup ∧
    ∀ e, e ∈ MultiTermIntersection (first :: second :: rest) r ↔
      (∀ u ∈ first :: second :: rest, e.doc_id ∈ docIds (r.postings u)) ∧
        e.num_positions = wrapInt32
          (((first :: second :: rest).map
            (fun u => frequencyOf e.doc_id (r.postings u))).sum) := by
  have hf := hfound first (List.mem_cons_self _ _)
  cases hl : r.LookupWord first with
  | none => rw [hl] at hf; cases hf
  | some ct =>
    rw [MultiTermIntersection_cons_some hl]
    have hfound' : ∀ u ∈ second :: rest, (r.LookupWord u).isSome = true :=
      fun u hu => hfound u (List.mem_cons_of_mem _ hu)
    have hnodup' : ∀ u ∈ second :: rest, (docIds (r.postings u)).Nodup :=
      fun u hu => hnodup u (List.mem_cons_of_mem _ hu)
    have hnd1 := hnodup first (List.mem_cons_self _ _)
    obtain ⟨hnd, hmem, hval⟩ :=
      loop_all_terms r (second :: rest) (r.postings first) hfound' hnodup' hnd1
    have hint := loop_isInt32 r second rest (r.postings first) hfound' hnodup'
    have hvalue : ∀ e ∈ MultiTermIntersection.loop r (second :: rest) (r.postings first),
        e.num_positions = wrapInt32
          (((first :: second :: rest).map
            (fun u => frequencyOf e.doc_id (r.postings u))).sum) := by
      intro e he
      obtain ⟨e0, he0, hid, hsum, _⟩ := hval e he
      rw [wrapInt32_of_isInt32 (hint e he)] at hsum
      rw [hsum, ← hid]
      simp only [List.map_cons, List.sum_cons]
      rw [frequencyOf_of_nodup hnd1 he0]
    refine ⟨List.Nodup.of_map _ hnd, fun e => ⟨fun he => ⟨?_, hvalue e he⟩, ?_⟩⟩
    · have hd : e.doc_id ∈ docIds (MultiTermIntersection.loop r (second :: rest)
          (r.postings first)) := List.mem_map_of_mem _ he
      have := (hmem e.doc_id).1 hd
      intro u hu
      rcases List.mem_cons.1 hu with rfl | hu
      · exact this.1
      · exact this.2 u hu
    · rintro ⟨hall, hnum⟩
      have hd : e.doc_id ∈ docIds (MultiTermIntersection.loop r (second :: rest)
          (r.postings first)) :=
        (hmem e.doc_id).2 ⟨hall first (List.mem_cons_self _ _),
          fun u hu => hall u (List.mem_cons_of_mem _ hu)⟩
      obtain ⟨e', he', hid⟩ := List.mem_map.1 hd
      have hnum' := hvalue e' he'
      have : e' = e := by
        cases e
        cases e'
        simp only at hid hnum hnum'
        subst hid
        rw [hnum, hnum']
      rw [← this]
      exact he'

theorem MultiTermIntersection_perm (r : IndexTableReader) {terms terms' : List (List Char)}
    (hperm : terms.Perm terms')
    (hnodup : ∀ u ∈ terms, (docIds (r.postings u)).Nodup) :
    (MultiTermIntersection terms r).Perm (MultiTermIntersection terms' r) := by
  by_cases hmissing : ∃ u ∈ terms, r.LookupWord u = none
  · rw [MultiTermIntersection_missing_term r terms hmissing]
    obtain ⟨u, hu, hnone⟩ := hmissing
    rw [MultiTermIntersection_missing_term r terms' ⟨u, hperm.mem_iff.1 hu, hnone⟩]
  · have hfound : ∀ u ∈ terms, (r.LookupWord u).isSome = true := by
      intro u hu
      cases hl : r.LookupWord u with
      | none => exact absurd ⟨u, hu, hl⟩ hmissing
      | some ct => rfl
    have hfound' : ∀ u ∈ terms', (r.LookupWord u).isSome = true :=
      fun u hu => hfound u (hperm.mem_iff.2 hu)
    have hnodup' : ∀ u ∈ terms', (docIds (r.postings u)).Nodup :=
      fun u hu => hnodup u (hperm.mem_iff.2 hu)
    rcases terms with _ | ⟨first, _ | ⟨second, rest⟩⟩
    · rw [List.nil_perm.1 hperm]
    · rw [List.singleton_perm.1 hperm]
    · rcases terms' with _ | ⟨first', _ | ⟨second', rest'⟩⟩
      · exact absurd hperm.length_eq (by simp)
      · exact absurd hperm.length_eq (by simp)
      · obtain ⟨hnd, hmem⟩ := mem_MultiTermIntersection r first second rest hfound hnodup
        obtain ⟨hnd', hmem'⟩ :=
          mem_MultiTermIntersection r first' second' rest' hfound' hnodup'
        rw [List.perm_ext_iff_of_nodup hnd hnd']
        intro e
        rw [hmem e, hmem' e,
          (hperm.map (fun u => frequencyOf e.doc_id (r.postings u))).sum_eq]
        constructor
        · rintro ⟨h1, h2⟩
          exact ⟨fun u hu => h1 u (hperm.mem_iff.2 hu), h2⟩
        · rintro ⟨h1, h2⟩
          exact ⟨fun u hu => h1 u (hperm.mem_iff.1 hu), h2⟩

theorem shardResults_perm {terms terms' : List (List Char)} (hperm : terms.Perm terms') :
    ∀ (readers : List (IndexTableReader × DocTableReader)),
      (∀ shard ∈ readers, ∀ u ∈ terms, (docIds (shard.1.postings u)).Nodup) →
      ((readers.map (shardResults terms)).flatten).Perm
        ((readers.map (shardResults terms')).flatten)
  | [], _ => List.Perm.refl _
  | shard :: readers, h => by
    rw [List.map_cons, List.map_cons, List.flatten_cons, List.flatten_cons]
    refine List.Perm.append ?_
      (shardResults_perm hperm readers (fun s hs => h s (List.mem_cons_of_mem _ hs)))
    unfold shardResults
    rw [AddMatchingDocuments_eq, AddMatchingDocuments_eq, List.nil_append, List.nil_append]
    exact (MultiTermIntersection_perm shard.1 hperm (h shard (List.mem_cons_self _ _))).filterMap _

theorem sort_eq_of_perm {α : Type} (lt : α → α → Bool)
    (hasymm : ∀ a b, lt a b = true → lt b a = false)
    (htrans : ∀ a b c, lt a b = true → lt b c = true → lt a c = true)
    (htotal : ∀ a b, lt a b = false → lt b a = false → a = b)
    {l l' : List α} (hperm : l.Perm l') : sort lt l = sort lt l' := by
  have h1 := sort_sorted lt hasymm htrans l
  have h2 := sort_sorted lt hasymm htrans l'
  have hp : (sort lt l).Perm (sort lt l') :=
    ((sort_perm lt l).trans hperm).trans (sort_perm lt l').symm
  haveI : IsAntisymm α (fun a b => lt b a = false) := ⟨fun a b hab hba => htotal a b hba hab⟩
  exact List.eq_of_perm_of_sorted hp h1 h2

theorem QueryResult.eq_of_not_lt {a b : QueryResult}
    (h1 : QueryResult.lt a b = false) (h2 : QueryResult.lt b a = false) : a = b := by
  have hab := QueryResult.le_of_not_lt h1
  have hba := QueryResult.le_of_not_lt h2
  unfold QueryResult.le at hab hba
  have hn1 : ¬ (QueryResult.lt a b = true) := by rw [h1]; simp
  have hn2 : ¬ (QueryResult.lt b a = true) := by rw [h2]; simp
  rw [QueryResult.lt_iff] at hn1 hn2
  rcases hab with h | ⟨hn, hr⟩
  · exact absurd (Or.inl h) hn2
  · rcases hba with h | ⟨_, hr'⟩
    · exact absurd (Or.inl h) hn1
    · cases a
      cases b
      simp only at hn hr hr'
      subst hn
      congr 1
      omega

/-- C34: for every `operator<` that is a strict total order of the results,
and for shards whose posting lists of the query terms repeat no doc id,
`ProcessQuery` returns the same list for a term list and for every
rearrangement of it (and aborts for both when the list is empty). -/
theorem ProcessQuery_perm_terms (lt : QueryResult → QueryResult → Bool)
    (hasymm : ∀ a b, lt a b = true → lt b a = false)
    (htrans : ∀ a b c, lt a b = true → lt b c = true → lt a c = true)
    (htotal : ∀ a b, lt a b = false → lt b a = false → a = b)
    (self : QueryProcessor) (terms terms' : List (List Char)) (hperm : terms.Perm terms')
    (hnodup : ∀ shard ∈ self.readers, ∀ term ∈ terms,
      (docIds (shard.1.postings term)).Nodup) :
    self.ProcessQuery lt terms = self.ProcessQuery lt terms' := by
  by_cases hnil : terms = []
  · subst hnil
    rw [List.nil_perm.1 hperm]
  · have hnil' : terms' ≠ [] := fun h => hnil (List.perm_nil.1 (h ▸ hperm))
    rw [ProcessQuery_eq lt self hnil, ProcessQuery_eq lt self hnil',
      sort_eq_of_perm lt hasymm htrans htotal (shardResults_perm hperm self.readers hnodup)]

/-- Witness of C34: the terms `t1 t` and `t t1` give the same list, the
document `A` with the rank 6. -/
theorem ProcessQuery_perm_terms_witness :
    (QueryProcessor.mk [(exampleIndex, exampleDocs)]).ProcessQuery QueryResult.lt
        ["t1".toList, "t".toList] = some [⟨"A".toList, 6⟩] ∧
    (QueryProcessor.mk [(exampleIndex, exampleDocs)]).ProcessQuery QueryResult.lt
        ["t1".toList, "t".toList] =
      (QueryProcessor.mk [(exampleIndex, exampleDocs)]).ProcessQuery QueryResult.lt
        ["t".toList, "t1".toList] :=
  ⟨by decide,
    ProcessQuery_perm_terms QueryResult.lt (fun _ _ => QueryResult.lt_asymm)
      (fun _ _ _ => QueryResult.lt_trans) (fun _ _ => QueryResult.eq_of_not_lt)
      (QueryProcessor.mk [(exampleIndex, exampleDocs)]) ["t1".toList, "t".toList]
      ["t".toList, "t1".toList] (List.Perm.swap _ _ _) (by decide)⟩

end hw3

/-! # Theorems about Push, Pop and Sort of the linked list -/

namespace hw1

theorem IsSegment_live {nodes : Nat → Option LinkedListNode} :
    ∀ (cells : List (Nat × LLPayload_t)) (prev next : Option Nat),
      IsSegment nodes prev next cells → ∀ a ∈ cells.map Prod.fst, (nodes a).isSome = true
  | [], _, _, _, _, ha => absurd ha (List.not_mem_nil _)
  | (b, x) :: cells, prev, next, h, a, ha => by
    rw [IsSegment] at h
    rcases List.mem_cons.1 ha with rfl | ha
    · rw [h.1]; rfl
    · exact IsSegment_live cells (some b) next h.2 a ha

theorem Represents.fresh {mem : Memory} {list : LinkedList} {cells : List (Nat × LLPayload_t)}
    (h : Represents mem list cells) {ln : Nat} (hln : mem.nodes ln = none) :
    ln ∉ cells.map Prod.fst := by
  intro hmem
  have := IsSegment_live cells none none h.2.2.2.2 ln hmem
  rw [hln] at this
  cases this

theorem Represents.list_eq {mem mem' : Memory} {list list' : LinkedList}
    {cells : List (Nat × LLPayload_t)} (h : Represents mem list cells)
    (h' : Represents mem' list' cells) : list' = list := by
  obtain ⟨h1, h2, h3, _⟩ := h
  obtain ⟨h1', h2', h3', _⟩ := h'
  cases list
  cases list'
  simp only at h1 h2 h3 h1' h2' h3'
  rw [h1, h2, h3, h1', h2', h3']

theorem lastAddr_cons_ne_none (c : Nat × LLPayload_t) (cells : List (Nat × LLPayload_t))
    (otherwise : Option Nat) : ∃ t, lastAddr (c :: cells) otherwise = some t := by
  obtain ⟨t, ht, _⟩ := lastAddr_mem (c :: cells) otherwise (List.cons_ne_nil _ _)
  exact ⟨t, ht⟩

/-- `LinkedList_Push` on a list that holds `cells`, with a fresh address from
`malloc`: the list then holds the new cell followed by `cells`. -/
theorem LinkedList_Push_represents {mem : Memory} {list : LinkedList}
    {cells : List (Nat × LLPayload_t)} (h : Represents mem list cells) {ln : Nat}
    (hln : mem.nodes ln = none) (payload : LLPayload_t) :
    ∃ mem' list', LinkedList_Push mem list (some ln) payload = some (mem', list') ∧
      Represents mem' list' ((ln, payload) :: cells) ∧
      mem'.freed = mem.freed ∧
      ∀ a, (mem'.nodes a).isSome = true → a = ln ∨ (mem.nodes a).isSome = true := by
  have hfresh := h.fresh hln
  obtain ⟨hnum, hhead, htail, hnodup, hseg⟩ := h
  cases cells with
  | nil =>
    simp only [List.length_nil, Nat.cast_zero] at hnum
    simp only [firstAddr] at hhead
    simp only [lastAddr] at htail
    refine ⟨mem.malloc ln (LinkedListNode.mk payload none none),
      LinkedList.mk 1 (some ln) (some ln), ?_, ?_, rfl, ?_⟩
    · simp [LinkedList_Push, hnum, hhead, htail]
    · refine ⟨rfl, rfl, rfl, by simp, ?_⟩
      rw [IsSegment]
      exact ⟨by simp [Memory.malloc, firstAddr], trivial⟩
    · intro a hlive
      by_cases hal : a = ln
      · exact Or.inl hal
      · right
        simpa [Memory.malloc, hal] using hlive
  | cons c rest =>
    obtain ⟨hd, y⟩ := c
    obtain ⟨t, ht⟩ := lastAddr_cons_ne_none (hd, y) rest none
    have hne : hd ≠ ln := fun e => hfresh (by rw [← e]; simp)
    have hnum0 : list.num_elements ≠ 0 := by
      rw [hnum]; simp only [List.length_cons]; omega
    simp only [firstAddr] at hhead
    rw [ht] at htail
    have hseg1 : IsSegment (mem.malloc ln (LinkedListNode.mk payload (some hd) none)).nodes
        none none ((hd, y) :: rest) := by
      refine IsSegment_congr _ none none (fun a ha => ?_) hseg
      have : a ≠ ln := fun e => hfresh (e ▸ ha)
      simp [Memory.malloc, this]
    obtain ⟨hnode, hhnode, hseg2⟩ := IsSegment_setPrev_first hseg1
      (List.nodup_cons.1 hnodup).1 (some ln)
    refine ⟨Memory.mk (fun a => if a = hd then some { hnode with prev := some ln }
        else (mem.malloc ln (LinkedListNode.mk payload (some hd) none)).nodes a) mem.freed,
      LinkedList.mk (list.num_elements + 1) (some ln) list.tail, ?_, ?_, rfl, ?_⟩
    · simp [LinkedList_Push, hnum0, hhead, htail, Memory.setPrev, hhnode]
      rfl
    · refine ⟨?_, rfl, ?_, ?_, ?_⟩
      · show list.num_elements + 1 = _
        rw [hnum]; simp
      · show list.tail = _
        rw [htail, ← ht]; rfl
      · rw [List.map_cons, List.nodup_cons]
        exact ⟨hfresh, hnodup⟩
      · rw [IsSegment]
        refine ⟨?_, hseg2⟩
        simp [Memory.malloc, Ne.symm hne, firstAddr]
    · intro a ha
      by_cases hal : a = ln
      · exact Or.inl hal
      · right
        by_cases hah : a = hd
        · subst hah
          have := IsSegment_live _ none none hseg a (by simp)
          exact this
        · simpa [Memory.malloc, hal, hah] using ha

/-- `LinkedList_Append` on a list that holds `cells`, with a fresh address
from `malloc`: the list then holds `cells` followed by the new cell. -/
theorem LinkedList_Append_represents {mem : Memory} {list : LinkedList}
    {cells : List (Nat × LLPayload_t)} (h : Represents mem list cells) {ln : Nat}
    (hln : mem.nodes ln = none) (payload : LLPayload_t) :
    ∃ mem' list', LinkedList_Append mem list (some ln) payload = some (mem', list') ∧
      Represents mem' list' (cells ++ [(ln, payload)]) ∧
      mem'.freed = mem.freed ∧
      ∀ a, (mem'.nodes a).isSome = true → a = ln ∨ (mem.nodes a).isSome = true := by
  have hfresh := h.fresh hln
  obtain ⟨hnum, hhead, htail, hnodup, hseg⟩ := h
  by_cases hcells : cells = []
  · subst hcells
    simp only [List.length_nil, Nat.cast_zero] at hnum
    simp only [firstAddr] at hhead
    simp only [lastAddr] at htail
    refine ⟨mem.malloc ln (LinkedListNode.mk payload none none),
      LinkedList.mk 1 (some ln) (some ln), ?_, ?_, rfl, ?_⟩
    · simp [LinkedList_Append, hnum, hhead, htail]
    · refine ⟨rfl, rfl, rfl, by simp, ?_⟩
      rw [List.nil_append, IsSegment]
      exact ⟨by simp [Memory.malloc, firstAddr], trivial⟩
    · intro a hlive
      by_cases hal : a = ln
      · exact Or.inl hal
      · right
        simpa [Memory.malloc, hal] using hlive
  · obtain ⟨l, lnode0, hl, hlmem, hlnode0, _⟩ :=
      IsSegment_setNext_last (some ln) cells none none none hcells hnodup hseg
    have hseg1 : IsSegment (mem.malloc ln (LinkedListNode.mk payload none (some l))).nodes
        none none cells := by
      refine IsSegment_congr _ none none (fun a ha => ?_) hseg
      have : a ≠ ln := fun e => hfresh (e ▸ ha)
      simp [Memory.malloc, this]
    obtain ⟨l', lnode, hl', _, hlnode, hseg2⟩ :=
      IsSegment_setNext_last (some ln) cells none none none hcells hnodup hseg1
    have hll : l' = l := by
      rw [hl] at hl'
      injection hl' with hl'
      exact hl'.symm
    subst hll
    have hne : l' ≠ ln := fun e => hfresh (e ▸ hlmem)
    have hnum0 : list.num_elements ≠ 0 := by
      have := List.length_pos.2 hcells
      rw [hnum]; omega
    obtain ⟨hd, hhd⟩ : ∃ hd, firstAddr cells none = some hd := by
      cases cells with
      | nil => exact absurd rfl hcells
      | cons c rest => exact ⟨c.1, rfl⟩
    rw [hhd] at hhead
    rw [hl] at htail
    refine ⟨Memory.mk (fun a => if a = l' then some { lnode with next := some ln }
        else (mem.malloc ln (LinkedListNode.mk payload none (some l'))).nodes a) mem.freed,
      LinkedList.mk (list.num_elements + 1) list.head (some ln), ?_, ?_, rfl, ?_⟩
    · simp [LinkedList_Append, hnum0, hhead, htail, Memory.setNext, hlnode]
      rfl
    · refine ⟨?_, ?_, ?_, ?_, ?_⟩
      · show list.num_elements + 1 = _
        rw [hnum]; simp
      · show list.head = _
        rw [hhead, ← hhd, firstAddr_append]
        exact firstAddr_of_ne_nil hcells _ _
      · show some ln = _
        rw [lastAddr_append]
        rfl
      · rw [List.map_append, List.nodup_append]
        refine ⟨hnodup, by simp, ?_⟩
        intro a ha ha'
        simp only [List.map_cons, List.map_nil, List.mem_singleton] at ha'
        exact hfresh (ha' ▸ ha)
      · rw [IsSegment_append]
        refine ⟨hseg2, ?_⟩
        rw [hl, IsSegment]
        refine ⟨?_, trivial⟩
        simp [Memory.malloc, Ne.symm hne, firstAddr]
    · intro a hlive
      by_cases hal : a = ln
      · exact Or.inl hal
      · right
        by_cases hah : a = l'
        · subst hah
          rw [hlnode0]; rfl
        · simpa [Memory.malloc, hal, hah] using hlive

/-- `LLSlice` on a list that holds `cells` followed by one cell: it returns
true with the payload of that cell, and the list then holds `cells`. -/
theorem LLSlice_represents {mem : Memory} {list : LinkedList}
    {cells : List (Nat × LLPayload_t)} {t : Nat} {x : LLPayload_t}
    (h : Represents mem list (cells ++ [(t, x)])) (payload_ptr : LLPayload_t) :
    ∃ mem' list', LLSlice mem list payload_ptr = some (true, x, mem', list') ∧
      Represents mem' list' cells ∧
      mem'.freed = mem.freed ∧
      ∀ a, (mem'.nodes a).isSome = true → (mem.nodes a).isSome = true ∧ a ≠ t := by
  obtain ⟨hnum, hhead, htail, hnodup, hseg⟩ := h
  rw [IsSegment_append] at hseg
  obtain ⟨hinit, hlast⟩ := hseg
  rw [IsSegment] at hlast
  obtain ⟨hnode, _⟩ := hlast
  simp only [firstAddr] at hnode
  rw [List.map_append, List.nodup_append] at hnodup
  obtain ⟨hnb, _, hdisj⟩ := hnodup
  have ht_b : t ∉ cells.map Prod.fst := fun hm => hdisj hm (by simp)
  rw [lastAddr_append] at htail
  simp only [lastAddr] at htail
  rw [List.length_append, List.length_singleton] at hnum
  by_cases hcells : cells = []
  · subst hcells
    simp only [List.length_nil, Nat.zero_add, Nat.cast_one] at hnum
    simp only [lastAddr] at hnode
    refine ⟨mem.free t, LinkedList.mk 0 none none, ?_, ?_, rfl, ?_⟩
    · simp [LLSlice, hnum, htail, hnode]
    · exact ⟨rfl, rfl, rfl, List.nodup_nil, trivial⟩
    · intro a hlive
      by_cases hat : a = t
      · simp [Memory.free, hat] at hlive
      · exact ⟨by simpa [Memory.free, hat] using hlive, hat⟩
  · obtain ⟨l, lnode, hl, hlmem, hlnode, hsegl⟩ :=
      IsSegment_setNext_last none cells none _ none hcells hnb hinit
    have hlen : 0 < cells.length := List.length_pos.2 hcells
    have hgt : 1 < list.num_elements := by rw [hnum]; omega
    have hne0 : list.num_elements ≠ 0 := by omega
    have hne1 : list.num_elements ≠ 1 := by omega
    rw [hl] at hnode
    refine ⟨(Memory.mk (fun a => if a = l then some { lnode with next := none }
        else mem.nodes a) mem.freed).free t,
      LinkedList.mk (list.num_elements - 1) list.head (some l), ?_, ?_, rfl, ?_⟩
    · simp [LLSlice, hne0, hne1, htail, hnode, Memory.setNext, hlnode]
    · refine ⟨?_, ?_, hl.symm, hnb, ?_⟩
      · show list.num_elements - 1 = _
        rw [hnum]; simp
      · show list.head = _
        rw [hhead, firstAddr_append]
        exact firstAddr_of_ne_nil hcells _ _
      · refine IsSegment_congr cells none none (fun a ha => ?_) hsegl
        have : a ≠ t := fun e => ht_b (e ▸ ha)
        simp [Memory.free, this]
    · intro a hlive
      by_cases hat : a = t
      · simp [Memory.free, hat] at hlive
      · refine ⟨?_, hat⟩
        by_cases hal : a = l
        · subst hal
          rw [hlnode]; rfl
        · simpa [Memory.free, hat, hal] using hlive

/-- `LinkedList_Pop` on a list that holds one cell followed by `cells`: it
returns true with the payload of that cell, and the list then holds
`cells`. -/
theorem LinkedList_Pop_represents {mem : Memory} {list : LinkedList}
    {cells : List (Nat × LLPayload_t)} {hd : Nat} {y : LLPayload_t}
    (h : Represents mem list ((hd, y) :: cells)) (payload_ptr : LLPayload_t) :
    ∃ mem' list', LinkedList_Pop mem list payload_ptr = some (true, y, mem', list') ∧
      Represents mem' list' cells ∧
      mem'.freed = mem.freed ∧
      ∀ a, (mem'.nodes a).isSome = true → (mem.nodes a).isSome = true ∧ a ≠ hd := by
  cases cells with
  | nil =>
    obtain ⟨mem', list', hrun, hrep, hfreed, hlive⟩ :=
      @LLSlice_represents mem list [] hd y h y
    obtain ⟨hnum, hhead, _, _, hseg⟩ := h
    rw [IsSegment] at hseg
    simp only [List.length_singleton, Nat.cast_one] at hnum
    simp only [firstAddr] at hhead hseg
    refine ⟨mem', list', ?_, hrep, hfreed, hlive⟩
    simp [LinkedList_Pop, hnum, hhead, hseg.1]
    exact hrun
  | cons c rest =>
    obtain ⟨q, z⟩ := c
    obtain ⟨hnum, hhead, htail, hnodup, hseg⟩ := h
    rw [IsSegment] at hseg
    obtain ⟨hnode, hrest⟩ := hseg
    simp only [firstAddr] at hnode hhead
    rw [List.map_cons, List.nodup_cons] at hnodup
    obtain ⟨hhd_rest, hnodup'⟩ := hnodup
    have hq_rest : q ∉ rest.map Prod.fst := (List.nodup_cons.1 hnodup').1
    obtain ⟨qnode, hqnode, hsegq⟩ := IsSegment_setPrev_first hrest hq_rest none
    have hgt : 1 < list.num_elements := by
      rw [hnum]; simp only [List.length_cons]; omega
    have hne0 : list.num_elements ≠ 0 := by omega
    have hne1 : list.num_elements ≠ 1 := by omega
    refine ⟨(Memory.mk (fun a => if a = q then some { qnode with prev := none }
        else mem.nodes a) mem.freed).free hd,
      LinkedList.mk (list.num_elements - 1) (some q) list.tail, ?_, ?_, rfl, ?_⟩
    · simp [LinkedList_Pop, hne0, hne1, hhead, hnode, Memory.setPrev, hqnode]
    · refine ⟨?_, rfl, ?_, hnodup', ?_⟩
      · show list.num_elements - 1 = _
        rw [hnum]; simp
      · show list.tail = _
        rw [htail]
        rfl
      · refine IsSegment_congr _ none none (fun a ha => ?_) hsegq
        have : a ≠ hd := fun e => hhd_rest (e ▸ ha)
        simp [Memory.free, this]
    · intro a hlive
      by_cases hat : a = hd
      · simp [Memory.free, hat] at hlive
      · refine ⟨?_, hat⟩
        by_cases haq : a = q
        · subst haq
          rw [hqnode]; rfl
        · simpa [Memory.free, hat, haq] using hlive

theorem LinkedList_Pop_empty {mem : Memory} {list : LinkedList}
    (h : Represents mem list []) (payload_ptr : LLPayload_t) :
    LinkedList_Pop mem list payload_ptr = some (false, payload_ptr, mem, list) := by
  have hnum : list.num_elements = 0 := by simpa using h.1
  simp [LinkedList_Pop, hnum]

theorem LLSlice_empty {mem : Memory} {list : LinkedList}
    (h : Represents mem list []) (payload_ptr : LLPayload_t) :
    LLSlice mem list payload_ptr = some (false, payload_ptr, mem, list) := by
  have hnum : list.num_elements = 0 := by simpa using h.1
  simp [LLSlice, hnum]

theorem IsChain_of_IsSegment {nodes : Nat → Option LinkedListNode} :
    ∀ (cells : List (Nat × LLPayload_t)) (prev : Option Nat),
      IsSegment nodes prev none cells →
      IsChain nodes (firstAddr cells none) (cells.map Prod.fst)
  | [], _, _ => rfl
  | (a, x) :: rest, prev, h => by
    rw [IsSegment] at h
    exact ⟨rfl, _, h.1, IsChain_of_IsSegment rest (some a) h.2⟩

theorem lastAddr_eq_getLast (cells : List (Nat × LLPayload_t)) :
    lastAddr cells none = (cells.map Prod.fst).getLast? := by
  rcases List.eq_nil_or_concat cells with rfl | ⟨init, last, rfl⟩
  · rfl
  · obtain ⟨t, x⟩ := last
    rw [List.concat_eq_append, lastAddr_append, List.map_append]
    simp [lastAddr]

theorem firstAddr_eq_none {cells : List (Nat × LLPayload_t)} :
    firstAddr cells none = none ↔ cells = [] := by
  cases cells with
  | nil => simp [firstAddr]
  | cons c rest => simp [firstAddr]

theorem lastAddr_eq_none {cells : List (Nat × LLPayload_t)} :
    lastAddr cells none = none ↔ cells = [] := by
  cases cells with
  | nil => simp [lastAddr]
  | cons c rest =>
    obtain ⟨t, ht⟩ := lastAddr_cons_ne_none c rest none
    simp [ht]

/-- A list that holds cells is well formed. -/
theorem WellFormed_of_Represents {mem : Memory} {list : LinkedList}
    {cells : List (Nat × LLPayload_t)} (h : Represents mem list cells) :
    WellFormed mem list := by
  obtain ⟨hnum, hhead, htail, hnodup, hseg⟩ := h
  have hzero : list.num_elements = 0 ↔ cells = [] := by
    rw [hnum]
    constructor
    · intro h0
      exact List.length_eq_zero.1 (by exact_mod_cast h0)
    · intro h0
      rw [h0]; rfl
  refine ⟨cells.map Prod.fst, ?_, ?_, ?_, ?_, ?_, ?_, ?_, ?_⟩
  · rw [hhead]
    exact IsChain_of_IsSegment cells none hseg
  · rw [hnum, List.length_map]
  · rw [hhead, hzero]
    exact firstAddr_eq_none
  · rw [htail, hzero]
    exact lastAddr_eq_none
  · intro head hh
    rw [hhead] at hh
    cases cells with
    | nil => cases hh
    | cons c rest =>
      obtain ⟨a, x⟩ := c
      rw [IsSegment] at hseg
      simp only [firstAddr, Option.some.injEq] at hh
      subst hh
      exact ⟨_, hseg.1, rfl⟩
  · intro tail ht
    rw [htail] at ht
    rcases List.eq_nil_or_concat cells with rfl | ⟨init, last, rfl⟩
    · cases ht
    · obtain ⟨t, x⟩ := last
      rw [List.concat_eq_append] at ht hseg
      rw [lastAddr_append] at ht
      simp only [lastAddr, Option.some.injEq] at ht
      subst ht
      rw [IsSegment_append, IsSegment] at hseg
      exact ⟨_, hseg.2.1, rfl⟩
  · rw [htail]
    exact lastAddr_eq_getLast cells
  · intro n hn node successor hnode hnext
    obtain ⟨c, hc, hcn⟩ := List.mem_map.1 hn
    obtain ⟨l, r, hlr⟩ := List.append_of_mem hc
    obtain ⟨a, x⟩ := c
    simp only at hcn
    subst hcn
    rw [hlr, IsSegment_append, IsSegment] at hseg
    obtain ⟨_, hn', hr⟩ := hseg
    rw [hnode] at hn'
    injection hn' with hn'
    rw [hn'] at hnext
    simp only at hnext
    cases r with
    | nil => cases hnext
    | cons d r' =>
      obtain ⟨m, y⟩ := d
      simp only [firstAddr, Option.some.injEq] at hnext
      subst hnext
      rw [IsSegment] at hr
      exact ⟨_, hr.1, rfl⟩

/-- Every reachable list holds cells, and every live node is one of them. -/
theorem Reachable_represents {mem : Memory} {list : LinkedList} (h : Reachable mem list) :
    ∃ cells, Represents mem list cells ∧
      ∀ a, (mem.nodes a).isSome = true → a ∈ cells.map Prod.fst := by
  induction h with
  | allocate freed =>
    exact ⟨[], ⟨rfl, rfl, rfl, List.nodup_nil, trivial⟩, fun a ha => by simp at ha⟩
  | @push mem list ln payload mem' list' _ hln hrun ih =>
    obtain ⟨cells, hrep, hlive⟩ := ih
    obtain ⟨mem1, list1, hrun1, hrep1, _, hlive1⟩ := LinkedList_Push_represents hrep hln payload
    rw [hrun1] at hrun
    simp only [Option.some.injEq, Prod.mk.injEq] at hrun
    obtain ⟨rfl, rfl⟩ := hrun
    refine ⟨_, hrep1, fun a ha => ?_⟩
    rcases hlive1 a ha with rfl | h
    · simp
    · exact List.mem_cons_of_mem _ (hlive a h)
  | @append mem list ln payload mem' list' _ hln hrun ih =>
    obtain ⟨cells, hrep, hlive⟩ := ih
    obtain ⟨mem1, list1, hrun1, hrep1, _, hlive1⟩ :=
      LinkedList_Append_represents hrep hln payload
    rw [hrun1] at hrun
    simp only [Option.some.injEq, Prod.mk.injEq] at hrun
    obtain ⟨rfl, rfl⟩ := hrun
    refine ⟨_, hrep1, fun a ha => ?_⟩
    rw [List.map_append, List.mem_append]
    rcases hlive1 a ha with rfl | h
    · right; simp
    · exact Or.inl (hlive a h)
  | @pop mem list payload_ptr ret payload mem' list' _ hrun ih =>
    obtain ⟨cells, hrep, hlive⟩ := ih
    cases cells with
    | nil =>
      rw [LinkedList_Pop_empty hrep] at hrun
      simp only [Option.some.injEq, Prod.mk.injEq] at hrun
      obtain ⟨_, _, rfl, rfl⟩ := hrun
      exact ⟨[], hrep, hlive⟩
    | cons c rest =>
      obtain ⟨hd, y⟩ := c
      obtain ⟨mem1, list1, hrun1, hrep1, _, hlive1⟩ :=
        LinkedList_Pop_represents hrep payload_ptr
      rw [hrun1] at hrun
      simp only [Option.some.injEq, Prod.mk.injEq] at hrun
      obtain ⟨_, _, rfl, rfl⟩ := hrun
      refine ⟨rest, hrep1, fun a ha => ?_⟩
      obtain ⟨hl, hne⟩ := hlive1 a ha
      rcases List.mem_cons.1 (hlive a hl) with h | h
      · exact absurd h hne
      · exact h
  | @slice mem list payload_ptr ret payload mem' list' _ hrun ih =>
    obtain ⟨cells, hrep, hlive⟩ := ih
    rcases List.eq_nil_or_concat cells with rfl | ⟨init, last, rfl⟩
    · rw [LLSlice_empty hrep] at hrun
      simp only [Option.some.injEq, Prod.mk.injEq] at hrun
      obtain ⟨_, _, rfl, rfl⟩ := hrun
      exact ⟨[], hrep, hlive⟩
    · obtain ⟨t, x⟩ := last
      rw [List.concat_eq_append] at hrep hlive
      obtain ⟨mem1, list1, hrun1, hrep1, _, hlive1⟩ := LLSlice_represents hrep payload_ptr
      rw [hrun1] at hrun
      simp only [Option.some.injEq, Prod.mk.injEq] at hrun
      obtain ⟨_, _, rfl, rfl⟩ := hrun
      refine ⟨init, hrep1, fun a ha => ?_⟩
      obtain ⟨hl, hne⟩ := hlive1 a ha
      have hmem := hlive a hl
      rw [List.map_append, List.mem_append] at hmem
      rcases hmem with h | h
      · exact h
      · simp only [List.map_cons, List.map_nil, List.mem_singleton] at h
        exact absurd h hne
  | @remove mem list iter ret mem' list' iter' _ hrun ih =>
    obtain ⟨cells, hrep, hlive⟩ := ih
    cases hnode : iter.node with
    | none => simp [LLIterator_Remove, hnode] at hrun
    | some addr =>
      cases hmem : mem.nodes addr with
      | none => simp [LLIterator_Remove, hnode, hmem] at hrun
      | some node =>
        have haddr : addr ∈ cells.map Prod.fst := hlive addr (by rw [hmem]; rfl)
        obtain ⟨c, hc, hcn⟩ := List.mem_map.1 haddr
        obtain ⟨before, after, hba⟩ := List.append_of_mem hc
        obtain ⟨a0, payload⟩ := c
        simp only at hcn
        subst hcn
        subst hba
        obtain ⟨mem1, list1, hrun1, hrep1, _, _, hfreed, hlive1⟩ :=
          LLIterator_Remove_represents mem list iter before after a0 payload hrep hnode
        rw [hrun1] at hrun
        simp only [Option.some.injEq, Prod.mk.injEq] at hrun
        obtain ⟨_, rfl, rfl, _⟩ := hrun
        refine ⟨before ++ after, hrep1, fun a ha => ?_⟩
        have hne : a ≠ a0 := by
          intro e
          rw [e, hfreed] at ha
          cases ha
        have hin := hlive a (hlive1 a ha)
        rw [List.map_append, List.mem_append] at hin ⊢
        rcases hin with h | h
        · exact Or.inl h
        · rcases List.mem_cons.1 h with h | h
          · exact absurd h hne
          · exact Or.inr h

/-- C35: every list reached from `LinkedList_Allocate`, in a memory without
nodes, by calls of `LinkedList_Push`, `LinkedList_Append`, `LinkedList_Pop`,
`LLSlice` and `LLIterator_Remove` is well formed: `num_elements` is the number
of nodes reachable from `head` by `next` links, `head` and `tail` are null
exactly when it is 0, the head has no `prev` and the tail no `next`, `tail`
is the last reachable node, and `n.next.prev` is `n` for every reachable
node `n` that has a successor. -/
theorem Reachable_well_formed (mem : Memory) (list : LinkedList) (h : Reachable mem list) :
    WellFormed mem list := by
  obtain ⟨cells, hrep, _⟩ := Reachable_represents h
  exact WellFormed_of_Represents hrep

/-- Witness of C35: the list reached by `LinkedList_Push` of 10 at the
address 1, `LinkedList_Append` of 20 at the address 2, `LinkedList_Push` of 5
at the address 3 and `LinkedList_Pop` is well formed; its record has the
count 2, the head 1 and the tail 2. -/
theorem Reachable_well_formed_witness :
    ∃ mem list, Reachable mem list ∧ list = LinkedList.mk 2 (some 1) (some 2) ∧
      WellFormed mem list :=
  have h1 := Reachable.push 1 10 (Reachable.allocate []) rfl rfl
  have h2 := Reachable.append 2 20 h1 rfl rfl
  have h3 := Reachable.push 3 5 h2 rfl rfl
  have h4 := Reachable.pop 0 h3 rfl
  ⟨_, _, h4, rfl, Reachable_well_formed _ _ h4⟩

/-- C36: for a list that holds `cells` and a fresh address from `malloc`:
`LinkedList_Push` of `x` gives the list of the new cell followed by `cells`,
and `LinkedList_Pop` right after it returns true with `x` and gives back the
record of the list, which holds `cells` again; `LinkedList_Append` of `x`
gives the list of `cells` followed by the new cell, and `LLSlice` right after
it returns true with `x` and gives back the record of the list, which holds
`cells` again. On a list without cells `LinkedList_Pop` and `LLSlice` return
false and change nothing. -/
theorem Push_Pop_Append_Slice (mem : Memory) (list : LinkedList)
    (cells : List (Nat × LLPayload_t)) (ln : Nat) (x payload_ptr : LLPayload_t)
    (h : Represents mem list cells) (hln : mem.nodes ln = none) :
    (∃ mem1 list1, LinkedList_Push mem list (some ln) x = some (mem1, list1) ∧
      Represents mem1 list1 ((ln, x) :: cells) ∧
      ∃ mem2, LinkedList_Pop mem1 list1 payload_ptr = some (true, x, mem2, list) ∧
        Represents mem2 list cells) ∧
    (∃ mem1 list1, LinkedList_Append mem list (some ln) x = some (mem1, list1) ∧
      Represents mem1 list1 (cells ++ [(ln, x)]) ∧
      ∃ mem2, LLSlice mem1 list1 payload_ptr = some (true, x, mem2, list) ∧
        Represents mem2 list cells) ∧
    (cells = [] →
      LinkedList_Pop mem list payload_ptr = some (false, payload_ptr, mem, list) ∧
      LLSlice mem list payload_ptr = some (false, payload_ptr, mem, list)) := by
  refine ⟨?_, ?_, ?_⟩
  · obtain ⟨mem1, list1, hpush, hrep1, _, _⟩ := LinkedList_Push_represents h hln x
    obtain ⟨mem2, list2, hpop, hrep2, _, _⟩ := LinkedList_Pop_represents hrep1 payload_ptr
    have hlist : list2 = list := h.list_eq hrep2
    subst hlist
    exact ⟨mem1, list1, hpush, hrep1, mem2, hpop, hrep2⟩
  · obtain ⟨mem1, list1, happend, hrep1, _, _⟩ := LinkedList_Append_represents h hln x
    obtain ⟨mem2, list2, hslice, hrep2, _, _⟩ := LLSlice_represents hrep1 payload_ptr
    have hlist : list2 = list := h.list_eq hrep2
    subst hlist
    exact ⟨mem1, list1, happend, hrep1, mem2, hslice, hrep2⟩
  · rintro rfl
    exact ⟨LinkedList_Pop_empty h payload_ptr, LLSlice_empty h payload_ptr⟩

/-- Witness of C36: on the list of the payloads 10, 20, 30 with the fresh
address 4 and the payload 40, and on the empty list, where the list of one
element that `LinkedList_Push` gives is emptied again by `LinkedList_Pop`. -/
theorem Push_Pop_Append_Slice_witness :
    (∃ mem1 list1, LinkedList_Push exampleMemory exampleList (some 4) 40 = some (mem1, list1) ∧
      Represents mem1 list1 [(4, 40), (1, 10), (2, 20), (3, 30)] ∧
      ∃ mem2, LinkedList_Pop mem1 list1 0 = some (true, 40, mem2, exampleList) ∧
        Represents mem2 exampleList [(1, 10), (2, 20), (3, 30)]) ∧
    (∃ mem1 list1, LinkedList_Append exampleMemory exampleList (some 4) 40 =
        some (mem1, list1) ∧
      Represents mem1 list1 [(1, 10), (2, 20), (3, 30), (4, 40)] ∧
      ∃ mem2, LLSlice mem1 list1 0 = some (true, 40, mem2, exampleList) ∧
        Represents mem2 exampleList [(1, 10), (2, 20), (3, 30)]) ∧
    (∃ mem1 list1, LinkedList_Push (Memory.mk (fun _ => none) []) LinkedList_Allocate (some 1) 7 =
        some (mem1, list1) ∧
      Represents mem1 list1 [(1, 7)] ∧
      ∃ mem2, LinkedList_Pop mem1 list1 0 = some (true, 7, mem2, LinkedList_Allocate) ∧
        Represents mem2 LinkedList_Allocate []) ∧
    LinkedList_Pop (Memory.mk (fun _ => none) []) LinkedList_Allocate 0 =
        some (false, 0, Memory.mk (fun _ => none) [], LinkedList_Allocate) ∧
    LLSlice (Memory.mk (fun _ => none) []) LinkedList_Allocate 0 =
        some (false, 0, Memory.mk (fun _ => none) [], LinkedList_Allocate) :=
  ⟨(Push_Pop_Append_Slice exampleMemory exampleList [(1, 10), (2, 20), (3, 30)] 4 40 0
      (by decide) rfl).1,
    (Push_Pop_Append_Slice exampleMemory exampleList [(1, 10), (2, 20), (3, 30)] 4 40 0
      (by decide) rfl).2.1,
    (Push_Pop_Append_Slice (Memory.mk (fun _ => none) []) LinkedList_Allocate [] 1 7 0
      (by decide) rfl).1,
    (Push_Pop_Append_Slice (Memory.mk (fun _ => none) []) LinkedList_Allocate [] 1 7 0
      (by decide) rfl).2.2 rfl⟩

theorem pass_two_nodes (comparator_function : LLPayload_t → LLPayload_t → Int)
    {mem : Memory} {x y : LLPayload_t}
    (h1 : mem.nodes 1 = some (LinkedListNode.mk x (some 2) none))
    (h2 : mem.nodes 2 = some (LinkedListNode.mk y none (some 1)))
    (hneg : negateInt (comparator_function x y) < 0) (steps : Nat) :
    LinkedList_Sort.pass true comparator_function steps mem 1 0 = SortEnd.unfinished ∨
    ∃ mem', LinkedList_Sort.pass true comparator_function steps mem 1 0 =
        SortEnd.returned (mem', 1) ∧
      mem'.nodes 1 = some (LinkedListNode.mk y (some 2) none) ∧
      mem'.nodes 2 = some (LinkedListNode.mk x none (some 1)) := by
  rcases steps with _ | _ | steps
  · exact Or.inl rfl
  · left
    simp [LinkedList_Sort.pass, h1, h2, hneg, Memory.setPayload]
  · right
    refine ⟨Memory.mk (fun a => if a = 2 then some (LinkedListNode.mk x none (some 1))
      else if a = 1 then some (LinkedListNode.mk y (some 2) none) else mem.nodes a) mem.freed,
      ?_, by simp, by simp⟩
    simp [LinkedList_Sort.pass, h1, h2, hneg, Memory.setPayload]

theorem loop_two_nodes_unfinished (steps : Nat) :
    ∀ (rounds : Nat) (mem : Memory) (x y : LLPayload_t),
      mem.nodes 1 = some (LinkedListNode.mk x (some 2) none) →
      mem.nodes 2 = some (LinkedListNode.mk y none (some 1)) →
      ((x = 10 ∧ y = 20) ∨ (x = 20 ∧ y = 10)) →
      LinkedList_Sort.loop exampleTwoList true exampleComparator steps rounds mem =
        SortEnd.unfinished
  | 0, _, _, _, _, _, _ => rfl
  | rounds + 1, mem, x, y, h1, h2, hxy => by
    have hneg : negateInt (exampleComparator x y) < 0 := by
      rcases hxy with ⟨rfl, rfl⟩ | ⟨rfl, rfl⟩ <;> decide
    rw [LinkedList_Sort.loop]
    simp only [exampleTwoList]
    rcases pass_two_nodes exampleComparator h1 h2 hneg steps with hp | ⟨mem', hp, h1', h2'⟩
    · rw [hp]
    · rw [hp]
      simp only [ne_eq, one_ne_zero, not_false_eq_true, if_true]
      exact loop_two_nodes_unfinished steps rounds mem' y x h1' h2'
        (hxy.symm.imp (fun h => ⟨h.2, h.1⟩) (fun h => ⟨h.2, h.1⟩))

theorem exampleComparator_cases (a b : Nat) :
    (a < b ∧ exampleComparator a b = -2147483648 ∧ exampleComparator b a = 1) ∨
    (a = b ∧ exampleComparator a b = 0 ∧ exampleComparator b a = 0) ∨
    (b < a ∧ exampleComparator a b = 1 ∧ exampleComparator b a = -2147483648) := by
  rcases Nat.lt_trichotomy a b with h | h | h
  · refine Or.inl ⟨h, ?_, ?_⟩
    · simp [exampleComparator, h]
    · have h1 : ¬ b < a := by omega
      have h2 : ¬ b = a := by omega
      simp [exampleComparator, h1, h2]
  · subst h
    exact Or.inr (Or.inl ⟨rfl, by simp [exampleComparator], by simp [exampleComparator]⟩)
  · refine Or.inr (Or.inr ⟨h, ?_, ?_⟩)
    · have h1 : ¬ a < b := by omega
      have h2 : ¬ a = b := by omega
      simp [exampleComparator, h1, h2]
    · simp [exampleComparator, h]

/-- C37 on a comparator that returns the least `int`: `exampleComparator` is
the three-way comparison of a total order, the list of 10 and 20 is in
ascending order for it, and with `ascending` the call of `LinkedList_Sort`
is not over within any number of rounds: `compare_result *= -1` leaves the
least `int` as it is, the pair is exchanged, and the next round exchanges it
back. In descending order the same comparator gives the list of 20 and 10,
and the comparator that returns `-1` leaves the ascending list as it is. -/
theorem LinkedList_Sort_least_int :
    (∀ a b, exampleComparator a b ≤ 0 ∨ exampleComparator b a ≤ 0) ∧
    (∀ a b c, exampleComparator a b ≤ 0 → exampleComparator b c ≤ 0 →
      exampleComparator a c ≤ 0) ∧
    (∀ a b, 0 < exampleComparator a b ↔ exampleComparator b a < 0) ∧
    Represents exampleTwoNodes exampleTwoList [(1, 10), (2, 20)] ∧
    exampleComparator 10 20 ≤ 0 ∧
    negateInt (exampleComparator 10 20) = -2147483648 ∧
    (∀ rounds steps,
      LinkedList_Sort exampleTwoNodes exampleTwoList true exampleComparator rounds steps =
        SortEnd.unfinished) ∧
    (∃ mem', LinkedList_Sort exampleTwoNodes exampleTwoList false exampleComparator 3 3 =
        SortEnd.returned mem' ∧
      Represents mem' exampleTwoList [(1, 20), (2, 10)]) ∧
    (∃ mem', LinkedList_Sort exampleTwoNodes exampleTwoList true exampleSignComparator 3 3 =
        SortEnd.returned mem' ∧
      Represents mem' exampleTwoList [(1, 10), (2, 20)]) := by
  refine ⟨?_, ?_, ?_, by decide, by decide, by decide, ?_, ⟨_, rfl, by decide⟩,
    ⟨_, rfl, by decide⟩⟩
  · intro a b
    rcases exampleComparator_cases a b with ⟨_, h1, h2⟩ | ⟨_, h1, h2⟩ | ⟨_, h1, h2⟩ <;>
      rw [h1, h2] <;> decide
  · intro a b c hab hbc
    rcases exampleComparator_cases a b with ⟨h, h1, _⟩ | ⟨h, h1, _⟩ | ⟨h, h1, _⟩ <;>
      rcases exampleComparator_cases b c with ⟨h', h1', _⟩ | ⟨h', h1', _⟩ | ⟨h', h1', _⟩ <;>
      rcases exampleComparator_cases a c with
        ⟨_, h3, _⟩ | ⟨_, h3, _⟩ | ⟨_, h3, _⟩ <;>
      rw [h1] at hab <;> rw [h1'] at hbc <;> rw [h3] <;>
      first
        | decide
        | (exfalso; revert hab; decide)
        | (exfalso; revert hbc; decide)
        | (exfalso; omega)
  · intro a b
    rcases exampleComparator_cases a b with ⟨_, h1, h2⟩ | ⟨_, h1, h2⟩ | ⟨_, h1, h2⟩ <;>
      rw [h1, h2] <;> decide
  · intro rounds steps
    unfold LinkedList_Sort
    rw [if_neg (by decide)]
    exact loop_two_nodes_unfinished steps rounds exampleTwoNodes 10 20 rfl rfl
      (Or.inl ⟨rfl, rfl⟩)

end hw1

/-! # The worker on a query that ends the process -/

namespace hw4

set_option maxRecDepth 20000 in
/-- C17 on a client that sends one query whose matching documents have the
names `A` and `B` and then closes its side: the request is read and routed to
the query page, `substr(12)` throws for the name, and the process ends: no
response is written and the connection is not closed. With documents named
under `../projdocs/` the same client gets its response and the close. -/
theorem HttpServer_ThrFn_short_name :
    successiveRequests 2 (HttpConnection.mk exampleQueryTask.client_reads []) =
      ([some (HttpRequest.mk "/query?terms=t1".toList []), none], HttpConnection.mk [] []) ∧
    HttpServer_ThrFn exampleCollaborators exampleQueryTask =
      ([], HttpConnection.mk [] [], [WriteOutcome.complete], LoopEnd.aborted) ∧
    (HttpServer_ThrFn exampleCollaborators exampleQueryTask).1.count ServerEvent.closed = 0 ∧
    ((HttpServer_ThrFn exampleDocsCollaborators exampleQueryTask).1.map
      (fun event =>
        match event with
        | ServerEvent.wrote response => response.response_code_
        | ServerEvent.writeFailed _ => -1
        | ServerEvent.closed => 0)) = [200, 0] := by
  decide

end hw4
